import Mathlib

/-!
# Element assembly kernels of `applications/FSI/frac/frac.cpp`

A shallow embedding of the two assembly routines `AssembleNavierStokes`
(analytic, Picard) and `AssembleNavierStokes_AD` (automatic differentiation)
and of the boundary predicate `SetBoundaryCondition`.

Conventions of the embedding.

* `double` values are elements of an arbitrary commutative ring `R` (exact
  arithmetic: the kernels only add, subtract, multiply and negate).
* `std::vector<T>` is a `Vec T`: its size together with an indexing function.
* What the routines obtain from the mesh, the solution store and the
  quadrature evaluator (none of which is part of the file) is the content of an
  `Element`: the gathered dof values, the global dof indices, the refinement
  flag, and for every Gauss point the weight and shape data returned by
  `Jacobian(...)` and `GetPhi(ig)`.
* The calls a routine makes on the global matrix `KK` and the global vector
  `RES` are returned as a list of `Call`s, in program order.  Their effect on
  the content of `KK` and `RES` (`Call.exec`, `run`) follows the spec: the
  `add` calls are additive, `zero` clears the matrix, `close` changes no entry.
* An `adept::adouble` is its value together with its exact derivatives with
  respect to the active dof values of the element, and `jacobian` returns the
  row-major matrix of the derivatives of the dependent variables.
* The calls `AssembleNavierStokes_AD` makes on the `adept::Stack` are a list of
  `StackCall`s, in program order; a `Tape` records which element started the
  live recording and how many variables are registered.

The file has two parts: the definitions (the embedding, auxiliary definitions
for the statements, concrete data), then the theorems, the last section of
which holds the verified properties, named after the claims they settle.
-/

namespace Femus

/-! ## Vectors -/

/-- Model of `std::vector<T>`: the size and the entries; entries at positions
`≥ size` are not part of the vector. -/
structure Vec (α : Type) where
  size : Nat
  data : Nat → α

namespace Vec

/-- Method `v.resize(n)` (new entries are value-initialised with `fill`). -/
def resize {α : Type} (v : Vec α) (n : Nat) (fill : α) : Vec α :=
  ⟨n, fun i => if i < v.size then v.data i else fill⟩

/-- Call `memset(&v[0], 0, n*sizeof(double))`, also `std::fill(begin, end, 0)`
when `n = v.size`. -/
def memset {α : Type} (v : Vec α) (n : Nat) (zero : α) : Vec α :=
  ⟨v.size, fun i => if i < n then zero else v.data i⟩

/-- Assignment `v[i] = x`. -/
def set {α : Type} (v : Vec α) (i : Nat) (x : α) : Vec α :=
  ⟨v.size, fun n => if n = i then x else v.data n⟩

/-- Compound assignment `v[i] += x`. -/
def addAt {α : Type} [Add α] (v : Vec α) (i : Nat) (x : α) : Vec α :=
  ⟨v.size, fun n => if n = i then v.data n + x else v.data n⟩

/-- Compound assignment `v[i] -= x`. -/
def subAt {α : Type} [Sub α] (v : Vec α) (i : Nat) (x : α) : Vec α :=
  ⟨v.size, fun n => if n = i then v.data n - x else v.data n⟩

/-- The entries of the vector, in order. -/
def toList {α : Type} (v : Vec α) : List α :=
  (List.range v.size).map v.data

/-- The empty vector (a default-constructed `std::vector`). -/
def empty {α : Type} (d : α) : Vec α := ⟨0, fun _ => d⟩

end Vec

/-! ## Inputs -/

/-- Output of the quadrature evaluator at one Gauss point:
`Jacobian(coordX, ig, weight, phiV_gss, phiV_x_gss, phiV_xx_gss)` and
`GetPhi(ig)`.  `phiV_x_gss` is flat, entry `i*dim + j` is `∂φ_i/∂x_j`. -/
structure GaussPoint (R : Type) where
  weight : R
  phiV_gss : Nat → R
  phiV_x_gss : Nat → R
  phiP_gss : Nat → R

/-- What is gathered for one element `kel = IS_Mts2Gmt_elem[iel]`:
`nDofsV`, `nDofsP` are `GetElementDofNumber`; `refined` is
`GetRefinedElementIndex(kel)`; `gauss` lists the evaluator outputs for
`ig = 0 .. GetGaussPointNumber()-1`; `solV k i` is the value of velocity
component `k` at local node `i` and `solP i` the pressure value at local node
`i` read from `sol->_Sol`; `dofV k i` and `dofP i` are the `GetKKDof` results. -/
structure Element (R : Type) where
  nDofsV : Nat
  nDofsP : Nat
  refined : Bool
  gauss : List (GaussPoint R)
  solV : Nat → Nat → R
  solP : Nat → R
  dofV : Nat → Nat → Nat
  dofP : Nat → Nat

/-- The data both routines read from `ml_prob` and from the global `force`:
`dim = msh->GetDimension()`, `level = GetLevelToAssemble()`,
`igrid = msh->GetLevel()`, `levelMax = GetLevelMax()`,
`assembleMatrix = GetAssembleMatrix()`, `IRe = get_IReynolds_number()`,
`force k` the global `force[k]`, `SolPdeIndex k` the position of field `k`
(`U, V, W` for `k < dim`, `P` for `k = dim`) in the system. -/
structure Problem (R : Type) where
  dim : Nat
  level : Nat
  igrid : Nat
  levelMax : Nat
  assembleMatrix : Bool
  IRe : R
  force : Nat → R
  SolPdeIndex : Nat → Nat

/-- The mesh as the element loop sees it: `elem iel` is the gathered data of
element `IS_Mts2Gmt_elem[iel]`, and `IS_Mts2Gmt_elem_offset` gives the range of
`iel` owned by each process. -/
structure Mesh (R : Type) where
  elem : Nat → Element R
  IS_Mts2Gmt_elem_offset : Nat → Nat

/-- A call on the global matrix `KK` or on the global vector `RES`. -/
inductive Call (R : Type) where
  | KK_zero : Call R
  | RES_add_vector_blocked (vals : List R) (dofs : List Nat) : Call R
  | KK_add_matrix_blocked (vals : List R) (rows cols : List Nat) : Call R
  | RES_close : Call R
  | KK_close : Call R
  deriving DecidableEq

/-! ## `SetBoundaryCondition` -/

/-- Function `SetBoundaryCondition(x, SolName, value, facename, time)`: the
returned flag `dirichlet` and the number written to `value`. -/
def SetBoundaryCondition {R : Type} [CommRing R] (_x : List R) (SolName : String)
    (facename : Int) (_time : R) : Bool × R :=
  let s0 : Bool × R := (true, 0)
  let s1 : Bool × R :=
    if facename = 1 then
      if SolName = "U" then (s0.1, 0)
      else if SolName = "V" then (false, s0.2)
      else s0
    else s0
  let s2 : Bool × R :=
    if facename = 3 then
      if SolName = "U" then (s1.1, 0)
      else if SolName = "V" then (false, s1.2)
      else s1
    else s1
  s2

/-- The field names `Solname[4][2] = \x7b"U","V","W","P"\x7d`. -/
def Solname (k : Nat) : String :=
  if k = 0 then "U" else if k = 1 then "V" else if k = 2 then "W" else "P"

/-! ## Analytic-Picard kernel `AssembleNavierStokes` -/

/-- The local buffers of `AssembleNavierStokes` that live across elements:
`KKDof`, `Res` and `Jac` (declared before the element loop). -/
structure PicardLocal (R : Type) where
  KKDof : Nat → Vec Nat
  Res : Nat → Vec R
  Jac : Nat → Nat → Vec R

namespace PicardLocal

/-- Apply `f` to the vector `KKDof[b]`. -/
def modKKDof {R : Type} (st : PicardLocal R) (b : Nat) (f : Vec Nat → Vec Nat) :
    PicardLocal R :=
  { st with KKDof := Function.update st.KKDof b (f (st.KKDof b)) }

/-- Apply `f` to the vector `Res[b]`. -/
def modRes {R : Type} (st : PicardLocal R) (b : Nat) (f : Vec R → Vec R) :
    PicardLocal R :=
  { st with Res := Function.update st.Res b (f (st.Res b)) }

/-- Apply `f` to the vector `Jac[a][b]`. -/
def modJac {R : Type} (st : PicardLocal R) (a b : Nat) (f : Vec R → Vec R) :
    PicardLocal R :=
  { st with Jac := Function.update st.Jac a (Function.update (st.Jac a) b (f (st.Jac a b))) }

/-- The buffers before the first element: all vectors empty. -/
def init (R : Type) [CommRing R] : PicardLocal R :=
  ⟨fun _ => Vec.empty 0, fun _ => Vec.empty 0, fun _ _ => Vec.empty 0⟩

end PicardLocal

/-- The local constant `bool penalty = true`. -/
def penalty : Bool := true

section Picard

variable {R : Type} [CommRing R]

/-- Lines 579-594: the body of the loop over the velocity components that
resizes the local vectors of component `ivar` and sets them to zero. -/
def picardResizeVar (p : Problem R) (e : Element R) (s : PicardLocal R) (ivar : Nat) :
    PicardLocal R :=
  let S := p.SolPdeIndex
  let nDofsV := e.nDofsV
  let nDofsP := e.nDofsP
  let s := s.modKKDof ivar (fun v => v.resize nDofsV 0)
  let s := s.modRes (S ivar) (fun v => v.resize nDofsV 0)
  let s := s.modRes (S ivar) (fun v => v.memset nDofsV 0)
  if p.assembleMatrix then
    let s := s.modJac (S ivar) (S ivar) (fun v => v.resize (nDofsV * nDofsV) 0)
    let s := s.modJac (S ivar) (S p.dim) (fun v => v.resize (nDofsV * nDofsP) 0)
    let s := s.modJac (S p.dim) (S ivar) (fun v => v.resize (nDofsP * nDofsV) 0)
    let s := s.modJac (S ivar) (S ivar) (fun v => v.memset (nDofsV * nDofsV) 0)
    let s := s.modJac (S ivar) (S p.dim) (fun v => v.memset (nDofsV * nDofsP) 0)
    s.modJac (S p.dim) (S ivar) (fun v => v.memset (nDofsP * nDofsV) 0)
  else s

/-- Lines 579-604: resize the local vectors of the element and set them to
zero. -/
def picardResize (p : Problem R) (e : Element R) (st : PicardLocal R) : PicardLocal R :=
  let S := p.SolPdeIndex
  let nDofsP := e.nDofsP
  let st1 := (List.range p.dim).foldl (picardResizeVar p e) st
  let st2 := st1.modKKDof p.dim (fun v => v.resize nDofsP 0)
  let st3 := st2.modRes (S p.dim) (fun v => v.resize nDofsP 0)
  let st4 := st3.modRes (S p.dim) (fun v => v.memset nDofsP 0)
  if p.assembleMatrix && penalty then
    let st5 := st4.modJac (S p.dim) (S p.dim) (fun v => v.resize (nDofsP * nDofsP) 0)
    st5.modJac (S p.dim) (S p.dim) (fun v => v.memset (nDofsP * nDofsP) 0)
  else st4

/-- Lines 609-617: the body of the loop over the velocity nodes that stores
the global dof indices of node `i`. -/
def picardGatherV (p : Problem R) (e : Element R) (s : PicardLocal R) (i : Nat) :
    PicardLocal R :=
  (List.range p.dim).foldl (fun s ivar =>
    s.modKKDof ivar (fun v => v.set i (e.dofV ivar i))) s

/-- Lines 609-626: gather the global dof indices into `KKDof`. -/
def picardGather (p : Problem R) (e : Element R) (st : PicardLocal R) : PicardLocal R :=
  let st1 := (List.range e.nDofsV).foldl (picardGatherV p e) st
  (List.range e.nDofsP).foldl (fun s i =>
    s.modKKDof p.dim (fun v => v.set i (e.dofP i))) st1

/-- Lines 640-654: `gradSolVAR[ivar][ivar2]` at the Gauss point `g`. -/
def gradSolVAR (p : Problem R) (e : Element R) (g : GaussPoint R) (ivar ivar2 : Nat) : R :=
  (List.range e.nDofsV).foldl
    (fun acc i => acc + g.phiV_x_gss (i * p.dim + ivar2) * e.solV ivar i) 0

/-- Lines 656-666: `SolVAR[dim]`, the pressure at the Gauss point `g`. -/
def SolVAR_dim (e : Element R) (g : GaussPoint R) : R :=
  (List.range e.nDofsP).foldl (fun acc i => acc + g.phiP_gss i * e.solP i) 0

/-- Lines 675-678: `Lap_rhs` for test function `i` and component `ivar`. -/
def Lap_rhs (p : Problem R) (e : Element R) (g : GaussPoint R) (i ivar : Nat) : R :=
  (List.range p.dim).foldl
    (fun acc ivar2 => acc + g.phiV_x_gss (i * p.dim + ivar2) * gradSolVAR p e g ivar ivar2) 0

/-- Lines 686-690: `Lap` for the pair of shape functions `i`, `j`. -/
def Lap (p : Problem R) (g : GaussPoint R) (i j : Nat) : R :=
  (List.range p.dim).foldl
    (fun acc ivar => acc + g.phiV_x_gss (i * p.dim + ivar) * g.phiV_x_gss (j * p.dim + ivar)) 0

/-- Lines 710-713: `div`, the divergence of the velocity at the Gauss point. -/
def div (p : Problem R) (e : Element R) (g : GaussPoint R) : R :=
  (List.range p.dim).foldl (fun acc ivar => acc + gradSolVAR p e g ivar ivar) 0

/-- Lines 671-704: the body of the `phi_i` loop for test function `i`. -/
def picardPhiI (p : Problem R) (e : Element R) (g : GaussPoint R)
    (st : PicardLocal R) (i : Nat) : PicardLocal R :=
  let S := p.SolPdeIndex
  let st1 := (List.range p.dim).foldl (fun s ivar =>
    s.modRes (S ivar) (fun v => v.addAt i
      ((-p.IRe * Lap_rhs p e g i ivar - SolVAR_dim e g * g.phiV_x_gss (i * p.dim + ivar)
        + p.force ivar * g.phiV_gss i) * g.weight))) st
  if p.assembleMatrix then
    let st2 := (List.range e.nDofsV).foldl (fun s j =>
      (List.range p.dim).foldl (fun s ivar =>
        s.modJac (S ivar) (S ivar) (fun v => v.addAt (i * e.nDofsV + j)
          ((p.IRe * Lap p g i j) * g.weight))) s) st1
    (List.range e.nDofsP).foldl (fun s j =>
      (List.range p.dim).foldl (fun s ivar =>
        s.modJac (S ivar) (S p.dim) (fun v => v.subAt (i * e.nDofsP + j)
          (g.phiV_x_gss (i * p.dim + ivar) * g.phiP_gss j * g.weight))) s) st2
  else st1

/-- Lines 708-728: the body of the `phiP_i` loop for test function `i`. -/
def picardPhiPI (p : Problem R) (e : Element R) (g : GaussPoint R)
    (st : PicardLocal R) (i : Nat) : PicardLocal R :=
  let S := p.SolPdeIndex
  let st1 := st.modRes (S p.dim) (fun v => v.addAt i (g.phiP_gss i * div p e g * g.weight))
  if p.assembleMatrix then
    (List.range e.nDofsV).foldl (fun s j =>
      (List.range p.dim).foldl (fun s ivar =>
        s.modJac (S p.dim) (S ivar) (fun v => v.subAt (i * e.nDofsV + j)
          (g.phiP_gss i * g.phiV_x_gss (j * p.dim + ivar) * g.weight))) s) st1
  else st1

/-- Lines 730-742: the penalty block (`Jac[P][P][i*nDofsP+j] -= 0.`). -/
def picardPenalty (p : Problem R) (e : Element R) (st : PicardLocal R) : PicardLocal R :=
  let S := p.SolPdeIndex
  if p.assembleMatrix && penalty then
    (List.range e.nDofsP).foldl (fun s i =>
      (List.range e.nDofsP).foldl (fun s j =>
        (List.range p.dim).foldl (fun s _ivar =>
          s.modJac (S p.dim) (S p.dim) (fun v => v.subAt (i * e.nDofsP + j) 0)) s) s) st
  else st

/-- Lines 632-743: the body of the Gauss point loop.  (The velocity values
`SolVAR[ivar]`, `ivar < dim`, and `GradSolP` are computed by the source but
never read, as are `hk` and `alpha` of lines 509-513 and 619; they have no
counterpart here.) -/
def picardGauss (p : Problem R) (e : Element R) (st : PicardLocal R)
    (g : GaussPoint R) : PicardLocal R :=
  let st1 := (List.range e.nDofsV).foldl (picardPhiI p e g) st
  let st2 := (List.range e.nDofsP).foldl (picardPhiPI p e g) st1
  picardPenalty p e st2

/-- Lines 567-764: the local vectors and blocks of an element, from the buffers
`st` left by the previous element. -/
def picardLocal (p : Problem R) (e : Element R) (st : PicardLocal R) : PicardLocal R :=
  let st1 := picardGather p e (picardResize p e st)
  if p.igrid = p.levelMax || !e.refined then
    e.gauss.foldl (picardGauss p e) st1
  else st1

/-- Lines 767-777: the calls that add the local vectors and blocks into the
global vector and matrix. -/
def picardScatter (p : Problem R) (st : PicardLocal R) : List (Call R) :=
  let S := p.SolPdeIndex
  (List.range p.dim).foldl (fun cs ivar =>
    let cs := cs ++ [Call.RES_add_vector_blocked (st.Res (S ivar)).toList (st.KKDof ivar).toList]
    if p.assembleMatrix then
      cs ++ [Call.KK_add_matrix_blocked (st.Jac (S ivar) (S ivar)).toList
                (st.KKDof ivar).toList (st.KKDof ivar).toList,
             Call.KK_add_matrix_blocked (st.Jac (S ivar) (S p.dim)).toList
                (st.KKDof ivar).toList (st.KKDof p.dim).toList,
             Call.KK_add_matrix_blocked (st.Jac (S p.dim) (S ivar)).toList
                (st.KKDof p.dim).toList (st.KKDof ivar).toList]
    else cs) []
  ++ (if p.assembleMatrix && penalty then
        [Call.KK_add_matrix_blocked (st.Jac (S p.dim) (S p.dim)).toList
          (st.KKDof p.dim).toList (st.KKDof p.dim).toList]
      else [])
  ++ [Call.RES_add_vector_blocked (st.Res (S p.dim)).toList (st.KKDof p.dim).toList]

/-- One iteration of the element loop (lines 563-779): the buffers after the
element and the calls issued so far. -/
def picardElem (p : Problem R) (m : Mesh R) (acc : PicardLocal R × List (Call R))
    (iel : Nat) : PicardLocal R × List (Call R) :=
  let st := picardLocal p (m.elem iel) acc.1
  (st, acc.2 ++ picardScatter p st)

/-- The element loop
`for (iel = offset[iproc]; iel < offset[iproc+1]; iel++)`. -/
def picardLoop (p : Problem R) (m : Mesh R) (lo hi : Nat)
    (acc : PicardLocal R × List (Call R)) : PicardLocal R × List (Call R) :=
  (List.range' lo (hi - lo)).foldl (picardElem p m) acc

/-- Routine `AssembleNavierStokes` run by process `iproc`: the calls it makes on
`KK` and `RES`, in order. -/
def AssembleNavierStokes (p : Problem R) (m : Mesh R) (iproc : Nat) : List (Call R) :=
  (if p.assembleMatrix then [Call.KK_zero] else [])
  ++ (picardLoop p m (m.IS_Mts2Gmt_elem_offset iproc) (m.IS_Mts2Gmt_elem_offset (iproc + 1))
        (PicardLocal.init R, [])).2
  ++ (if p.assembleMatrix then [Call.KK_close] else [])
  ++ [Call.RES_close]

end Picard

/-! ## Automatic-differentiation kernel `AssembleNavierStokes_AD` -/

/-- The active variables that are registered as independent: `V k i` is
`solV[k][i]` and `P i` is `solP[i]`. -/
inductive Var where
  | V (k i : Nat) : Var
  | P (i : Nat) : Var
  deriving DecidableEq

/-- Model of `adept::adouble`: the value together with the derivatives with
respect to the independent variables of the current element. -/
structure adouble (R : Type) where
  value : R
  grad : Var → R

namespace adouble

variable {R : Type} [CommRing R]

/-- Conversion of a `double` to an `adouble` (as in `std::fill(.., 0)`). -/
def ofDouble (c : R) : adouble R := ⟨c, fun _ => 0⟩

/-- The active variable `v` holding the value `c`. -/
def independent (c : R) (v : Var) : adouble R := ⟨c, fun u => if u = v then 1 else 0⟩

instance : Add (adouble R) := ⟨fun a b => ⟨a.value + b.value, fun v => a.grad v + b.grad v⟩⟩

instance : Neg (adouble R) := ⟨fun a => ⟨-a.value, fun v => -a.grad v⟩⟩

instance : HMul R (adouble R) (adouble R) := ⟨fun c a => ⟨c * a.value, fun v => c * a.grad v⟩⟩

instance : HMul (adouble R) R (adouble R) := ⟨fun a c => ⟨a.value * c, fun v => a.grad v * c⟩⟩

instance : HAdd (adouble R) R (adouble R) := ⟨fun a c => ⟨a.value + c, a.grad⟩⟩

end adouble

/-- The local buffers of `AssembleNavierStokes_AD` that live across elements.
(`solV` and `solP` are resized and then assigned at every position for each
element, see `solV` and `solP` below.) -/
structure ADLocal (R : Type) where
  KKDof : Vec Nat
  aResV : Nat → Vec (adouble R)
  aResP : Vec (adouble R)
  Res : Vec R
  Jac : Vec R

namespace ADLocal

/-- Apply `f` to the vector `aResV[k]`. -/
def modAResV {R : Type} (st : ADLocal R) (k : Nat) (f : Vec (adouble R) → Vec (adouble R)) :
    ADLocal R :=
  { st with aResV := Function.update st.aResV k (f (st.aResV k)) }

/-- The buffers before the first element: all vectors empty. -/
def init (R : Type) [CommRing R] : ADLocal R :=
  ⟨Vec.empty 0, fun _ => Vec.empty (adouble.ofDouble 0), Vec.empty (adouble.ofDouble 0),
    Vec.empty 0, Vec.empty 0⟩

end ADLocal

section AD

variable {R : Type} [CommRing R]

/-- Lines 307-315: the local velocity values `solV[k][i]`, active variables. -/
def solV (e : Element R) (k i : Nat) : adouble R :=
  adouble.independent (e.solV k i) (Var.V k i)

/-- Lines 318-323: the local pressure values `solP[i]`, active variables. -/
def solP (e : Element R) (i : Nat) : adouble R :=
  adouble.independent (e.solP i) (Var.P i)

/-- Lines 274-293: resize the local vectors and set `aResV`, `aResP` to zero. -/
def adResize (p : Problem R) (e : Element R) (st : ADLocal R) : ADLocal R :=
  let nDofsVP := p.dim * e.nDofsV + e.nDofsP
  let st1 := { st with KKDof := st.KKDof.resize nDofsVP 0 }
  let st2 := { st1 with Jac := st1.Jac.resize (nDofsVP * nDofsVP) 0 }
  let st3 := (List.range p.dim).foldl (fun s k =>
    let s := s.modAResV k (fun v => v.resize e.nDofsV (adouble.ofDouble 0))
    s.modAResV k (fun v => v.memset v.size (adouble.ofDouble 0))) st2
  let st4 := { st3 with aResP := st3.aResP.resize e.nDofsP (adouble.ofDouble 0) }
  { st4 with aResP := st4.aResP.memset st4.aResP.size (adouble.ofDouble 0) }

/-- Lines 306-323: the global dof indices written into the vector `KKDof`. -/
def adGatherKKDof (p : Problem R) (e : Element R) (KKDof : Vec Nat) : Vec Nat :=
  let v1 := (List.range e.nDofsV).foldl (fun v i =>
    (List.range p.dim).foldl (fun v k => v.set (i + k * e.nDofsV) (e.dofV k i)) v) KKDof
  (List.range e.nDofsP).foldl (fun v i => v.set (i + p.dim * e.nDofsV) (e.dofP i)) v1

/-- Lines 306-323: gather the global dof indices into `KKDof`. -/
def adGather (p : Problem R) (e : Element R) (st : ADLocal R) : ADLocal R :=
  { st with KKDof := adGatherKKDof p e st.KKDof }

/-- Lines 337-354: `gradSolV_gss[k][j]` at the Gauss point `g`. -/
def gradSolV_gss (p : Problem R) (e : Element R) (g : GaussPoint R) (k j : Nat) : adouble R :=
  (List.range e.nDofsV).foldl
    (fun acc i => acc + g.phiV_x_gss (i * p.dim + j) * solV e k i) (adouble.ofDouble 0)

/-- Lines 356-360: `solP_gss`, the pressure at the Gauss point `g`. -/
def solP_gss (e : Element R) (g : GaussPoint R) : adouble R :=
  (List.range e.nDofsP).foldl (fun acc i => acc + g.phiP_gss i * solP e i) (adouble.ofDouble 0)

/-- Lines 365-390: the vector `NSV_gss` for test function `i`. -/
def NSV_gss (p : Problem R) (e : Element R) (g : GaussPoint R) (i : Nat) : Vec (adouble R) :=
  let n0 : Vec (adouble R) := ⟨p.dim, fun _ => adouble.ofDouble 0⟩
  let n1 := (List.range p.dim).foldl (fun n j =>
    (List.range p.dim).foldl (fun n k =>
      let n := n.addAt k ((p.IRe * g.phiV_x_gss (i * p.dim + j))
                  * (gradSolV_gss p e g k j + gradSolV_gss p e g j k))
      n.set k (n.data k + (-p.force k * g.phiV_gss i))) n) n0
  (List.range p.dim).foldl (fun n k =>
    n.addAt k ((-solP_gss e g) * g.phiV_x_gss (i * p.dim + k))) n1

/-- Lines 364-395: the body of the `phiV_i` loop for test function `i`. -/
def adPhiVI (p : Problem R) (e : Element R) (g : GaussPoint R)
    (st : ADLocal R) (i : Nat) : ADLocal R :=
  (List.range p.dim).foldl (fun s k =>
    s.modAResV k (fun v => v.addAt i ((-(NSV_gss p e g i).data k) * g.weight))) st

/-- Lines 398-402: the body of the `phiP_i` loop for test function `i`. -/
def adPhiPI (p : Problem R) (e : Element R) (g : GaussPoint R)
    (st : ADLocal R) (i : Nat) : ADLocal R :=
  (List.range p.dim).foldl (fun s k =>
    { s with aResP :=
        s.aResP.addAt i (((-(gradSolV_gss p e g k k)) * g.phiP_gss i) * g.weight) }) st

/-- Lines 331-404: the body of the Gauss point loop.  (The velocity values
`solV_gss[k]` are computed by the source but never read, the advection term
being commented out; they have no counterpart here.) -/
def adGauss (p : Problem R) (e : Element R) (st : ADLocal R) (g : GaussPoint R) : ADLocal R :=
  let st1 := (List.range e.nDofsV).foldl (adPhiVI p e g) st
  (List.range e.nDofsP).foldl (adPhiPI p e g) st1

/-- Lines 414-422: the negated values of `aResV`, `aResP` written into the
vector `Res` (the loops do not change `aResV`, `aResP`). -/
def adCopyValues (p : Problem R) (e : Element R) (st : ADLocal R) (Res : Vec R) : Vec R :=
  let r1 := (List.range e.nDofsV).foldl (fun r i =>
    (List.range p.dim).foldl (fun r k =>
      r.set (i + k * e.nDofsV) (-((st.aResV k).data i).value)) r) Res
  (List.range e.nDofsP).foldl (fun r i =>
    r.set (i + p.dim * e.nDofsV) (-(st.aResP.data i).value)) r1

/-- Lines 412-422: resize `Res` and copy the negated values of `aResV`, `aResP`
into it. -/
def adCopyRes (p : Problem R) (e : Element R) (st : ADLocal R) : ADLocal R :=
  { st with Res := adCopyValues p e st (st.Res.resize (p.dim * e.nDofsV + e.nDofsP) 0) }

/-- Lines 430-434: the registered dependent variables, in registration order. -/
def adDependents (p : Problem R) (e : Element R) (st : ADLocal R) : List (adouble R) :=
  (List.range p.dim).foldl (fun l k => l ++ (List.range e.nDofsV).map (st.aResV k).data) []
  ++ (List.range e.nDofsP).map st.aResP.data

/-- Lines 437-441: the registered independent variables, in registration
order. -/
def adIndependents (p : Problem R) (e : Element R) : List Var :=
  (List.range p.dim).foldl (fun l k => l ++ (List.range e.nDofsV).map (Var.V k)) []
  ++ (List.range e.nDofsP).map Var.P

/-- Modelled from the spec: `adept::Stack::jacobian(&Jac[0], true)` is not part
of the file; by the spec the Jacobian is "extracted as a dense row-major
block", the exact derivative of each dependent variable (row) with respect to
each independent variable (column). -/
def jacobian (deps : List (adouble R)) (indeps : List Var) (Jac : Vec R) : Vec R :=
  ⟨Jac.size, fun n =>
    if n < deps.length * indeps.length then
      (deps.getD (n / indeps.length) (adouble.ofDouble 0)).grad
        (indeps.getD (n % indeps.length) (Var.P 0))
    else Jac.data n⟩

/-- Lines 267-406: the local vectors of an element after the Gauss loop, from
the buffers `st` left by the previous element. -/
def adLocal (p : Problem R) (e : Element R) (st : ADLocal R) : ADLocal R :=
  let st1 := adGather p e (adResize p e st)
  if p.level = p.levelMax || !e.refined then
    e.gauss.foldl (adGauss p e) st1
  else st1

/-- One iteration of the element loop (lines 265-450): the buffers after the
element and the calls issued so far. -/
def adElem (p : Problem R) (m : Mesh R) (acc : ADLocal R × List (Call R))
    (iel : Nat) : ADLocal R × List (Call R) :=
  let e := m.elem iel
  let st := adCopyRes p e (adLocal p e acc.1)
  let cs := acc.2 ++ [Call.RES_add_vector_blocked st.Res.toList st.KKDof.toList]
  if p.assembleMatrix then
    let st1 := { st with Jac := jacobian (adDependents p e st) (adIndependents p e) st.Jac }
    (st1, cs ++ [Call.KK_add_matrix_blocked st1.Jac.toList st1.KKDof.toList st1.KKDof.toList])
  else (st, cs)

/-- The element loop
`for (iel = offset[iproc]; iel < offset[iproc+1]; iel++)`. -/
def adLoop (p : Problem R) (m : Mesh R) (lo hi : Nat)
    (acc : ADLocal R × List (Call R)) : ADLocal R × List (Call R) :=
  (List.range' lo (hi - lo)).foldl (adElem p m) acc

/-- Routine `AssembleNavierStokes_AD` run by process `iproc`: the calls it makes
on `KK` and `RES`, in order. -/
def AssembleNavierStokes_AD (p : Problem R) (m : Mesh R) (iproc : Nat) : List (Call R) :=
  (if p.assembleMatrix then [Call.KK_zero] else [])
  ++ (adLoop p m (m.IS_Mts2Gmt_elem_offset iproc) (m.IS_Mts2Gmt_elem_offset (iproc + 1))
        (ADLocal.init R, [])).2
  ++ [Call.RES_close]
  ++ (if p.assembleMatrix then [Call.KK_close] else [])

end AD

/-! ## The calls on the `adept::Stack` -/

section ADStack

variable {R : Type}

/-- A call of `AssembleNavierStokes_AD` on the stack `s` (lines 328 and 431-448).
`dependent n` and `independent n` stand for `s.dependent(&a[0], n)` and
`s.independent(&a[0], n)`, which register `n` consecutive variables. -/
inductive StackCall where
  | new_recording
  | dependent (n : Nat)
  | independent (n : Nat)
  | jacobian
  | clear_independents
  | clear_dependents
  deriving DecidableEq

/-- The calls on the stack `s` made by one iteration of the element loop
(lines 265-450), in order: `s.new_recording()` inside the test of line 326,
the registrations, the extraction and the two clears inside
`if (assembleMatrix)` of line 427. -/
def adStackElem (p : Problem R) (e : Element R) : List StackCall :=
  (if p.level = p.levelMax || !e.refined then [StackCall.new_recording] else [])
  ++ (if p.assembleMatrix then
        (List.range p.dim).map (fun _ => StackCall.dependent e.nDofsV)
        ++ [StackCall.dependent e.nDofsP]
        ++ (List.range p.dim).map (fun _ => StackCall.independent e.nDofsV)
        ++ [StackCall.independent e.nDofsP]
        ++ [StackCall.jacobian, StackCall.clear_independents, StackCall.clear_dependents]
      else [])

/-- The calls on the stack `s` made by the element loop
`for (iel = offset[iproc]; iel < offset[iproc+1]; iel++)`, each paired with
the index `iel` of the element during whose processing it is made. -/
def adStackLoop (p : Problem R) (m : Mesh R) (lo hi : Nat) : List (Nat × StackCall) :=
  (List.range' lo (hi - lo)).flatMap
    (fun iel => (adStackElem p (m.elem iel)).map (fun c => (iel, c)))

/-- Modelled from the spec: the state of the tape of `adept::Stack`, which is
not part of the source file: the element whose `new_recording()` started the
recording that is live (`none` before the first one), and the numbers of
registered independent and dependent variables. -/
structure Tape where
  recording : Option Nat
  independents : Nat
  dependents : Nat
  deriving DecidableEq

/-- The tape before the element loop: nothing recorded, nothing registered. -/
def Tape.init : Tape := ⟨none, 0, 0⟩

/-- Modelled from the spec: the effect on the tape of one call made while the
element `c.1` is processed.  `new_recording` starts a recording,
`dependent` / `independent` register variables, `jacobian` reads the tape,
`clear_independents` / `clear_dependents` drop the registrations. -/
def Tape.step (t : Tape) (c : Nat × StackCall) : Tape :=
  match c.2 with
  | StackCall.new_recording => { t with recording := some c.1 }
  | StackCall.dependent n => { t with dependents := t.dependents + n }
  | StackCall.independent n => { t with independents := t.independents + n }
  | StackCall.jacobian => t
  | StackCall.clear_independents => { t with independents := 0 }
  | StackCall.clear_dependents => { t with dependents := 0 }

/-- The tape after a sequence of calls. -/
def Tape.run (t : Tape) (cs : List (Nat × StackCall)) : Tape := cs.foldl Tape.step t

/-- The Jacobian extractions of a sequence of calls: for every `jacobian()`
call, in order, the element during whose processing it is made and the
element whose `new_recording()` started the recording live at that call. -/
def Tape.extractions (t : Tape) : List (Nat × StackCall) → List (Nat × Option Nat)
  | [] => []
  | c :: cs =>
    (if c.2 = StackCall.jacobian then [(c.1, t.recording)] else [])
      ++ Tape.extractions (t.step c) cs

end ADStack

/-! ## The global system -/

/-- The content of the global vector `RES` and of the global matrix `KK`. -/
structure GlobalSystem (R : Type) where
  RES : Nat → R
  KK : Nat → Nat → R

section Global

variable {R : Type} [CommRing R]

/-- Modelled from the spec: `NumericVector::add_vector_blocked` is not part of
the file; by the spec it is additive ("never overwrite"): entry `dofs[i]` of the
global vector is increased by `vals[i]`. -/
def add_vector_blocked (RES : Nat → R) (vals : List R) (dofs : List Nat) : Nat → R :=
  (List.range dofs.length).foldl
    (fun v i => fun n => if n = dofs.getD i 0 then v n + vals.getD i 0 else v n) RES

/-- Modelled from the spec: `SparseMatrix::add_matrix_blocked` is not part of
the file; by the spec it is additive: entry `(rows[i], cols[j])` of the global
matrix is increased by entry `i * cols.size() + j` of the dense local block. -/
def add_matrix_blocked (KK : Nat → Nat → R) (vals : List R) (rows cols : List Nat) :
    Nat → Nat → R :=
  (List.range rows.length).foldl (fun M i =>
    (List.range cols.length).foldl (fun M j =>
      fun r c => if r = rows.getD i 0 ∧ c = cols.getD j 0
        then M r c + vals.getD (i * cols.length + j) 0 else M r c) M) KK

/-- Modelled from the spec: the effect of one call on the global system;
`zero` clears the matrix, the `add` calls are additive, and `close` finalizes
without changing any entry. -/
def Call.exec (G : GlobalSystem R) : Call R → GlobalSystem R
  | Call.KK_zero => { G with KK := fun _ _ => 0 }
  | Call.RES_add_vector_blocked vals dofs => { G with RES := add_vector_blocked G.RES vals dofs }
  | Call.KK_add_matrix_blocked vals rows cols =>
      { G with KK := add_matrix_blocked G.KK vals rows cols }
  | Call.RES_close => G
  | Call.KK_close => G

/-- The global system after a sequence of calls. -/
def run (cs : List (Call R)) (G : GlobalSystem R) : GlobalSystem R :=
  cs.foldl Call.exec G

/-- The global system with all entries zero. -/
def GlobalSystem.zero (R : Type) [CommRing R] : GlobalSystem R := ⟨fun _ => 0, fun _ _ => 0⟩

end Global

/-! ## Auxiliary definitions used in the statements -/

/-- The fields of the system have pairwise different positions:
`SolPdeIndex` takes different values at the `dim + 1` fields. -/
def Problem.distinctFields {R : Type} (p : Problem R) : Prop :=
  ∀ a b, a ≤ p.dim → b ≤ p.dim → p.SolPdeIndex a = p.SolPdeIndex b → a = b

/-- Line 679: the value added to `Res[SolPdeIndex[k]][i]` at the Gauss point
`g`. -/
def picardMomentum {R : Type} [CommRing R] (p : Problem R) (e : Element R) (g : GaussPoint R)
    (k i : Nat) : R :=
  (-p.IRe * Lap_rhs p e g i k - SolVAR_dim e g * g.phiV_x_gss (i * p.dim + k)
    + p.force k * g.phiV_gss i) * g.weight

/-- The change of an additive observation of the local buffers made by the body
of the `phi_i` loop (lines 671-704) for test function `i`: `dR b n x` is the
change made by `Res[b][n] += x` and `dJ a b n x` the change made by
`Jac[a][b][n] += x`. -/
def picardPhiIDelta {R β : Type} [CommRing R] [AddCommMonoid β] (p : Problem R) (e : Element R)
    (g : GaussPoint R) (dR : Nat → Nat → R → β) (dJ : Nat → Nat → Nat → R → β) (i : Nat) : β :=
  (∑ ivar ∈ Finset.range p.dim, dR (p.SolPdeIndex ivar) i (picardMomentum p e g ivar i))
  + (if p.assembleMatrix then
      (∑ j ∈ Finset.range e.nDofsV, ∑ ivar ∈ Finset.range p.dim,
        dJ (p.SolPdeIndex ivar) (p.SolPdeIndex ivar) (i * e.nDofsV + j)
          ((p.IRe * Lap p g i j) * g.weight))
      + (∑ j ∈ Finset.range e.nDofsP, ∑ ivar ∈ Finset.range p.dim,
        dJ (p.SolPdeIndex ivar) (p.SolPdeIndex p.dim) (i * e.nDofsP + j)
          (-(g.phiV_x_gss (i * p.dim + ivar) * g.phiP_gss j * g.weight)))
     else 0)

/-- The change of an additive observation of the local buffers made by the body
of the `phiP_i` loop (lines 708-728) for test function `i`. -/
def picardPhiPIDelta {R β : Type} [CommRing R] [AddCommMonoid β] (p : Problem R) (e : Element R)
    (g : GaussPoint R) (dR : Nat → Nat → R → β) (dJ : Nat → Nat → Nat → R → β) (i : Nat) : β :=
  dR (p.SolPdeIndex p.dim) i (g.phiP_gss i * div p e g * g.weight)
  + (if p.assembleMatrix then
      (∑ j ∈ Finset.range e.nDofsV, ∑ ivar ∈ Finset.range p.dim,
        dJ (p.SolPdeIndex p.dim) (p.SolPdeIndex ivar) (i * e.nDofsV + j)
          (-(g.phiP_gss i * g.phiV_x_gss (j * p.dim + ivar) * g.weight)))
     else 0)

/-- The change of an additive observation of the local buffers made by one
pass of the Gauss point loop body (lines 632-743). -/
def picardGaussDelta {R β : Type} [CommRing R] [AddCommMonoid β] (p : Problem R) (e : Element R)
    (dR : Nat → Nat → R → β) (dJ : Nat → Nat → Nat → R → β) (g : GaussPoint R) : β :=
  (∑ i ∈ Finset.range e.nDofsV, picardPhiIDelta p e g dR dJ i)
  + (∑ i ∈ Finset.range e.nDofsP, picardPhiPIDelta p e g dR dJ i)

/-- The Gauss points that `AssembleNavierStokes` visits for the element: all
of them when the element passes the test of line 629, none otherwise. -/
def picardActiveGauss {R : Type} (p : Problem R) (e : Element R) : List (GaussPoint R) :=
  if p.igrid = p.levelMax || !e.refined then e.gauss else []

/-- The Gauss points that `AssembleNavierStokes_AD` visits for the element: all
of them when the element passes the test of line 326, none otherwise. -/
def adActiveGauss {R : Type} (p : Problem R) (e : Element R) : List (GaussPoint R) :=
  if p.level = p.levelMax || !e.refined then e.gauss else []

/-- The value of an `adouble` (`o = none`) or its derivative with respect to
the independent variable `v` (`o = some v`). -/
def adouble.ev {R : Type} (o : Option Var) (a : adouble R) : R :=
  match o with
  | none => a.value
  | some v => a.grad v

/-- The same reading of a `double` constant equal to one: `1` for the value,
`0` for a derivative. -/
def adouble.evOne {R : Type} [CommRing R] (o : Option Var) : R :=
  match o with
  | none => 1
  | some _ => 0

/-- Lines 380-390: the integrand `NSV_gss[k]` for test function `i`, with
every active variable `a` replaced by `adouble.ev o a`. -/
def adNSV {R : Type} [CommRing R] (o : Option Var) (p : Problem R) (e : Element R)
    (g : GaussPoint R) (k i : Nat) : R :=
  (∑ j ∈ Finset.range p.dim,
    ((p.IRe * g.phiV_x_gss (i * p.dim + j))
        * ((∑ m ∈ Finset.range e.nDofsV,
              g.phiV_x_gss (m * p.dim + j) * adouble.ev o (solV e k m))
          + ∑ m ∈ Finset.range e.nDofsV,
              g.phiV_x_gss (m * p.dim + k) * adouble.ev o (solV e j m))
      + (-p.force k * g.phiV_gss i) * adouble.evOne o))
  + (-(∑ m ∈ Finset.range e.nDofsP, g.phiP_gss m * adouble.ev o (solP e m)))
      * g.phiV_x_gss (i * p.dim + k)

/-- The change of an additive observation of the local buffers made by one
pass of the Gauss point loop body of `AssembleNavierStokes_AD` (lines 331-404):
`dV k n x` is the change made by `aResV[k][n] += x` and `dP n x` the change made
by `aResP[n] += x`. -/
def adGaussDelta {R β : Type} [CommRing R] [AddCommMonoid β] (p : Problem R) (e : Element R)
    (dV : Nat → Nat → adouble R → β) (dP : Nat → adouble R → β) (g : GaussPoint R) : β :=
  (∑ i ∈ Finset.range e.nDofsV, ∑ k ∈ Finset.range p.dim,
    dV k i ((-(NSV_gss p e g i).data k) * g.weight))
  + (∑ i ∈ Finset.range e.nDofsP, ∑ k ∈ Finset.range p.dim,
    dP i (((-(gradSolV_gss p e g k k)) * g.phiP_gss i) * g.weight))

/-- The local buffers of `AssembleNavierStokes_AD` when the processing of an
element ends (line 450). -/
def adElemLocal {R : Type} [CommRing R] (p : Problem R) (e : Element R) (st : ADLocal R) :
    ADLocal R :=
  let st1 := adCopyRes p e (adLocal p e st)
  if p.assembleMatrix then
    { st1 with Jac := jacobian (adDependents p e st1) (adIndependents p e) st1.Jac }
  else st1

/-- The calls of `AssembleNavierStokes_AD` for an element whose local buffers
are `st` when its processing ends (lines 424 and 445). -/
def adScatter {R : Type} (p : Problem R) (st : ADLocal R) : List (Call R) :=
  [Call.RES_add_vector_blocked st.Res.toList st.KKDof.toList]
  ++ (if p.assembleMatrix then
        [Call.KK_add_matrix_blocked st.Jac.toList st.KKDof.toList st.KKDof.toList]
      else [])

/-- The divergence integrand `φP_i * div(u) * weight` of the spec, with
`div(u) = Σ_k ∂u_k/∂x_k` and `∂u_k/∂x_k = Σ_m ∂φ_m/∂x_k * u_k[m]`. -/
def continuityIntegrand {R : Type} [CommRing R] (p : Problem R) (e : Element R)
    (g : GaussPoint R) (i : Nat) : R :=
  g.phiP_gss i
    * (∑ k ∈ Finset.range p.dim, ∑ m ∈ Finset.range e.nDofsV,
        g.phiV_x_gss (m * p.dim + k) * e.solV k m)
    * g.weight

/-- The derivative of the integrand `NSV_gss[k]` for test function `i` with
respect to the velocity dof `solV[l][j]`:
`IRe * (δ_kl * Σ_d ∂φ_i/∂x_d * ∂φ_j/∂x_d + ∂φ_i/∂x_l * ∂φ_j/∂x_k)`. -/
def adDiffusionTangent {R : Type} [CommRing R] (p : Problem R) (g : GaussPoint R)
    (k i l j : Nat) : R :=
  p.IRe * ((if l = k then
      ∑ d ∈ Finset.range p.dim, g.phiV_x_gss (i * p.dim + d) * g.phiV_x_gss (j * p.dim + d)
    else 0)
    + g.phiV_x_gss (i * p.dim + l) * g.phiV_x_gss (j * p.dim + k))

/-- The writes `v[i + k*nDofsV] = fV k i` and `v[i + dim*nDofsV] = fP i` made by
the two loop nests of lines 307-323 (on `KKDof`) and of lines 414-422 (on
`Res`), in the order in which they are made: position and value. -/
def adWrites {R α : Type} (p : Problem R) (e : Element R) (fV : Nat → Nat → α)
    (fP : Nat → α) : List (Nat × α) :=
  (List.range e.nDofsV).flatMap
      (fun i => (List.range p.dim).map (fun k => (i + k * e.nDofsV, fV k i)))
  ++ (List.range e.nDofsP).map (fun i => (i + p.dim * e.nDofsV, fP i))

/-- The element with the value of the `j`-th local dof of velocity component
`k` raised by `h`.  The local residual is an affine function of the dof
values: its partial derivative with respect to this dof is the factor `d` in
`Res(e.bumpV k j h) - Res(e) = h * d`. -/
def Element.bumpV {R : Type} [CommRing R] (e : Element R) (k j : Nat) (h : R) : Element R :=
  { e with solV := fun k' m => e.solV k' m + if k' = k ∧ m = j then h else 0 }

/-- The element with the value of the `j`-th local pressure dof raised by
`h`. -/
def Element.bumpP {R : Type} [CommRing R] (e : Element R) (j : Nat) (h : R) : Element R :=
  { e with solP := fun m => e.solP m + if m = j then h else 0 }

/-! ## The calls issued for one element, in closed form -/

section ClosedCalls

variable {R : Type} [CommRing R]

/-- The global dof indices of velocity component `k`, in local order. -/
def picardDofsV (e : Element R) (k : Nat) : List Nat := (List.range e.nDofsV).map (e.dofV k)

/-- The global dof indices of the pressure, in local order. -/
def picardDofsP (e : Element R) : List Nat := (List.range e.nDofsP).map e.dofP

/-- The local residual vector of velocity component `k`. -/
def picardResV (p : Problem R) (e : Element R) (k : Nat) : List R :=
  (List.range e.nDofsV).map (fun i =>
    ((picardActiveGauss p e).map (fun g => picardMomentum p e g k i)).sum)

/-- The local residual vector of the pressure. -/
def picardResP (p : Problem R) (e : Element R) : List R :=
  (List.range e.nDofsP).map (fun i =>
    ((picardActiveGauss p e).map (fun g => continuityIntegrand p e g i)).sum)

/-- The local velocity-velocity block (the same for every component). -/
def picardJacVV (p : Problem R) (e : Element R) : List R :=
  (List.range (e.nDofsV * e.nDofsV)).map (fun n =>
    ((picardActiveGauss p e).map
      (fun g => p.IRe * Lap p g (n / e.nDofsV) (n % e.nDofsV) * g.weight)).sum)

/-- The local velocity-pressure block of component `k`. -/
def picardJacVP (p : Problem R) (e : Element R) (k : Nat) : List R :=
  (List.range (e.nDofsV * e.nDofsP)).map (fun n =>
    ((picardActiveGauss p e).map
      (fun g => -(g.phiV_x_gss ((n / e.nDofsP) * p.dim + k) * g.phiP_gss (n % e.nDofsP)
        * g.weight))).sum)

/-- The local pressure-velocity block of component `k`. -/
def picardJacPV (p : Problem R) (e : Element R) (k : Nat) : List R :=
  (List.range (e.nDofsP * e.nDofsV)).map (fun n =>
    ((picardActiveGauss p e).map
      (fun g => -(g.phiP_gss (n / e.nDofsV) * g.phiV_x_gss ((n % e.nDofsV) * p.dim + k)
        * g.weight))).sum)

/-- The calls of `AssembleNavierStokes` for velocity component `ivar` of an
element (lines 768-773). -/
def picardCallsV (p : Problem R) (e : Element R) (ivar : Nat) : List (Call R) :=
  [Call.RES_add_vector_blocked (picardResV p e ivar) (picardDofsV e ivar)]
  ++ (if p.assembleMatrix then
        [Call.KK_add_matrix_blocked (picardJacVV p e) (picardDofsV e ivar) (picardDofsV e ivar),
         Call.KK_add_matrix_blocked (picardJacVP p e ivar) (picardDofsV e ivar) (picardDofsP e),
         Call.KK_add_matrix_blocked (picardJacPV p e ivar) (picardDofsP e) (picardDofsV e ivar)]
      else [])

/-- The calls of `AssembleNavierStokes` for an element (lines 767-777), as a
function of the gathered data of the element alone. -/
def picardCalls (p : Problem R) (e : Element R) : List (Call R) :=
  (List.range p.dim).flatMap (picardCallsV p e)
  ++ (if p.assembleMatrix then
        [Call.KK_add_matrix_blocked (List.replicate (e.nDofsP * e.nDofsP) 0)
          (picardDofsP e) (picardDofsP e)]
      else [])
  ++ [Call.RES_add_vector_blocked (picardResP p e) (picardDofsP e)]

end ClosedCalls

section ClosedCallsAD

variable {R : Type} [CommRing R]

/-- The `r`-th dependent variable of an element (`aResV[k][i]` for
`r = i + k*nDofsV`, then `aResP[i]` for `r = i + dim*nDofsV`) after the Gauss
loop, read through `adouble.ev o`. -/
def adDependentEv (o : Option Var) (p : Problem R) (e : Element R) (r : Nat) : R :=
  if r < p.dim * e.nDofsV then
    ((adActiveGauss p e).map
      (fun g => -(adNSV o p e g (r / e.nDofsV) (r % e.nDofsV)) * g.weight)).sum
  else
    ((adActiveGauss p e).map (fun g => ∑ k ∈ Finset.range p.dim,
      -(∑ m ∈ Finset.range e.nDofsV,
          g.phiV_x_gss (m * p.dim + k) * adouble.ev o (solV e k m))
        * g.phiP_gss (r - p.dim * e.nDofsV) * g.weight)).sum

/-- The vector `Res` of `AssembleNavierStokes_AD` for an element. -/
def adRes (p : Problem R) (e : Element R) : List R :=
  (List.range (p.dim * e.nDofsV + e.nDofsP)).map (fun t => -(adDependentEv none p e t))

/-- The vector `KKDof` of `AssembleNavierStokes_AD` for an element. -/
def adDofs (p : Problem R) (e : Element R) : List Nat :=
  (List.range (p.dim * e.nDofsV + e.nDofsP)).map (fun t =>
    if t < p.dim * e.nDofsV then e.dofV (t / e.nDofsV) (t % e.nDofsV)
    else e.dofP (t - p.dim * e.nDofsV))

/-- The row-major Jacobian of `AssembleNavierStokes_AD` for an element. -/
def adJac (p : Problem R) (e : Element R) : List R :=
  (List.range ((p.dim * e.nDofsV + e.nDofsP) * (p.dim * e.nDofsV + e.nDofsP))).map (fun n =>
    adDependentEv
      (some ((adIndependents p e).getD (n % (p.dim * e.nDofsV + e.nDofsP)) (Var.P 0)))
      p e (n / (p.dim * e.nDofsV + e.nDofsP)))

/-- The calls of `AssembleNavierStokes_AD` for an element (lines 424 and 445),
as a function of the gathered data of the element alone. -/
def adCalls (p : Problem R) (e : Element R) : List (Call R) :=
  [Call.RES_add_vector_blocked (adRes p e) (adDofs p e)]
  ++ (if p.assembleMatrix then
        [Call.KK_add_matrix_blocked (adJac p e) (adDofs p e) (adDofs p e)]
      else [])

end ClosedCallsAD

/-- The call is one of the additive calls `add_vector_blocked`,
`add_matrix_blocked`. -/
def Call.isAdd {R : Type} : Call R → Bool
  | Call.RES_add_vector_blocked _ _ => true
  | Call.KK_add_matrix_blocked _ _ _ => true
  | _ => false

/-- The call is `add_matrix_blocked`. -/
def Call.isMatrixAdd {R : Type} : Call R → Bool
  | Call.KK_add_matrix_blocked _ _ _ => true
  | _ => false

/-- The same element list owned by one process: process `0` of the merged mesh
owns the elements of the processes `0, ..., N-1` of `m`. -/
def Mesh.merge {R : Type} (m : Mesh R) (N : Nat) : Mesh R :=
  ⟨m.elem, fun q => if q = 0 then m.IS_Mts2Gmt_elem_offset 0 else m.IS_Mts2Gmt_elem_offset N⟩

/-! ## Concrete data used to instantiate the theorems -/

/-- A Gauss point with integer data. -/
def gEx : GaussPoint ℤ :=
  ⟨7, fun i => [1, 2].getD i 0, fun i => [1, 2, 3, 4].getD i 0, fun i => [5].getD i 0⟩

/-- An unrefined element of a two-dimensional mesh with two velocity nodes,
one pressure node and one Gauss point. -/
def eEx : Element ℤ :=
  ⟨2, 1, false, [gEx], fun k i => ([[1, 1], [2, 3]].getD k []).getD i 0,
    fun i => [11].getD i 0, fun k i => 10 * k + i, fun i => 100 + i⟩

/-- The element `eEx` with all velocity and pressure values zero. -/
def eExZero : Element ℤ := { eEx with solV := fun _ _ => 0, solP := fun _ => 0 }

/-- The element `eEx` with all pressure values zero. -/
def eExNoP : Element ℤ := { eEx with solP := fun _ => 0 }

/-- The element `eEx`, refined. -/
def eExRefined : Element ℤ := { eEx with refined := true }

/-- A two-dimensional problem on the finest level with `force = (0, 1, 0)`,
`IRe = 3`, fields `U, V, P` at positions `0, 1, 2`, assembling the matrix. -/
def pEx : Problem ℤ := ⟨2, 0, 0, 0, true, 3, fun k => [0, 1, 0].getD k 0, fun k => k⟩

/-- The problem `pEx` assembling the residual only. -/
def pExRes : Problem ℤ := { pEx with assembleMatrix := false }

/-- The problem `pEx` without body force. -/
def pExNoForce : Problem ℤ := { pEx with force := fun _ => 0 }

/-- A problem on a coarse level (`igrid = level = 0`, `levelMax = 1`). -/
def pExCoarse : Problem ℤ := { pEx with levelMax := 1 }

/-- The element `eEx` with the global velocity dof indices shifted by one, so
that it shares the dofs `1` and `11` with `eEx`. -/
def eExNext : Element ℤ := { eEx with dofV := fun k i => 10 * k + i + 1 }

/-- A mesh whose element `0` is `eEx` and whose other elements have the data of
`eExNext`; process `q` owns the element `q`. -/
def mEx : Mesh ℤ := ⟨fun iel => if iel = 0 then eEx else eExNext, fun q => q⟩

/-- A mesh whose element `0` is `eEx` and whose other elements have the data of
`eExRefined`. -/
def mExRefined : Mesh ℤ := ⟨fun iel => if iel = 0 then eEx else eExRefined, fun q => q⟩

/-! # Theorems -/

/-! ## General facts on loops -/

section FoldLemmas

variable {σ α β : Type}

theorem foldl_obs_const (π : σ → β) (f : σ → α → σ) (l : List α)
    (h : ∀ s a, a ∈ l → π (f s a) = π s) (s : σ) : π (l.foldl f s) = π s := by
  induction l generalizing s with
  | nil => rfl
  | cons a l ih =>
    simp only [List.foldl_cons]
    rw [ih (fun s b hb => h s b (List.mem_cons_of_mem _ hb)), h s a (List.mem_cons_self _ _)]

theorem foldl_obs_add [AddCommMonoid β] (π : σ → β) (f : σ → α → σ) (δ : α → β) (l : List α)
    (h : ∀ s a, a ∈ l → π (f s a) = π s + δ a) (s : σ) :
    π (l.foldl f s) = π s + (l.map δ).sum := by
  induction l generalizing s with
  | nil => simp
  | cons a l ih =>
    simp only [List.foldl_cons, List.map_cons, List.sum_cons]
    rw [ih (fun s b hb => h s b (List.mem_cons_of_mem _ hb)), h s a (List.mem_cons_self _ _),
      add_assoc]

theorem sum_map_range [AddCommMonoid β] (δ : Nat → β) (n : Nat) :
    ((List.range n).map δ).sum = ∑ i ∈ Finset.range n, δ i := by
  induction n with
  | zero => simp
  | succ n ih => simp [List.range_succ, Finset.sum_range_succ, ih]

theorem foldl_range_obs_add [AddCommMonoid β] (π : σ → β) (f : σ → Nat → σ) (δ : Nat → β)
    (n : Nat) (h : ∀ s a, a < n → π (f s a) = π s + δ a) (s : σ) :
    π ((List.range n).foldl f s) = π s + ∑ i ∈ Finset.range n, δ i := by
  rw [foldl_obs_add π f δ (List.range n) (fun s a ha => h s a (List.mem_range.mp ha)) s,
    sum_map_range]

theorem foldl_range_obs_unique (π : σ → β) (f : σ → Nat → σ) (n a0 : Nat) (g : β → β)
    (hne : ∀ s a, a < n → a ≠ a0 → π (f s a) = π s)
    (heq : ∀ s, a0 < n → π (f s a0) = g (π s)) (s : σ) :
    π ((List.range n).foldl f s) = if a0 < n then g (π s) else π s := by
  induction n with
  | zero => simp
  | succ n ih =>
    have ih1 := ih (fun s a ha hn => hne s a (Nat.lt_succ_of_lt ha) hn)
      (fun s ha => heq s (Nat.lt_succ_of_lt ha))
    rw [List.range_succ, List.foldl_append, List.foldl_cons, List.foldl_nil]
    by_cases h0 : a0 < n
    · rw [hne _ n (Nat.lt_succ_self n) (by omega), ih1, if_pos h0, if_pos (Nat.lt_succ_of_lt h0)]
    · rw [if_neg h0] at ih1
      by_cases h1 : a0 = n
      · subst h1
        rw [heq _ (Nat.lt_succ_self _), ih1, if_pos (Nat.lt_succ_self _)]
      · rw [hne _ n (Nat.lt_succ_self n) (fun h => h1 h.symm), ih1, if_neg (by omega)]

theorem foldl_add_eq_sum [AddCommMonoid β] (f : Nat → β) (n : Nat) (a : β) :
    (List.range n).foldl (fun acc i => acc + f i) a = a + ∑ i ∈ Finset.range n, f i :=
  foldl_range_obs_add (fun x => x) (fun acc i => acc + f i) f n (fun _ _ _ => rfl) a

end FoldLemmas

section PicardAccess

variable {R : Type}

@[simp] theorem modRes_Res (st : PicardLocal R) (b c : Nat) (f : Vec R → Vec R) :
    (st.modRes b f).Res c = if c = b then f (st.Res b) else st.Res c := by
  simp only [PicardLocal.modRes, Function.update_apply]

@[simp] theorem modJac_Res (st : PicardLocal R) (a b : Nat) (f : Vec R → Vec R) :
    (st.modJac a b f).Res = st.Res := rfl

@[simp] theorem modKKDof_Res (st : PicardLocal R) (b : Nat) (f : Vec Nat → Vec Nat) :
    (st.modKKDof b f).Res = st.Res := rfl

end PicardAccess

section VecAccess

variable {α : Type}

@[simp] theorem Vec.resize_size (v : Vec α) (n : Nat) (d : α) : (v.resize n d).size = n := rfl

@[simp] theorem Vec.resize_data (v : Vec α) (n : Nat) (d : α) (i : Nat) :
    (v.resize n d).data i = if i < v.size then v.data i else d := rfl

@[simp] theorem Vec.memset_size (v : Vec α) (n : Nat) (d : α) : (v.memset n d).size = v.size := rfl

@[simp] theorem Vec.memset_data (v : Vec α) (n : Nat) (d : α) (i : Nat) :
    (v.memset n d).data i = if i < n then d else v.data i := rfl

@[simp] theorem Vec.set_size (v : Vec α) (i : Nat) (x : α) : (v.set i x).size = v.size := rfl

@[simp] theorem Vec.set_data (v : Vec α) (i : Nat) (x : α) (n : Nat) :
    (v.set i x).data n = if n = i then x else v.data n := rfl

@[simp] theorem Vec.addAt_size [Add α] (v : Vec α) (i : Nat) (x : α) :
    (v.addAt i x).size = v.size := rfl

@[simp] theorem Vec.addAt_data [Add α] (v : Vec α) (i : Nat) (x : α) (n : Nat) :
    (v.addAt i x).data n = if n = i then v.data n + x else v.data n := rfl

@[simp] theorem Vec.subAt_size [Sub α] (v : Vec α) (i : Nat) (x : α) :
    (v.subAt i x).size = v.size := rfl

@[simp] theorem Vec.subAt_data [Sub α] (v : Vec α) (i : Nat) (x : α) (n : Nat) :
    (v.subAt i x).data n = if n = i then v.data n - x else v.data n := rfl

theorem Vec.toList_congr (v w : Vec α) (hs : v.size = w.size)
    (hd : ∀ i, i < v.size → v.data i = w.data i) : v.toList = w.toList := by
  unfold Vec.toList
  rw [← hs]
  exact List.map_congr_left (fun i hi => hd i (List.mem_range.mp hi))

theorem Vec.toList_replicate (v : Vec α) (n : Nat) (d : α) (hs : v.size = n)
    (hd : ∀ i, i < n → v.data i = d) : v.toList = List.replicate n d := by
  unfold Vec.toList
  rw [hs]
  apply List.ext_getElem
  · simp
  · intro i h1 h2
    simp only [List.length_map, List.length_range] at h1
    simp [hd i h1]

end VecAccess

section PicardAccess2

variable {R : Type}

@[simp] theorem modRes_Jac (st : PicardLocal R) (b : Nat) (f : Vec R → Vec R) :
    (st.modRes b f).Jac = st.Jac := rfl

@[simp] theorem modRes_KKDof (st : PicardLocal R) (b : Nat) (f : Vec R → Vec R) :
    (st.modRes b f).KKDof = st.KKDof := rfl

@[simp] theorem modJac_KKDof (st : PicardLocal R) (a b : Nat) (f : Vec R → Vec R) :
    (st.modJac a b f).KKDof = st.KKDof := rfl

@[simp] theorem modKKDof_Jac (st : PicardLocal R) (b : Nat) (f : Vec Nat → Vec Nat) :
    (st.modKKDof b f).Jac = st.Jac := rfl

@[simp] theorem modKKDof_KKDof (st : PicardLocal R) (b c : Nat) (f : Vec Nat → Vec Nat) :
    (st.modKKDof b f).KKDof c = if c = b then f (st.KKDof b) else st.KKDof c := by
  simp only [PicardLocal.modKKDof, Function.update_apply]

@[simp] theorem modJac_Jac (st : PicardLocal R) (a b c d : Nat) (f : Vec R → Vec R) :
    (st.modJac a b f).Jac c d = if c = a ∧ d = b then f (st.Jac a b) else st.Jac c d := by
  simp only [PicardLocal.modJac, Function.update_apply]
  by_cases h1 : c = a
  · subst h1
    by_cases h2 : d = b
    · subst h2; simp
    · simp [h2]
  · simp [h1]

theorem Problem.distinctFields.ne {p : Problem R} (hS : p.distinctFields) {a b : Nat}
    (ha : a ≤ p.dim) (hb : b ≤ p.dim) (hab : a ≠ b) : p.SolPdeIndex a ≠ p.SolPdeIndex b :=
  fun h => hab (hS a b ha hb h)

end PicardAccess2

theorem flat_index_inj {n i j i' j' : Nat} (hj : j < n) (hj' : j' < n)
    (h : i' * n + j' = i * n + j) : i' = i ∧ j' = j := by
  have hn : 0 < n := by omega
  have h1 : (i' * n + j') / n = (i * n + j) / n := by rw [h]
  rw [Nat.mul_comm i' n, Nat.mul_comm i n, Nat.mul_add_div hn, Nat.mul_add_div hn,
    Nat.div_eq_of_lt hj, Nat.div_eq_of_lt hj'] at h1
  have h2 : i' = i := by omega
  subst h2
  exact ⟨rfl, by omega⟩

theorem Vec.ext {α : Type} (v w : Vec α) (hs : v.size = w.size) (hd : ∀ i, v.data i = w.data i) :
    v = w := by
  obtain ⟨n, f⟩ := v
  obtain ⟨m, g⟩ := w
  simp only at hs hd
  have hfg : f = g := funext hd
  subst hs hfg
  rfl

section PicardBody

variable {R : Type} [CommRing R]

theorem modJac_subAt_zero (st : PicardLocal R) (a b n : Nat) :
    st.modJac a b (fun v => v.subAt n 0) = st := by
  have h : (st.Jac a b).subAt n 0 = st.Jac a b :=
    Vec.ext _ _ rfl (fun i => by simp)
  cases st
  simp only [PicardLocal.modJac] at h ⊢
  rw [h]
  simp

theorem picardPenalty_eq (p : Problem R) (e : Element R) (st : PicardLocal R) :
    picardPenalty p e st = st := by
  unfold picardPenalty
  dsimp only
  split
  · refine foldl_obs_const (fun s : PicardLocal R => s) _ _ ?_ st
    intro s a _
    refine foldl_obs_const (fun s : PicardLocal R => s) _ _ ?_ s
    intro s b _
    refine foldl_obs_const (fun s : PicardLocal R => s) _ _ ?_ s
    intro s c _
    exact modJac_subAt_zero s _ _ _
  · rfl

end PicardBody
section PicardObs

variable {R β : Type} [CommRing R] [AddCommMonoid β]

theorem picardPhiI_obs (p : Problem R) (e : Element R) (g : GaussPoint R)
    (π : PicardLocal R → β) (dR : Nat → Nat → R → β) (dJ : Nat → Nat → Nat → R → β)
    (hR : ∀ s b n x, π (s.modRes b (fun v => v.addAt n x)) = π s + dR b n x)
    (hJa : ∀ s a b n x, π (s.modJac a b (fun v => v.addAt n x)) = π s + dJ a b n x)
    (hJs : ∀ s a b n x, π (s.modJac a b (fun v => v.subAt n x)) = π s + dJ a b n (-x))
    (st : PicardLocal R) (i : Nat) :
    π (picardPhiI p e g st i) = π st + picardPhiIDelta p e g dR dJ i := by
  unfold picardPhiI picardPhiIDelta
  dsimp only
  have hres : ∀ s : PicardLocal R,
      π ((List.range p.dim).foldl (fun s ivar =>
        s.modRes (p.SolPdeIndex ivar) (fun v => v.addAt i
          ((-p.IRe * Lap_rhs p e g i ivar
            - SolVAR_dim e g * g.phiV_x_gss (i * p.dim + ivar)
            + p.force ivar * g.phiV_gss i) * g.weight))) s)
      = π s + ∑ ivar ∈ Finset.range p.dim,
          dR (p.SolPdeIndex ivar) i (picardMomentum p e g ivar i) := by
    intro s
    rw [foldl_range_obs_add π _
      (fun ivar => dR (p.SolPdeIndex ivar) i (picardMomentum p e g ivar i))]
    intro s a _
    exact hR s _ _ _
  split
  · rw [foldl_range_obs_add π _ (fun j => ∑ ivar ∈ Finset.range p.dim,
        dJ (p.SolPdeIndex ivar) (p.SolPdeIndex p.dim) (i * e.nDofsP + j)
          (-(g.phiV_x_gss (i * p.dim + ivar) * g.phiP_gss j * g.weight))),
      foldl_range_obs_add π _ (fun j => ∑ ivar ∈ Finset.range p.dim,
        dJ (p.SolPdeIndex ivar) (p.SolPdeIndex ivar) (i * e.nDofsV + j)
          ((p.IRe * Lap p g i j) * g.weight)), hres]
    · simp only [add_assoc]
    · intro s a _
      rw [foldl_range_obs_add π _ (fun ivar =>
        dJ (p.SolPdeIndex ivar) (p.SolPdeIndex ivar) (i * e.nDofsV + a)
          ((p.IRe * Lap p g i a) * g.weight))]
      intro s b _
      exact hJa s _ _ _ _
    · intro s a _
      rw [foldl_range_obs_add π _ (fun ivar =>
        dJ (p.SolPdeIndex ivar) (p.SolPdeIndex p.dim) (i * e.nDofsP + a)
          (-(g.phiV_x_gss (i * p.dim + ivar) * g.phiP_gss a * g.weight)))]
      intro s b _
      exact hJs s _ _ _ _
  · rw [hres, add_zero]

theorem picardPhiPI_obs (p : Problem R) (e : Element R) (g : GaussPoint R)
    (π : PicardLocal R → β) (dR : Nat → Nat → R → β) (dJ : Nat → Nat → Nat → R → β)
    (hR : ∀ s b n x, π (s.modRes b (fun v => v.addAt n x)) = π s + dR b n x)
    (hJs : ∀ s a b n x, π (s.modJac a b (fun v => v.subAt n x)) = π s + dJ a b n (-x))
    (st : PicardLocal R) (i : Nat) :
    π (picardPhiPI p e g st i) = π st + picardPhiPIDelta p e g dR dJ i := by
  unfold picardPhiPI picardPhiPIDelta
  dsimp only
  split
  · rw [foldl_range_obs_add π _ (fun j => ∑ ivar ∈ Finset.range p.dim,
        dJ (p.SolPdeIndex p.dim) (p.SolPdeIndex ivar) (i * e.nDofsV + j)
          (-(g.phiP_gss i * g.phiV_x_gss (j * p.dim + ivar) * g.weight))), hR, add_assoc]
    intro s a _
    rw [foldl_range_obs_add π _ (fun ivar =>
        dJ (p.SolPdeIndex p.dim) (p.SolPdeIndex ivar) (i * e.nDofsV + a)
          (-(g.phiP_gss i * g.phiV_x_gss (a * p.dim + ivar) * g.weight)))]
    intro s b _
    exact hJs s _ _ _ _
  · rw [hR, add_zero]

theorem picardGauss_obs (p : Problem R) (e : Element R)
    (π : PicardLocal R → β) (dR : Nat → Nat → R → β) (dJ : Nat → Nat → Nat → R → β)
    (hR : ∀ s b n x, π (s.modRes b (fun v => v.addAt n x)) = π s + dR b n x)
    (hJa : ∀ s a b n x, π (s.modJac a b (fun v => v.addAt n x)) = π s + dJ a b n x)
    (hJs : ∀ s a b n x, π (s.modJac a b (fun v => v.subAt n x)) = π s + dJ a b n (-x))
    (st : PicardLocal R) (g : GaussPoint R) :
    π (picardGauss p e st g) = π st + picardGaussDelta p e dR dJ g := by
  unfold picardGauss picardGaussDelta
  dsimp only
  rw [picardPenalty_eq,
    foldl_range_obs_add π _ (picardPhiPIDelta p e g dR dJ) _
      (fun s a _ => picardPhiPI_obs p e g π dR dJ hR hJs s a),
    foldl_range_obs_add π _ (picardPhiIDelta p e g dR dJ) _
      (fun s a _ => picardPhiI_obs p e g π dR dJ hR hJa hJs s a), add_assoc]

theorem picardGaussLoop_obs (p : Problem R) (e : Element R)
    (π : PicardLocal R → β) (dR : Nat → Nat → R → β) (dJ : Nat → Nat → Nat → R → β)
    (hR : ∀ s b n x, π (s.modRes b (fun v => v.addAt n x)) = π s + dR b n x)
    (hJa : ∀ s a b n x, π (s.modJac a b (fun v => v.addAt n x)) = π s + dJ a b n x)
    (hJs : ∀ s a b n x, π (s.modJac a b (fun v => v.subAt n x)) = π s + dJ a b n (-x))
    (st : PicardLocal R) (gs : List (GaussPoint R)) :
    π (gs.foldl (picardGauss p e) st) = π st + (gs.map (picardGaussDelta p e dR dJ)).sum :=
  foldl_obs_add π _ _ gs (fun s g _ => picardGauss_obs p e π dR dJ hR hJa hJs s g) st

end PicardObs

section PicardSetup

variable {R : Type} [CommRing R]

/-! ### The buffers after `picardResize` -/

theorem picardResize_Res_V (p : Problem R) (hS : p.distinctFields) (e : Element R)
    (st : PicardLocal R) (k : Nat) (hk : k < p.dim) :
    (picardResize p e st).Res (p.SolPdeIndex k)
      = ((st.Res (p.SolPdeIndex k)).resize e.nDofsV 0).memset e.nDofsV 0 := by
  have hkd : p.SolPdeIndex k ≠ p.SolPdeIndex p.dim := hS.ne (le_of_lt hk) le_rfl (by omega)
  have hloop := foldl_range_obs_unique (fun s : PicardLocal R => s.Res (p.SolPdeIndex k))
    (picardResizeVar p e) p.dim k (fun v => (v.resize e.nDofsV 0).memset e.nDofsV 0)
    (by
      intro s a ha hne
      have : p.SolPdeIndex k ≠ p.SolPdeIndex a :=
        hS.ne (le_of_lt hk) (le_of_lt ha) (fun h => hne h.symm)
      unfold picardResizeVar
      dsimp only
      split <;> simp [this])
    (by
      intro s _
      unfold picardResizeVar
      dsimp only
      split <;> simp)
    st
  rw [if_pos hk] at hloop
  unfold picardResize
  dsimp only
  split <;> simp [hkd, hloop]

theorem picardResize_Res_P (p : Problem R) (hS : p.distinctFields) (e : Element R)
    (st : PicardLocal R) :
    (picardResize p e st).Res (p.SolPdeIndex p.dim)
      = ((st.Res (p.SolPdeIndex p.dim)).resize e.nDofsP 0).memset e.nDofsP 0 := by
  have hloop := foldl_obs_const (fun s : PicardLocal R => s.Res (p.SolPdeIndex p.dim))
    (picardResizeVar p e) (List.range p.dim)
    (by
      intro s a ha
      have ha := List.mem_range.mp ha
      have : p.SolPdeIndex p.dim ≠ p.SolPdeIndex a := hS.ne le_rfl (le_of_lt ha) (by omega)
      unfold picardResizeVar
      dsimp only
      split <;> simp [this])
    st
  unfold picardResize
  dsimp only
  split <;> simp [hloop]

theorem picardResize_Jac_VV (p : Problem R) (hS : p.distinctFields) (e : Element R)
    (st : PicardLocal R) (k : Nat) (hk : k < p.dim) (hM : p.assembleMatrix = true) :
    (picardResize p e st).Jac (p.SolPdeIndex k) (p.SolPdeIndex k)
      = ((st.Jac (p.SolPdeIndex k) (p.SolPdeIndex k)).resize (e.nDofsV * e.nDofsV) 0).memset
          (e.nDofsV * e.nDofsV) 0 := by
  have hkd : p.SolPdeIndex k ≠ p.SolPdeIndex p.dim := hS.ne (le_of_lt hk) le_rfl (by omega)
  have hloop := foldl_range_obs_unique
    (fun s : PicardLocal R => s.Jac (p.SolPdeIndex k) (p.SolPdeIndex k))
    (picardResizeVar p e) p.dim k
    (fun v => (v.resize (e.nDofsV * e.nDofsV) 0).memset (e.nDofsV * e.nDofsV) 0)
    (by
      intro s a ha hne
      have : p.SolPdeIndex k ≠ p.SolPdeIndex a :=
        hS.ne (le_of_lt hk) (le_of_lt ha) (fun h => hne h.symm)
      unfold picardResizeVar
      dsimp only
      simp [this, hkd, hM])
    (by
      intro s _
      unfold picardResizeVar
      dsimp only
      simp [hkd, hM])
    st
  rw [if_pos hk] at hloop
  unfold picardResize
  dsimp only
  simp [hkd, hloop, hM, penalty]

theorem picardResize_Jac_VP (p : Problem R) (hS : p.distinctFields) (e : Element R)
    (st : PicardLocal R) (k : Nat) (hk : k < p.dim) (hM : p.assembleMatrix = true) :
    (picardResize p e st).Jac (p.SolPdeIndex k) (p.SolPdeIndex p.dim)
      = ((st.Jac (p.SolPdeIndex k) (p.SolPdeIndex p.dim)).resize (e.nDofsV * e.nDofsP) 0).memset
          (e.nDofsV * e.nDofsP) 0 := by
  have hkd : p.SolPdeIndex k ≠ p.SolPdeIndex p.dim := hS.ne (le_of_lt hk) le_rfl (by omega)
  have hloop := foldl_range_obs_unique
    (fun s : PicardLocal R => s.Jac (p.SolPdeIndex k) (p.SolPdeIndex p.dim))
    (picardResizeVar p e) p.dim k
    (fun v => (v.resize (e.nDofsV * e.nDofsP) 0).memset (e.nDofsV * e.nDofsP) 0)
    (by
      intro s a ha hne
      have : p.SolPdeIndex k ≠ p.SolPdeIndex a :=
        hS.ne (le_of_lt hk) (le_of_lt ha) (fun h => hne h.symm)
      have hda : p.SolPdeIndex p.dim ≠ p.SolPdeIndex a :=
        hS.ne le_rfl (le_of_lt ha) (by omega)
      unfold picardResizeVar
      dsimp only
      simp [this, hkd, hkd.symm, hda, hM])
    (by
      intro s _
      unfold picardResizeVar
      dsimp only
      simp [hkd, hkd.symm, hM])
    st
  rw [if_pos hk] at hloop
  unfold picardResize
  dsimp only
  simp [hkd, hloop, hM, penalty]

theorem picardResize_Jac_PV (p : Problem R) (hS : p.distinctFields) (e : Element R)
    (st : PicardLocal R) (k : Nat) (hk : k < p.dim) (hM : p.assembleMatrix = true) :
    (picardResize p e st).Jac (p.SolPdeIndex p.dim) (p.SolPdeIndex k)
      = ((st.Jac (p.SolPdeIndex p.dim) (p.SolPdeIndex k)).resize (e.nDofsP * e.nDofsV) 0).memset
          (e.nDofsP * e.nDofsV) 0 := by
  have hkd : p.SolPdeIndex k ≠ p.SolPdeIndex p.dim := hS.ne (le_of_lt hk) le_rfl (by omega)
  have hloop := foldl_range_obs_unique
    (fun s : PicardLocal R => s.Jac (p.SolPdeIndex p.dim) (p.SolPdeIndex k))
    (picardResizeVar p e) p.dim k
    (fun v => (v.resize (e.nDofsP * e.nDofsV) 0).memset (e.nDofsP * e.nDofsV) 0)
    (by
      intro s a ha hne
      have : p.SolPdeIndex k ≠ p.SolPdeIndex a :=
        hS.ne (le_of_lt hk) (le_of_lt ha) (fun h => hne h.symm)
      have hda : p.SolPdeIndex p.dim ≠ p.SolPdeIndex a :=
        hS.ne le_rfl (le_of_lt ha) (by omega)
      unfold picardResizeVar
      dsimp only
      simp [this, hkd, hkd.symm, hda, hM])
    (by
      intro s _
      unfold picardResizeVar
      dsimp only
      simp [hkd, hkd.symm, hM])
    st
  rw [if_pos hk] at hloop
  unfold picardResize
  dsimp only
  simp [hkd, hkd.symm, hloop, hM, penalty]

theorem picardResize_Jac_PP (p : Problem R) (hS : p.distinctFields) (e : Element R)
    (st : PicardLocal R) (hM : p.assembleMatrix = true) :
    (picardResize p e st).Jac (p.SolPdeIndex p.dim) (p.SolPdeIndex p.dim)
      = ((st.Jac (p.SolPdeIndex p.dim) (p.SolPdeIndex p.dim)).resize
          (e.nDofsP * e.nDofsP) 0).memset (e.nDofsP * e.nDofsP) 0 := by
  have hloop := foldl_obs_const
    (fun s : PicardLocal R => s.Jac (p.SolPdeIndex p.dim) (p.SolPdeIndex p.dim))
    (picardResizeVar p e) (List.range p.dim)
    (by
      intro s a ha
      have ha := List.mem_range.mp ha
      have : p.SolPdeIndex p.dim ≠ p.SolPdeIndex a := hS.ne le_rfl (le_of_lt ha) (by omega)
      unfold picardResizeVar
      dsimp only
      simp [this, hM])
    st
  unfold picardResize
  dsimp only
  simp [hloop, hM, penalty]

theorem picardResize_Jac_noMatrix (p : Problem R) (e : Element R)
    (st : PicardLocal R) (hM : p.assembleMatrix = false) :
    (picardResize p e st).Jac = st.Jac := by
  have hloop := foldl_obs_const (fun s : PicardLocal R => s.Jac)
    (picardResizeVar p e) (List.range p.dim)
    (by
      intro s a _
      unfold picardResizeVar
      dsimp only
      simp [hM])
    st
  unfold picardResize
  dsimp only
  simp [hloop, hM]

theorem picardResize_KKDof_V (p : Problem R) (e : Element R)
    (st : PicardLocal R) (k : Nat) (hk : k < p.dim) :
    (picardResize p e st).KKDof k = (st.KKDof k).resize e.nDofsV 0 := by
  have hloop := foldl_range_obs_unique (fun s : PicardLocal R => s.KKDof k)
    (picardResizeVar p e) p.dim k (fun v => v.resize e.nDofsV 0)
    (by
      intro s a ha hne
      have : k ≠ a := fun h => hne h.symm
      unfold picardResizeVar
      dsimp only
      split <;> simp [this])
    (by
      intro s _
      unfold picardResizeVar
      dsimp only
      split <;> simp)
    st
  rw [if_pos hk] at hloop
  have hkd : k ≠ p.dim := by omega
  unfold picardResize
  dsimp only
  split <;> simp [hkd, hloop]

theorem picardResize_KKDof_P (p : Problem R) (e : Element R) (st : PicardLocal R) :
    (picardResize p e st).KKDof p.dim = (st.KKDof p.dim).resize e.nDofsP 0 := by
  have hloop := foldl_obs_const (fun s : PicardLocal R => s.KKDof p.dim)
    (picardResizeVar p e) (List.range p.dim)
    (by
      intro s a ha
      have ha := List.mem_range.mp ha
      have : p.dim ≠ a := by omega
      unfold picardResizeVar
      dsimp only
      split <;> simp [this])
    st
  unfold picardResize
  dsimp only
  split <;> simp [hloop]

end PicardSetup

section PicardGatherLemmas

variable {R : Type}

/-! ### The buffers after `picardGather` -/

theorem picardGather_Res (p : Problem R) (e : Element R) (st : PicardLocal R) :
    (picardGather p e st).Res = st.Res := by
  unfold picardGather
  dsimp only
  rw [foldl_obs_const (fun s : PicardLocal R => s.Res),
    foldl_obs_const (fun s : PicardLocal R => s.Res)]
  · intro s a _
    unfold picardGatherV
    refine foldl_obs_const (fun s : PicardLocal R => s.Res) _ _ ?_ s
    intro s c _; rfl
  · intro s a _; rfl

theorem picardGather_Jac (p : Problem R) (e : Element R) (st : PicardLocal R) :
    (picardGather p e st).Jac = st.Jac := by
  unfold picardGather
  dsimp only
  rw [foldl_obs_const (fun s : PicardLocal R => s.Jac),
    foldl_obs_const (fun s : PicardLocal R => s.Jac)]
  · intro s a _
    unfold picardGatherV
    refine foldl_obs_const (fun s : PicardLocal R => s.Jac) _ _ ?_ s
    intro s c _; rfl
  · intro s a _; rfl

theorem picardGather_KKDof_size (p : Problem R) (e : Element R) (st : PicardLocal R) (b : Nat) :
    ((picardGather p e st).KKDof b).size = (st.KKDof b).size := by
  unfold picardGather
  dsimp only
  rw [foldl_obs_const (fun s : PicardLocal R => (s.KKDof b).size),
    foldl_obs_const (fun s : PicardLocal R => (s.KKDof b).size)]
  · intro s a _
    unfold picardGatherV
    refine foldl_obs_const (fun s : PicardLocal R => (s.KKDof b).size) _ _ ?_ s
    intro s c _
    simp only [modKKDof_KKDof]
    split
    · subst_vars; rfl
    · rfl
  · intro s a _
    simp only [modKKDof_KKDof]
    split
    · subst_vars; rfl
    · rfl

theorem picardGatherV_KKDof (p : Problem R) (e : Element R) (st : PicardLocal R)
    (k i i' : Nat) (hk : k < p.dim) :
    ((picardGatherV p e st i').KKDof k).data i
      = if i = i' then e.dofV k i else (st.KKDof k).data i := by
  unfold picardGatherV
  rw [foldl_range_obs_unique (fun s : PicardLocal R => (s.KKDof k).data i) _ p.dim k
    (fun x => if i = i' then e.dofV k i else x), if_pos hk]
  · intro s a _ hne
    have : k ≠ a := fun h => hne h.symm
    simp [this]
  · intro s _
    by_cases h : i = i'
    · subst h; simp
    · simp [h]

theorem picardGather_KKDof_V (p : Problem R) (e : Element R) (st : PicardLocal R)
    (k i : Nat) (hk : k < p.dim) (hi : i < e.nDofsV) :
    ((picardGather p e st).KKDof k).data i = e.dofV k i := by
  have hkd : k ≠ p.dim := by omega
  unfold picardGather
  dsimp only
  rw [foldl_obs_const (fun s : PicardLocal R => (s.KKDof k).data i) _ _
      (fun s a _ => by simp only [modKKDof_KKDof, if_neg hkd]),
    foldl_range_obs_unique (fun s : PicardLocal R => (s.KKDof k).data i) _ e.nDofsV i
      (fun _ => e.dofV k i), if_pos hi]
  · intro s a _ hne
    rw [picardGatherV_KKDof p e s k i a hk, if_neg (fun h => hne h.symm)]
  · intro s _
    rw [picardGatherV_KKDof p e s k i i hk, if_pos rfl]

theorem picardGather_KKDof_P (p : Problem R) (e : Element R) (st : PicardLocal R)
    (i : Nat) (hi : i < e.nDofsP) :
    ((picardGather p e st).KKDof p.dim).data i = e.dofP i := by
  unfold picardGather
  dsimp only
  rw [foldl_range_obs_unique (fun s : PicardLocal R => (s.KKDof p.dim).data i) _ e.nDofsP i
      (fun _ => e.dofP i), if_pos hi]
  · intro s a _ hne
    have : i ≠ a := fun h => hne h.symm
    simp [this]
  · intro s _
    simp

end PicardGatherLemmas

section PicardLocalLemmas

variable {R : Type} [CommRing R]

theorem picardLocal_eq (p : Problem R) (e : Element R) (st : PicardLocal R) :
    picardLocal p e st
      = (picardActiveGauss p e).foldl (picardGauss p e) (picardGather p e (picardResize p e st)) := by
  unfold picardLocal picardActiveGauss
  dsimp only
  split <;> rfl

/-- The change of `Res[b0][i0]` made by `Res[b][n] += x`. -/
theorem obs_Res_data_modRes (b0 i0 : Nat) (s : PicardLocal R) (b n : Nat) (x : R) :
    ((s.modRes b (fun v => v.addAt n x)).Res b0).data i0
      = (s.Res b0).data i0 + if b = b0 ∧ n = i0 then x else 0 := by
  simp only [modRes_Res]
  by_cases hb : b0 = b
  · subst hb
    by_cases hn : i0 = n
    · subst hn; simp
    · have : ¬ n = i0 := fun h => hn h.symm
      simp [hn, this]
  · have : ¬ b = b0 := fun h => hb h.symm
    simp [hb, this]

/-- The change of `Jac[a0][b0][n0]` made by `Jac[a][b][n] += x`. -/
theorem obs_Jac_data_modJac_add (a0 b0 n0 : Nat) (s : PicardLocal R) (a b n : Nat) (x : R) :
    ((s.modJac a b (fun v => v.addAt n x)).Jac a0 b0).data n0
      = (s.Jac a0 b0).data n0 + if a = a0 ∧ b = b0 ∧ n = n0 then x else 0 := by
  simp only [modJac_Jac]
  by_cases hab : a0 = a ∧ b0 = b
  · obtain ⟨ha, hb⟩ := hab
    subst ha hb
    by_cases hn : n0 = n
    · subst hn; simp
    · have : ¬ n = n0 := fun h => hn h.symm
      simp [hn, this]
  · have : ¬ (a = a0 ∧ b = b0 ∧ n = n0) := fun h => hab ⟨h.1.symm, h.2.1.symm⟩
    rw [if_neg hab, if_neg this, add_zero]

/-- The change of `Jac[a0][b0][n0]` made by `Jac[a][b][n] -= x`. -/
theorem obs_Jac_data_modJac_sub (a0 b0 n0 : Nat) (s : PicardLocal R) (a b n : Nat) (x : R) :
    ((s.modJac a b (fun v => v.subAt n x)).Jac a0 b0).data n0
      = (s.Jac a0 b0).data n0 + if a = a0 ∧ b = b0 ∧ n = n0 then -x else 0 := by
  simp only [modJac_Jac]
  by_cases hab : a0 = a ∧ b0 = b
  · obtain ⟨ha, hb⟩ := hab
    subst ha hb
    by_cases hn : n0 = n
    · subst hn; simp [sub_eq_add_neg]
    · have : ¬ n = n0 := fun h => hn h.symm
      simp [hn, this]
  · have : ¬ (a = a0 ∧ b = b0 ∧ n = n0) := fun h => hab ⟨h.1.symm, h.2.1.symm⟩
    rw [if_neg hab, if_neg this, add_zero]

/-- The Gauss loop changes the entry `i0` of `Res[b0]` by the sum of the values
added to it. -/
theorem picardGaussLoop_Res_data (p : Problem R) (e : Element R) (b0 i0 : Nat)
    (st : PicardLocal R) (gs : List (GaussPoint R)) :
    ((gs.foldl (picardGauss p e) st).Res b0).data i0
      = (st.Res b0).data i0
        + (gs.map (picardGaussDelta p e (fun b n x => if b = b0 ∧ n = i0 then x else 0)
            (fun _ _ _ _ => (0 : R)))).sum :=
  picardGaussLoop_obs p e (fun s => (s.Res b0).data i0) _ _
    (obs_Res_data_modRes b0 i0) (fun _ _ _ _ _ => by simp) (fun _ _ _ _ _ => by simp) st gs

/-- The Gauss loop changes the entry `n0` of `Jac[a0][b0]` by the sum of the
values added to it. -/
theorem picardGaussLoop_Jac_data (p : Problem R) (e : Element R) (a0 b0 n0 : Nat)
    (st : PicardLocal R) (gs : List (GaussPoint R)) :
    ((gs.foldl (picardGauss p e) st).Jac a0 b0).data n0
      = (st.Jac a0 b0).data n0
        + (gs.map (picardGaussDelta p e (fun _ _ _ => (0 : R))
            (fun a b n x => if a = a0 ∧ b = b0 ∧ n = n0 then x else 0))).sum :=
  picardGaussLoop_obs p e (fun s => (s.Jac a0 b0).data n0) _ _
    (fun _ _ _ _ => by simp) (obs_Jac_data_modJac_add a0 b0 n0)
    (obs_Jac_data_modJac_sub a0 b0 n0) st gs

theorem picardGaussDelta_zero {β : Type} [AddCommMonoid β] (p : Problem R) (e : Element R)
    (gs : List (GaussPoint R)) :
    (gs.map (picardGaussDelta p e (fun _ _ _ => (0 : β)) (fun _ _ _ _ => 0))).sum = 0 := by
  induction gs with
  | nil => rfl
  | cons g gs ih =>
    rw [List.map_cons, List.sum_cons, ih]
    simp [picardGaussDelta, picardPhiIDelta, picardPhiPIDelta]

theorem picardGaussLoop_Res_size (p : Problem R) (e : Element R) (b0 : Nat)
    (st : PicardLocal R) (gs : List (GaussPoint R)) :
    ((gs.foldl (picardGauss p e) st).Res b0).size = (st.Res b0).size := by
  have h := picardGaussLoop_obs p e (fun s => (s.Res b0).size) (fun _ _ _ => 0)
    (fun _ _ _ _ => 0)
    (fun s b n x => by
      simp only [modRes_Res, add_zero]
      split
      · subst_vars; rfl
      · rfl)
    (fun _ _ _ _ _ => by simp) (fun _ _ _ _ _ => by simp) st gs
  rw [h, picardGaussDelta_zero, add_zero]

theorem picardGaussLoop_Jac_size (p : Problem R) (e : Element R) (a0 b0 : Nat)
    (st : PicardLocal R) (gs : List (GaussPoint R)) :
    ((gs.foldl (picardGauss p e) st).Jac a0 b0).size = (st.Jac a0 b0).size := by
  have h := picardGaussLoop_obs p e (fun s => (s.Jac a0 b0).size) (fun _ _ _ => 0)
    (fun _ _ _ _ => 0)
    (fun _ _ _ _ => by simp)
    (fun s a b n x => by
      simp only [modJac_Jac, add_zero]
      split
      · rename_i h; obtain ⟨h1, h2⟩ := h; subst h1 h2; rfl
      · rfl)
    (fun s a b n x => by
      simp only [modJac_Jac, add_zero]
      split
      · rename_i h; obtain ⟨h1, h2⟩ := h; subst h1 h2; rfl
      · rfl) st gs
  rw [h, picardGaussDelta_zero, add_zero]

theorem picardGaussLoop_KKDof (p : Problem R) (e : Element R)
    (st : PicardLocal R) (gs : List (GaussPoint R)) :
    (gs.foldl (picardGauss p e) st).KKDof = st.KKDof := by
  funext b
  refine Vec.ext _ _ ?_ ?_
  · have h := picardGaussLoop_obs p e (fun s => (s.KKDof b).size) (fun _ _ _ => 0)
      (fun _ _ _ _ => 0) (fun _ _ _ _ => by simp) (fun _ _ _ _ _ => by simp)
      (fun _ _ _ _ _ => by simp) st gs
    rw [h, picardGaussDelta_zero, add_zero]
  · intro i
    have h := picardGaussLoop_obs p e (fun s => (s.KKDof b).data i) (fun _ _ _ => 0)
      (fun _ _ _ _ => 0) (fun _ _ _ _ => by simp) (fun _ _ _ _ _ => by simp)
      (fun _ _ _ _ _ => by simp) st gs
    rw [h, picardGaussDelta_zero, add_zero]

end PicardLocalLemmas
section PicardDelta

variable {R : Type} [CommRing R]

theorem picardGaussDelta_Res_V (p : Problem R) (hS : p.distinctFields) (e : Element R)
    (g : GaussPoint R) (k i : Nat) (hk : k < p.dim) (hi : i < e.nDofsV) :
    picardGaussDelta p e (fun b n x => if b = p.SolPdeIndex k ∧ n = i then x else 0)
      (fun _ _ _ _ => (0 : R)) g = picardMomentum p e g k i := by
  have hdk : ¬ p.SolPdeIndex p.dim = p.SolPdeIndex k := hS.ne le_rfl (le_of_lt hk) (by omega)
  unfold picardGaussDelta picardPhiIDelta picardPhiPIDelta
  simp only [Finset.sum_const_zero, add_zero, ite_self, hdk, false_and, if_false]
  rw [Finset.sum_eq_single_of_mem i (Finset.mem_range.2 hi),
    Finset.sum_eq_single_of_mem k (Finset.mem_range.2 hk)]
  · simp
  · intro a ha hne
    have : ¬ p.SolPdeIndex a = p.SolPdeIndex k :=
      hS.ne (le_of_lt (Finset.mem_range.1 ha)) (le_of_lt hk) hne
    simp [this]
  · intro a _ hne
    simp [hne]

theorem picardGaussDelta_Res_P (p : Problem R) (hS : p.distinctFields) (e : Element R)
    (g : GaussPoint R) (i : Nat) (hi : i < e.nDofsP) :
    picardGaussDelta p e (fun b n x => if b = p.SolPdeIndex p.dim ∧ n = i then x else 0)
      (fun _ _ _ _ => (0 : R)) g = g.phiP_gss i * div p e g * g.weight := by
  unfold picardGaussDelta picardPhiIDelta picardPhiPIDelta
  simp only [Finset.sum_const_zero, add_zero, ite_self]
  rw [Finset.sum_eq_zero, zero_add, Finset.sum_eq_single_of_mem i (Finset.mem_range.2 hi)]
  · simp
  · intro a _ hne
    simp [hne]
  · intro a _
    apply Finset.sum_eq_zero
    intro b hb
    have : ¬ p.SolPdeIndex b = p.SolPdeIndex p.dim :=
      hS.ne (le_of_lt (Finset.mem_range.1 hb)) le_rfl (by have := Finset.mem_range.1 hb; omega)
    simp [this]

theorem picardGaussDelta_Jac_VV (p : Problem R) (hS : p.distinctFields) (e : Element R)
    (g : GaussPoint R) (k i j : Nat) (hk : k < p.dim) (hi : i < e.nDofsV) (hj : j < e.nDofsV) :
    picardGaussDelta p e (fun _ _ _ => (0 : R))
      (fun a b n x => if a = p.SolPdeIndex k ∧ b = p.SolPdeIndex k ∧ n = i * e.nDofsV + j
        then x else 0) g
      = if p.assembleMatrix then p.IRe * Lap p g i j * g.weight else 0 := by
  have hdk : ¬ p.SolPdeIndex p.dim = p.SolPdeIndex k := hS.ne le_rfl (le_of_lt hk) (by omega)
  unfold picardGaussDelta picardPhiIDelta picardPhiPIDelta
  simp only [Finset.sum_const_zero, add_zero, zero_add, ite_self, hdk, false_and, and_false,
    if_false]
  by_cases hM : p.assembleMatrix = true
  · simp only [hM, if_true]
    rw [Finset.sum_eq_single_of_mem i (Finset.mem_range.2 hi),
      Finset.sum_eq_single_of_mem j (Finset.mem_range.2 hj),
      Finset.sum_eq_single_of_mem k (Finset.mem_range.2 hk)]
    · simp
    · intro a ha hne
      have : ¬ p.SolPdeIndex a = p.SolPdeIndex k :=
        hS.ne (le_of_lt (Finset.mem_range.1 ha)) (le_of_lt hk) hne
      simp [this]
    · intro a ha hne
      have : ¬ i * e.nDofsV + a = i * e.nDofsV + j := by omega
      simp [this]
    · intro a _ hne
      apply Finset.sum_eq_zero
      intro b hb
      have : ¬ a * e.nDofsV + b = i * e.nDofsV + j :=
        fun h => hne (flat_index_inj hj (Finset.mem_range.1 hb) h).1
      simp [this]
  · simp [hM]

theorem picardGaussDelta_Jac_VP (p : Problem R) (hS : p.distinctFields) (e : Element R)
    (g : GaussPoint R) (k i j : Nat) (hk : k < p.dim) (hi : i < e.nDofsV) (hj : j < e.nDofsP) :
    picardGaussDelta p e (fun _ _ _ => (0 : R))
      (fun a b n x => if a = p.SolPdeIndex k ∧ b = p.SolPdeIndex p.dim ∧ n = i * e.nDofsP + j
        then x else 0) g
      = if p.assembleMatrix
          then -(g.phiV_x_gss (i * p.dim + k) * g.phiP_gss j * g.weight) else 0 := by
  have hdk : ¬ p.SolPdeIndex p.dim = p.SolPdeIndex k := hS.ne le_rfl (le_of_lt hk) (by omega)
  have hkd : ¬ p.SolPdeIndex k = p.SolPdeIndex p.dim := fun h => hdk h.symm
  unfold picardGaussDelta picardPhiIDelta picardPhiPIDelta
  simp only [Finset.sum_const_zero, add_zero, zero_add, ite_self, hdk, false_and, and_false,
    if_false]
  by_cases hM : p.assembleMatrix = true
  · simp only [hM, if_true]
    rw [Finset.sum_eq_single_of_mem i (Finset.mem_range.2 hi)]
    · have h1 : (∑ x ∈ Finset.range e.nDofsV, ∑ x_1 ∈ Finset.range p.dim,
          if p.SolPdeIndex x_1 = p.SolPdeIndex k ∧ p.SolPdeIndex x_1 = p.SolPdeIndex p.dim
              ∧ i * e.nDofsV + x = i * e.nDofsP + j
            then p.IRe * Lap p g i x * g.weight else 0) = 0 := by
        apply Finset.sum_eq_zero
        intro a _
        apply Finset.sum_eq_zero
        intro b _
        have : ¬ (p.SolPdeIndex b = p.SolPdeIndex k ∧ p.SolPdeIndex b = p.SolPdeIndex p.dim
            ∧ i * e.nDofsV + a = i * e.nDofsP + j) := fun h => hkd (h.1.symm.trans h.2.1)
        rw [if_neg this]
      rw [h1, zero_add, Finset.sum_eq_single_of_mem j (Finset.mem_range.2 hj),
        Finset.sum_eq_single_of_mem k (Finset.mem_range.2 hk)]
      · simp
      · intro a ha hne
        have : ¬ p.SolPdeIndex a = p.SolPdeIndex k :=
          hS.ne (le_of_lt (Finset.mem_range.1 ha)) (le_of_lt hk) hne
        simp [this]
      · intro a ha hne
        have : ¬ i * e.nDofsP + a = i * e.nDofsP + j := by omega
        simp [this]
    · intro a _ hne
      have h1 : (∑ x ∈ Finset.range e.nDofsV, ∑ x_1 ∈ Finset.range p.dim,
          if p.SolPdeIndex x_1 = p.SolPdeIndex k ∧ p.SolPdeIndex x_1 = p.SolPdeIndex p.dim
              ∧ a * e.nDofsV + x = i * e.nDofsP + j
            then p.IRe * Lap p g a x * g.weight else 0) = 0 := by
        apply Finset.sum_eq_zero
        intro c _
        apply Finset.sum_eq_zero
        intro b _
        have : ¬ (p.SolPdeIndex b = p.SolPdeIndex k ∧ p.SolPdeIndex b = p.SolPdeIndex p.dim
            ∧ a * e.nDofsV + c = i * e.nDofsP + j) := fun h => hkd (h.1.symm.trans h.2.1)
        rw [if_neg this]
      rw [h1, zero_add]
      apply Finset.sum_eq_zero
      intro b hb
      have : ¬ a * e.nDofsP + b = i * e.nDofsP + j :=
        fun h => hne (flat_index_inj hj (Finset.mem_range.1 hb) h).1
      simp [this]
  · simp [hM]

theorem picardGaussDelta_Jac_PV (p : Problem R) (hS : p.distinctFields) (e : Element R)
    (g : GaussPoint R) (k i j : Nat) (hk : k < p.dim) (hi : i < e.nDofsP) (hj : j < e.nDofsV) :
    picardGaussDelta p e (fun _ _ _ => (0 : R))
      (fun a b n x => if a = p.SolPdeIndex p.dim ∧ b = p.SolPdeIndex k ∧ n = i * e.nDofsV + j
        then x else 0) g
      = if p.assembleMatrix
          then -(g.phiP_gss i * g.phiV_x_gss (j * p.dim + k) * g.weight) else 0 := by
  unfold picardGaussDelta picardPhiIDelta picardPhiPIDelta
  simp only [Finset.sum_const_zero, add_zero, zero_add, ite_self, true_and]
  by_cases hM : p.assembleMatrix = true
  · simp only [hM, if_true]
    rw [Finset.sum_eq_zero, zero_add, Finset.sum_eq_single_of_mem i (Finset.mem_range.2 hi),
      Finset.sum_eq_single_of_mem j (Finset.mem_range.2 hj),
      Finset.sum_eq_single_of_mem k (Finset.mem_range.2 hk)]
    · simp
    · intro a ha hne
      have : ¬ p.SolPdeIndex a = p.SolPdeIndex k :=
        hS.ne (le_of_lt (Finset.mem_range.1 ha)) (le_of_lt hk) hne
      simp [this]
    · intro a ha hne
      have : ¬ i * e.nDofsV + a = i * e.nDofsV + j := by omega
      simp [this]
    · intro a _ hne
      apply Finset.sum_eq_zero
      intro b hb
      have : ¬ a * e.nDofsV + b = i * e.nDofsV + j :=
        fun h => hne (flat_index_inj hj (Finset.mem_range.1 hb) h).1
      simp [this]
    · intro a _
      have h1 : ∀ b, b ∈ Finset.range p.dim → ¬ p.SolPdeIndex b = p.SolPdeIndex p.dim :=
        fun b hb => hS.ne (le_of_lt (Finset.mem_range.1 hb)) le_rfl
          (by have := Finset.mem_range.1 hb; omega)
      rw [Finset.sum_eq_zero, Finset.sum_eq_zero, add_zero]
      · intro c _
        apply Finset.sum_eq_zero
        intro b hb
        simp [h1 b hb]
      · intro c _
        apply Finset.sum_eq_zero
        intro b hb
        simp [h1 b hb]
  · simp [hM]

theorem picardGaussDelta_Jac_PP (p : Problem R) (hS : p.distinctFields) (e : Element R)
    (g : GaussPoint R) (n : Nat) :
    picardGaussDelta p e (fun _ _ _ => (0 : R))
      (fun a b m x => if a = p.SolPdeIndex p.dim ∧ b = p.SolPdeIndex p.dim ∧ m = n
        then x else 0) g = 0 := by
  have h1 : ∀ b, b ∈ Finset.range p.dim → ¬ p.SolPdeIndex b = p.SolPdeIndex p.dim :=
    fun b hb => hS.ne (le_of_lt (Finset.mem_range.1 hb)) le_rfl
      (by have := Finset.mem_range.1 hb; omega)
  unfold picardGaussDelta picardPhiIDelta picardPhiPIDelta
  simp only [Finset.sum_const_zero, add_zero, zero_add, ite_self, true_and]
  rw [Finset.sum_eq_zero, Finset.sum_eq_zero, add_zero]
  · intro a _
    split
    · apply Finset.sum_eq_zero
      intro c _
      apply Finset.sum_eq_zero
      intro b hb
      simp [h1 b hb]
    · rfl
  · intro a _
    split
    · rw [Finset.sum_eq_zero, Finset.sum_eq_zero, add_zero]
      · intro c _
        apply Finset.sum_eq_zero
        intro b hb
        simp [h1 b hb]
      · intro c _
        apply Finset.sum_eq_zero
        intro b hb
        simp [h1 b hb]
    · rfl

end PicardDelta

section ActiveGauss

variable {R : Type}

theorem picardActiveGauss_pos (p : Problem R) (e : Element R)
    (h : p.igrid = p.levelMax ∨ e.refined = false) : picardActiveGauss p e = e.gauss := by
  unfold picardActiveGauss
  rcases h with h | h <;> simp [h]

theorem picardActiveGauss_neg (p : Problem R) (e : Element R)
    (h1 : p.igrid ≠ p.levelMax) (h2 : e.refined = true) : picardActiveGauss p e = [] := by
  unfold picardActiveGauss
  simp [h1, h2]

end ActiveGauss

section PicardLocalBlocks

variable {R : Type} [CommRing R]

theorem picardMomentum_eq (p : Problem R) (e : Element R) (g : GaussPoint R) (k i : Nat) :
    picardMomentum p e g k i
      = (-p.IRe * (∑ j ∈ Finset.range p.dim, g.phiV_x_gss (i * p.dim + j)
            * ∑ m ∈ Finset.range e.nDofsV, g.phiV_x_gss (m * p.dim + j) * e.solV k m)
          - (∑ m ∈ Finset.range e.nDofsP, g.phiP_gss m * e.solP m) * g.phiV_x_gss (i * p.dim + k)
          + p.force k * g.phiV_gss i) * g.weight := by
  unfold picardMomentum Lap_rhs SolVAR_dim gradSolVAR
  simp only [foldl_add_eq_sum, zero_add]

theorem picardLocal_Res_V (p : Problem R) (hS : p.distinctFields) (e : Element R)
    (st : PicardLocal R) (k i : Nat) (hk : k < p.dim) (hi : i < e.nDofsV) :
    ((picardLocal p e st).Res (p.SolPdeIndex k)).data i
      = ((picardActiveGauss p e).map (fun g => picardMomentum p e g k i)).sum := by
  rw [picardLocal_eq, picardGaussLoop_Res_data, picardGather_Res, picardResize_Res_V p hS e st k hk]
  simp only [Vec.memset_data, if_pos hi, zero_add]
  congr 1
  exact List.map_congr_left (fun g _ => picardGaussDelta_Res_V p hS e g k i hk hi)

end PicardLocalBlocks

section ADoubleLemmas

variable {R : Type} [CommRing R]

@[simp] theorem adouble.ev_add (o : Option Var) (a b : adouble R) :
    adouble.ev o (a + b) = adouble.ev o a + adouble.ev o b := by
  cases o <;> rfl

@[simp] theorem adouble.ev_neg (o : Option Var) (a : adouble R) :
    adouble.ev o (-a) = -adouble.ev o a := by
  cases o <;> rfl

@[simp] theorem adouble.ev_smul (o : Option Var) (c : R) (a : adouble R) :
    adouble.ev o (c * a) = c * adouble.ev o a := by
  cases o <;> rfl

@[simp] theorem adouble.ev_mul_double (o : Option Var) (a : adouble R) (c : R) :
    adouble.ev o (a * c) = adouble.ev o a * c := by
  cases o <;> rfl

@[simp] theorem adouble.ev_add_double (o : Option Var) (a : adouble R) (c : R) :
    adouble.ev o (a + c) = adouble.ev o a + c * adouble.evOne o := by
  cases o
  · show a.value + c = a.value + c * 1
    rw [mul_one]
  · show a.grad _ = a.grad _ + c * 0
    rw [mul_zero, add_zero]

@[simp] theorem adouble.ev_ofDouble_zero (o : Option Var) :
    adouble.ev o (adouble.ofDouble (0 : R)) = 0 := by
  cases o <;> rfl

theorem gradSolV_gss_ev (o : Option Var) (p : Problem R) (e : Element R) (g : GaussPoint R)
    (k j : Nat) :
    adouble.ev o (gradSolV_gss p e g k j)
      = ∑ m ∈ Finset.range e.nDofsV,
          g.phiV_x_gss (m * p.dim + j) * adouble.ev o (solV e k m) := by
  unfold gradSolV_gss
  rw [foldl_range_obs_add (adouble.ev o) _
    (fun m => g.phiV_x_gss (m * p.dim + j) * adouble.ev o (solV e k m)) _
    (fun s a _ => by simp)]
  simp

theorem solP_gss_ev (o : Option Var) (e : Element R) (g : GaussPoint R) :
    adouble.ev o (solP_gss e g)
      = ∑ m ∈ Finset.range e.nDofsP, g.phiP_gss m * adouble.ev o (solP e m) := by
  unfold solP_gss
  rw [foldl_range_obs_add (adouble.ev o) _
    (fun m => g.phiP_gss m * adouble.ev o (solP e m)) _ (fun s a _ => by simp)]
  simp

theorem NSV_gss_ev (o : Option Var) (p : Problem R) (e : Element R) (g : GaussPoint R)
    (k i : Nat) (hk : k < p.dim) :
    adouble.ev o ((NSV_gss p e g i).data k) = adNSV o p e g k i := by
  unfold NSV_gss adNSV
  dsimp only
  rw [foldl_range_obs_unique (fun n : Vec (adouble R) => adouble.ev o (n.data k)) _ p.dim k
      (fun x => x + adouble.ev o ((-solP_gss e g) * g.phiV_x_gss (i * p.dim + k))), if_pos hk,
    foldl_range_obs_add (fun n : Vec (adouble R) => adouble.ev o (n.data k)) _
      (fun j => (p.IRe * g.phiV_x_gss (i * p.dim + j))
          * (adouble.ev o (gradSolV_gss p e g k j) + adouble.ev o (gradSolV_gss p e g j k))
        + (-p.force k * g.phiV_gss i) * adouble.evOne o)]
  · simp only [adouble.ev_ofDouble_zero, zero_add, adouble.ev_mul_double, adouble.ev_neg,
      gradSolV_gss_ev, solP_gss_ev]
  · intro s j _
    rw [foldl_range_obs_unique (fun n : Vec (adouble R) => adouble.ev o (n.data k)) _ p.dim k
      (fun x => x + ((p.IRe * g.phiV_x_gss (i * p.dim + j))
          * (adouble.ev o (gradSolV_gss p e g k j) + adouble.ev o (gradSolV_gss p e g j k))
        + (-p.force k * g.phiV_gss i) * adouble.evOne o)), if_pos hk]
    · intro s a _ hne
      have : ¬ k = a := fun h => hne h.symm
      simp [this]
    · intro s _
      simp [add_assoc]
  · intro s a _ hne
    have : ¬ k = a := fun h => hne h.symm
    simp [this]
  · intro s _
    simp

end ADoubleLemmas

section VecBlocks

variable {α : Type}

/-- The loop nest `for i < n, for k < d: v[i + k*n] = f k i` keeps the size. -/
theorem setBlocks_size (n d : Nat) (f : Nat → Nat → α) (v : Vec α) :
    ((List.range n).foldl (fun v i =>
      (List.range d).foldl (fun v k => v.set (i + k * n) (f k i)) v) v).size = v.size := by
  refine foldl_obs_const (fun v : Vec α => v.size) _ _ ?_ v
  intro s a _
  refine foldl_obs_const (fun v : Vec α => v.size) _ _ ?_ s
  intro s b _
  rfl

/-- The loop nest `for i < n, for k < d: v[i + k*n] = f k i` writes `f k i` at
position `i + k*n`. -/
theorem setBlocks_data (n d : Nat) (f : Nat → Nat → α) (v : Vec α) (k i : Nat)
    (hk : k < d) (hi : i < n) :
    ((List.range n).foldl (fun v i =>
      (List.range d).foldl (fun v k => v.set (i + k * n) (f k i)) v) v).data (i + k * n)
      = f k i := by
  rw [foldl_range_obs_unique (fun v : Vec α => v.data (i + k * n)) _ n i (fun _ => f k i),
    if_pos hi]
  · intro s a ha hne
    refine foldl_obs_const (fun v : Vec α => v.data (i + k * n)) _ _ ?_ s
    intro s b _
    have : ¬ i + k * n = a + b * n := by
      intro h
      have h' : b * n + a = k * n + i := by omega
      exact hne (flat_index_inj hi ha h').2
    simp [this]
  · intro s _
    rw [foldl_range_obs_unique (fun v : Vec α => v.data (i + k * n)) _ d k (fun _ => f k i),
      if_pos hk]
    · intro s b _ hne
      have : ¬ i + k * n = i + b * n := by
        intro h
        have h' : b * n + i = k * n + i := by omega
        exact hne (flat_index_inj hi hi h').1
      simp [this]
    · intro s _
      simp

/-- The loop nest `for i < n, for k < d: v[i + k*n] = f k i` leaves the
positions from `d*n` on unchanged. -/
theorem setBlocks_data_ge (n d : Nat) (f : Nat → Nat → α) (v : Vec α) (t : Nat)
    (ht : d * n ≤ t) :
    ((List.range n).foldl (fun v i =>
      (List.range d).foldl (fun v k => v.set (i + k * n) (f k i)) v) v).data t = v.data t := by
  refine foldl_obs_const (fun v : Vec α => v.data t) _ _ ?_ v
  intro s a ha
  refine foldl_obs_const (fun v : Vec α => v.data t) _ _ ?_ s
  intro s b hb
  have ha := List.mem_range.mp ha
  have hb := List.mem_range.mp hb
  have h1 : (b + 1) * n ≤ d * n := Nat.mul_le_mul_right n hb
  have : ¬ t = a + b * n := by
    intro h
    rw [Nat.add_mul, Nat.one_mul] at h1
    omega
  simp [this]

theorem setTail_size (m off : Nat) (h : Nat → α) (v : Vec α) :
    ((List.range m).foldl (fun v i => v.set (i + off) (h i)) v).size = v.size := by
  refine foldl_obs_const (fun v : Vec α => v.size) _ _ ?_ v
  intro s a _
  rfl

theorem setTail_data (m off : Nat) (h : Nat → α) (v : Vec α) (i : Nat) (hi : i < m) :
    ((List.range m).foldl (fun v i => v.set (i + off) (h i)) v).data (i + off) = h i := by
  rw [foldl_range_obs_unique (fun v : Vec α => v.data (i + off)) _ m i (fun _ => h i),
    if_pos hi]
  · intro s a _ hne
    have : ¬ i + off = a + off := by omega
    simp [this]
  · intro s _
    simp

theorem setTail_data_lt (m off : Nat) (h : Nat → α) (v : Vec α) (t : Nat) (ht : t < off) :
    ((List.range m).foldl (fun v i => v.set (i + off) (h i)) v).data t = v.data t := by
  refine foldl_obs_const (fun v : Vec α => v.data t) _ _ ?_ v
  intro s a _
  have : ¬ t = a + off := by omega
  simp [this]

end VecBlocks

section ADObs

variable {R β : Type} [CommRing R] [AddCommMonoid β]

theorem adGaussLoop_obs (p : Problem R) (e : Element R) (π : ADLocal R → β)
    (dV : Nat → Nat → adouble R → β) (dP : Nat → adouble R → β)
    (hV : ∀ s k n x, π (s.modAResV k (fun v => v.addAt n x)) = π s + dV k n x)
    (hP : ∀ (s : ADLocal R) n x, π { s with aResP := s.aResP.addAt n x } = π s + dP n x)
    (st : ADLocal R) (gs : List (GaussPoint R)) :
    π (gs.foldl (adGauss p e) st) = π st + (gs.map (adGaussDelta p e dV dP)).sum := by
  refine foldl_obs_add π _ _ gs ?_ st
  intro s g _
  unfold adGauss adGaussDelta
  dsimp only
  rw [foldl_range_obs_add π _ (fun i => ∑ k ∈ Finset.range p.dim,
      dP i (((-(gradSolV_gss p e g k k)) * g.phiP_gss i) * g.weight)),
    foldl_range_obs_add π _ (fun i => ∑ k ∈ Finset.range p.dim,
      dV k i ((-(NSV_gss p e g i).data k) * g.weight)), add_assoc]
  · intro s i _
    unfold adPhiVI
    rw [foldl_range_obs_add π _ (fun k => dV k i ((-(NSV_gss p e g i).data k) * g.weight))]
    intro s k _
    exact hV s _ _ _
  · intro s i _
    unfold adPhiPI
    rw [foldl_range_obs_add π _
      (fun k => dP i (((-(gradSolV_gss p e g k k)) * g.phiP_gss i) * g.weight))]
    intro s k _
    exact hP s _ _

end ADObs

section ADAccess

variable {R : Type}

@[simp] theorem modAResV_aResV (st : ADLocal R) (k c : Nat)
    (f : Vec (adouble R) → Vec (adouble R)) :
    (st.modAResV k f).aResV c = if c = k then f (st.aResV k) else st.aResV c := by
  simp only [ADLocal.modAResV, Function.update_apply]

@[simp] theorem modAResV_aResP (st : ADLocal R) (k : Nat)
    (f : Vec (adouble R) → Vec (adouble R)) : (st.modAResV k f).aResP = st.aResP := rfl

@[simp] theorem modAResV_KKDof (st : ADLocal R) (k : Nat)
    (f : Vec (adouble R) → Vec (adouble R)) : (st.modAResV k f).KKDof = st.KKDof := rfl

@[simp] theorem modAResV_Res (st : ADLocal R) (k : Nat)
    (f : Vec (adouble R) → Vec (adouble R)) : (st.modAResV k f).Res = st.Res := rfl

@[simp] theorem modAResV_Jac (st : ADLocal R) (k : Nat)
    (f : Vec (adouble R) → Vec (adouble R)) : (st.modAResV k f).Jac = st.Jac := rfl

end ADAccess

section ADLocalLemmas

variable {R : Type} [CommRing R]

theorem adLocal_eq (p : Problem R) (e : Element R) (st : ADLocal R) :
    adLocal p e st
      = (adActiveGauss p e).foldl (adGauss p e) (adGather p e (adResize p e st)) := by
  unfold adLocal adActiveGauss
  dsimp only
  split <;> rfl

/-! ### The buffers after `adResize` and `adGather` -/

theorem adResize_aResV (p : Problem R) (e : Element R) (st : ADLocal R) (k : Nat)
    (hk : k < p.dim) :
    (adResize p e st).aResV k
      = ((st.aResV k).resize e.nDofsV (adouble.ofDouble 0)).memset e.nDofsV
          (adouble.ofDouble 0) := by
  unfold adResize
  dsimp only
  rw [foldl_range_obs_unique (fun s : ADLocal R => s.aResV k) _ p.dim k
    (fun v => (v.resize e.nDofsV (adouble.ofDouble 0)).memset e.nDofsV (adouble.ofDouble 0)),
    if_pos hk]
  · intro s a _ hne
    have : ¬ k = a := fun h => hne h.symm
    simp [this]
  · intro s _
    simp

theorem adResize_aResP (p : Problem R) (e : Element R) (st : ADLocal R) :
    (adResize p e st).aResP
      = (st.aResP.resize e.nDofsP (adouble.ofDouble 0)).memset e.nDofsP
          (adouble.ofDouble 0) := by
  unfold adResize
  dsimp only
  rw [foldl_obs_const (fun s : ADLocal R => s.aResP)]
  · rfl
  · intro s a _; rfl

theorem adResize_KKDof (p : Problem R) (e : Element R) (st : ADLocal R) :
    (adResize p e st).KKDof = st.KKDof.resize (p.dim * e.nDofsV + e.nDofsP) 0 := by
  unfold adResize
  dsimp only
  rw [foldl_obs_const (fun s : ADLocal R => s.KKDof)]
  intro s a _; rfl

theorem adResize_Jac (p : Problem R) (e : Element R) (st : ADLocal R) :
    (adResize p e st).Jac
      = st.Jac.resize ((p.dim * e.nDofsV + e.nDofsP) * (p.dim * e.nDofsV + e.nDofsP)) 0 := by
  unfold adResize
  dsimp only
  rw [foldl_obs_const (fun s : ADLocal R => s.Jac)]
  intro s a _; rfl

theorem adResize_Res (p : Problem R) (e : Element R) (st : ADLocal R) :
    (adResize p e st).Res = st.Res := by
  unfold adResize
  dsimp only
  rw [foldl_obs_const (fun s : ADLocal R => s.Res)]
  intro s a _; rfl

/-! ### The Gauss loop of `AssembleNavierStokes_AD` -/

theorem adGaussLoop_frame (p : Problem R) (e : Element R) (st : ADLocal R)
    (gs : List (GaussPoint R)) :
    (gs.foldl (adGauss p e) st).KKDof = st.KKDof
      ∧ (gs.foldl (adGauss p e) st).Res = st.Res
      ∧ (gs.foldl (adGauss p e) st).Jac = st.Jac := by
  refine foldl_obs_const (fun s : ADLocal R => (s.KKDof, s.Res, s.Jac)) _ gs ?_ st
    |> fun h => ⟨congrArg (fun x => x.1) h, congrArg (fun x => x.2.1) h,
      congrArg (fun x => x.2.2) h⟩
  intro s g _
  unfold adGauss
  dsimp only
  rw [foldl_obs_const (fun s : ADLocal R => (s.KKDof, s.Res, s.Jac)),
    foldl_obs_const (fun s : ADLocal R => (s.KKDof, s.Res, s.Jac))]
  · intro s i _
    unfold adPhiVI
    refine foldl_obs_const (fun s : ADLocal R => (s.KKDof, s.Res, s.Jac)) _ _ ?_ s
    intro s k _; rfl
  · intro s i _
    unfold adPhiPI
    refine foldl_obs_const (fun s : ADLocal R => (s.KKDof, s.Res, s.Jac)) _ _ ?_ s
    intro s k _; rfl

theorem adGaussLoop_aResV_size (p : Problem R) (e : Element R) (k0 : Nat) (st : ADLocal R)
    (gs : List (GaussPoint R)) :
    ((gs.foldl (adGauss p e) st).aResV k0).size = (st.aResV k0).size := by
  rw [adGaussLoop_obs p e (fun s => (s.aResV k0).size) (fun _ _ _ => 0) (fun _ _ => 0)
    (fun s k n x => by
      simp only [modAResV_aResV, add_zero]
      split
      · subst_vars; rfl
      · rfl)
    (fun s n x => by simp) st gs]
  have : ∀ gs : List (GaussPoint R),
      (gs.map (adGaussDelta p e (fun _ _ _ => (0 : Nat)) (fun _ _ => 0))).sum = 0 := by
    intro gs
    induction gs with
    | nil => rfl
    | cons g gs ih => rw [List.map_cons, List.sum_cons, ih]; simp [adGaussDelta]
  rw [this, add_zero]

theorem adGaussLoop_aResP_size (p : Problem R) (e : Element R) (st : ADLocal R)
    (gs : List (GaussPoint R)) :
    (gs.foldl (adGauss p e) st).aResP.size = st.aResP.size := by
  rw [adGaussLoop_obs p e (fun s => s.aResP.size) (fun _ _ _ => 0) (fun _ _ => 0)
    (fun s k n x => by simp) (fun s n x => by simp) st gs]
  have : ∀ gs : List (GaussPoint R),
      (gs.map (adGaussDelta p e (fun _ _ _ => (0 : Nat)) (fun _ _ => 0))).sum = 0 := by
    intro gs
    induction gs with
    | nil => rfl
    | cons g gs ih => rw [List.map_cons, List.sum_cons, ih]; simp [adGaussDelta]
  rw [this, add_zero]

/-- The Gauss loop adds `-NSV_gss[k][i] * weight` to `aResV[k][i]`, read
through `adouble.ev o`. -/
theorem adGaussLoop_aResV_ev (o : Option Var) (p : Problem R) (e : Element R) (k i : Nat)
    (hk : k < p.dim) (hi : i < e.nDofsV) (st : ADLocal R) (gs : List (GaussPoint R)) :
    adouble.ev o (((gs.foldl (adGauss p e) st).aResV k).data i)
      = adouble.ev o ((st.aResV k).data i)
        + (gs.map (fun g => -(adNSV o p e g k i) * g.weight)).sum := by
  rw [adGaussLoop_obs p e (fun s => adouble.ev o ((s.aResV k).data i))
    (fun k' n x => if k' = k ∧ n = i then adouble.ev o x else 0) (fun _ _ => 0)
    (fun s k' n x => by
      simp only [modAResV_aResV]
      by_cases h1 : k = k'
      · subst h1
        by_cases h2 : i = n
        · subst h2; simp
        · have : ¬ n = i := fun h => h2 h.symm
          simp [h2, this]
      · have : ¬ k' = k := fun h => h1 h.symm
        simp [h1, this])
    (fun s n x => by simp) st gs]
  congr 2
  refine List.map_congr_left (fun g _ => ?_)
  unfold adGaussDelta
  simp only [Finset.sum_const_zero, add_zero]
  rw [Finset.sum_eq_single_of_mem i (Finset.mem_range.2 hi),
    Finset.sum_eq_single_of_mem k (Finset.mem_range.2 hk)]
  · simp [NSV_gss_ev o p e g k i hk]
  · intro a _ hne
    simp [hne]
  · intro a _ hne
    apply Finset.sum_eq_zero
    intro b _
    simp [hne]

/-- The Gauss loop adds `-gradSolV_gss[k][k] * phiP_gss[i] * weight` for every
`k < dim` to `aResP[i]`, read through `adouble.ev o`. -/
theorem adGaussLoop_aResP_ev (o : Option Var) (p : Problem R) (e : Element R) (i : Nat)
    (hi : i < e.nDofsP) (st : ADLocal R) (gs : List (GaussPoint R)) :
    adouble.ev o ((gs.foldl (adGauss p e) st).aResP.data i)
      = adouble.ev o (st.aResP.data i)
        + (gs.map (fun g => ∑ k ∈ Finset.range p.dim,
            -(∑ m ∈ Finset.range e.nDofsV,
                g.phiV_x_gss (m * p.dim + k) * adouble.ev o (solV e k m))
              * g.phiP_gss i * g.weight)).sum := by
  rw [adGaussLoop_obs p e (fun s => adouble.ev o (s.aResP.data i))
    (fun _ _ _ => 0) (fun n x => if n = i then adouble.ev o x else 0)
    (fun s k' n x => by simp)
    (fun s n x => by
      by_cases h2 : i = n
      · subst h2; simp
      · have : ¬ n = i := fun h => h2 h.symm
        simp [h2, this]) st gs]
  congr 2
  refine List.map_congr_left (fun g _ => ?_)
  unfold adGaussDelta
  simp only [Finset.sum_const_zero, zero_add]
  rw [Finset.sum_eq_single_of_mem i (Finset.mem_range.2 hi)]
  · simp [gradSolV_gss_ev]
  · intro a _ hne
    apply Finset.sum_eq_zero
    intro b _
    simp [hne]

end ADLocalLemmas

section ADElement

variable {R : Type} [CommRing R]

theorem neg_sum_map {α : Type} (f : α → R) (l : List α) :
    -(l.map f).sum = (l.map (fun a => -f a)).sum := by
  induction l with
  | nil => simp
  | cons a l ih => simp only [List.map_cons, List.sum_cons, neg_add, ih]

theorem adElem_eq (p : Problem R) (m : Mesh R) (acc : ADLocal R × List (Call R)) (iel : Nat) :
    adElem p m acc iel
      = (adElemLocal p (m.elem iel) acc.1,
          acc.2 ++ adScatter p (adElemLocal p (m.elem iel) acc.1)) := by
  unfold adElem adElemLocal adScatter
  dsimp only
  split <;> simp

theorem adLocal_aResV_ev (o : Option Var) (p : Problem R) (e : Element R) (st : ADLocal R)
    (k i : Nat) (hk : k < p.dim) (hi : i < e.nDofsV) :
    adouble.ev o (((adLocal p e st).aResV k).data i)
      = ((adActiveGauss p e).map (fun g => -(adNSV o p e g k i) * g.weight)).sum := by
  rw [adLocal_eq, adGaussLoop_aResV_ev o p e k i hk hi]
  have h : (adGather p e (adResize p e st)).aResV k = (adResize p e st).aResV k := rfl
  rw [h, adResize_aResV p e st k hk]
  simp [hi]

theorem adLocal_aResP_ev (o : Option Var) (p : Problem R) (e : Element R) (st : ADLocal R)
    (i : Nat) (hi : i < e.nDofsP) :
    adouble.ev o ((adLocal p e st).aResP.data i)
      = ((adActiveGauss p e).map (fun g => ∑ k ∈ Finset.range p.dim,
            -(∑ m ∈ Finset.range e.nDofsV,
                g.phiV_x_gss (m * p.dim + k) * adouble.ev o (solV e k m))
              * g.phiP_gss i * g.weight)).sum := by
  rw [adLocal_eq, adGaussLoop_aResP_ev o p e i hi]
  have h : (adGather p e (adResize p e st)).aResP = (adResize p e st).aResP := rfl
  rw [h, adResize_aResP p e st]
  simp [hi]

theorem adLocal_aResV_size (p : Problem R) (e : Element R) (st : ADLocal R)
    (k : Nat) (hk : k < p.dim) : ((adLocal p e st).aResV k).size = e.nDofsV := by
  rw [adLocal_eq, adGaussLoop_aResV_size]
  have h : (adGather p e (adResize p e st)).aResV k = (adResize p e st).aResV k := rfl
  rw [h, adResize_aResV p e st k hk]
  rfl

theorem adLocal_aResP_size (p : Problem R) (e : Element R) (st : ADLocal R) :
    (adLocal p e st).aResP.size = e.nDofsP := by
  rw [adLocal_eq, adGaussLoop_aResP_size]
  have h : (adGather p e (adResize p e st)).aResP = (adResize p e st).aResP := rfl
  rw [h, adResize_aResP p e st]
  rfl

theorem adLocal_KKDof (p : Problem R) (e : Element R) (st : ADLocal R) :
    (adLocal p e st).KKDof
      = adGatherKKDof p e (st.KKDof.resize (p.dim * e.nDofsV + e.nDofsP) 0) := by
  rw [adLocal_eq, (adGaussLoop_frame p e _ _).1]
  show adGatherKKDof p e (adResize p e st).KKDof = _
  rw [adResize_KKDof]

theorem adLocal_Jac (p : Problem R) (e : Element R) (st : ADLocal R) :
    (adLocal p e st).Jac
      = st.Jac.resize ((p.dim * e.nDofsV + e.nDofsP) * (p.dim * e.nDofsV + e.nDofsP)) 0 := by
  rw [adLocal_eq, (adGaussLoop_frame p e _ _).2.2]
  show (adResize p e st).Jac = _
  rw [adResize_Jac]

/-! ### The vector `Res` after `adCopyRes` -/

theorem adCopyRes_Res_size (p : Problem R) (e : Element R) (st : ADLocal R) :
    (adCopyRes p e st).Res.size = p.dim * e.nDofsV + e.nDofsP := by
  unfold adCopyRes adCopyValues
  dsimp only
  rw [setTail_size, setBlocks_size]
  rfl

theorem adCopyRes_Res_V (p : Problem R) (e : Element R) (st : ADLocal R) (k i : Nat)
    (hk : k < p.dim) (hi : i < e.nDofsV) :
    (adCopyRes p e st).Res.data (i + k * e.nDofsV) = -((st.aResV k).data i).value := by
  have hlt : i + k * e.nDofsV < p.dim * e.nDofsV := by
    have h1 : (k + 1) * e.nDofsV ≤ p.dim * e.nDofsV := Nat.mul_le_mul_right _ hk
    rw [Nat.add_mul, Nat.one_mul] at h1
    omega
  unfold adCopyRes adCopyValues
  dsimp only
  rw [setTail_data_lt _ _ _ _ _ hlt,
    setBlocks_data e.nDofsV p.dim (fun k i => -((st.aResV k).data i).value) _ k i hk hi]

theorem adCopyRes_Res_P (p : Problem R) (e : Element R) (st : ADLocal R) (i : Nat)
    (hi : i < e.nDofsP) :
    (adCopyRes p e st).Res.data (i + p.dim * e.nDofsV) = -(st.aResP.data i).value := by
  unfold adCopyRes adCopyValues
  dsimp only
  rw [setTail_data e.nDofsP (p.dim * e.nDofsV) (fun i => -(st.aResP.data i).value) _ i hi]

theorem adElemLocal_Res (p : Problem R) (e : Element R) (st : ADLocal R) :
    (adElemLocal p e st).Res = (adCopyRes p e (adLocal p e st)).Res := by
  unfold adElemLocal
  dsimp only
  split <;> rfl

theorem adElemLocal_KKDof (p : Problem R) (e : Element R) (st : ADLocal R) :
    (adElemLocal p e st).KKDof
      = adGatherKKDof p e (st.KKDof.resize (p.dim * e.nDofsV + e.nDofsP) 0) := by
  rw [← adLocal_KKDof]
  unfold adElemLocal
  dsimp only
  split <;> rfl

/-- The momentum entries of the vector `Res` of `AssembleNavierStokes_AD`. -/
theorem adElemLocal_Res_V (p : Problem R) (e : Element R) (st : ADLocal R) (k i : Nat)
    (hk : k < p.dim) (hi : i < e.nDofsV) :
    (adElemLocal p e st).Res.data (i + k * e.nDofsV)
      = ((adActiveGauss p e).map (fun g => adNSV none p e g k i * g.weight)).sum := by
  rw [adElemLocal_Res, adCopyRes_Res_V p e _ k i hk hi]
  have h := adLocal_aResV_ev none p e st k i hk hi
  simp only [adouble.ev] at h
  rw [h, neg_sum_map]
  congr 1
  refine List.map_congr_left (fun g _ => ?_)
  ring

/-- The continuity entries of the vector `Res` of `AssembleNavierStokes_AD`. -/
theorem adElemLocal_Res_P (p : Problem R) (e : Element R) (st : ADLocal R) (i : Nat)
    (hi : i < e.nDofsP) :
    (adElemLocal p e st).Res.data (i + p.dim * e.nDofsV)
      = ((adActiveGauss p e).map (fun g => continuityIntegrand p e g i)).sum := by
  rw [adElemLocal_Res, adCopyRes_Res_P p e _ i hi]
  have h := adLocal_aResP_ev none p e st i hi
  simp only [adouble.ev] at h
  rw [h, neg_sum_map]
  congr 1
  refine List.map_congr_left (fun g _ => ?_)
  unfold continuityIntegrand
  rw [← Finset.sum_neg_distrib, Finset.mul_sum, Finset.sum_mul]
  refine Finset.sum_congr rfl (fun k _ => ?_)
  simp only [solV, adouble.independent]
  ring

end ADElement

section PicardLocalBlocks2

variable {R : Type} [CommRing R]

theorem div_eq (p : Problem R) (e : Element R) (g : GaussPoint R) :
    div p e g = ∑ k ∈ Finset.range p.dim, ∑ m ∈ Finset.range e.nDofsV,
      g.phiV_x_gss (m * p.dim + k) * e.solV k m := by
  unfold div gradSolVAR
  simp only [foldl_add_eq_sum, zero_add]

theorem picardLocal_Res_P (p : Problem R) (hS : p.distinctFields) (e : Element R)
    (st : PicardLocal R) (i : Nat) (hi : i < e.nDofsP) :
    ((picardLocal p e st).Res (p.SolPdeIndex p.dim)).data i
      = ((picardActiveGauss p e).map (fun g => continuityIntegrand p e g i)).sum := by
  rw [picardLocal_eq, picardGaussLoop_Res_data, picardGather_Res, picardResize_Res_P p hS e st]
  simp only [Vec.memset_data, if_pos hi, zero_add]
  congr 1
  refine List.map_congr_left (fun g _ => ?_)
  rw [picardGaussDelta_Res_P p hS e g i hi, div_eq]
  rfl

theorem picardLocal_Res_V_size (p : Problem R) (hS : p.distinctFields) (e : Element R)
    (st : PicardLocal R) (k : Nat) (hk : k < p.dim) :
    ((picardLocal p e st).Res (p.SolPdeIndex k)).size = e.nDofsV := by
  rw [picardLocal_eq, picardGaussLoop_Res_size, picardGather_Res, picardResize_Res_V p hS e st k hk]
  rfl

theorem picardLocal_Res_P_size (p : Problem R) (hS : p.distinctFields) (e : Element R)
    (st : PicardLocal R) :
    ((picardLocal p e st).Res (p.SolPdeIndex p.dim)).size = e.nDofsP := by
  rw [picardLocal_eq, picardGaussLoop_Res_size, picardGather_Res, picardResize_Res_P p hS e st]
  rfl

end PicardLocalBlocks2

section ADActiveGauss

variable {R : Type}

theorem adActiveGauss_pos (p : Problem R) (e : Element R)
    (h : p.level = p.levelMax ∨ e.refined = false) : adActiveGauss p e = e.gauss := by
  unfold adActiveGauss
  rcases h with h | h <;> simp [h]

theorem adActiveGauss_neg (p : Problem R) (e : Element R)
    (h1 : p.level ≠ p.levelMax) (h2 : e.refined = true) : adActiveGauss p e = [] := by
  unfold adActiveGauss
  simp [h1, h2]

end ADActiveGauss

section ADResidualEntries

variable {R : Type} [CommRing R]

theorem adElemLocal_Res_size (p : Problem R) (e : Element R) (st : ADLocal R) :
    (adElemLocal p e st).Res.size = p.dim * e.nDofsV + e.nDofsP := by
  rw [adElemLocal_Res, adCopyRes_Res_size]

/-- Every position of the vector `Res` of `AssembleNavierStokes_AD` below its
size: momentum entries first, then continuity entries. -/
theorem adElemLocal_Res_data (p : Problem R) (e : Element R) (st : ADLocal R) (t : Nat)
    (ht : t < p.dim * e.nDofsV + e.nDofsP) :
    (adElemLocal p e st).Res.data t
      = if t < p.dim * e.nDofsV then
          ((adActiveGauss p e).map
            (fun g => adNSV none p e g (t / e.nDofsV) (t % e.nDofsV) * g.weight)).sum
        else
          ((adActiveGauss p e).map
            (fun g => continuityIntegrand p e g (t - p.dim * e.nDofsV))).sum := by
  by_cases h : t < p.dim * e.nDofsV
  · rw [if_pos h]
    have hn : 0 < e.nDofsV := by
      rcases Nat.eq_zero_or_pos e.nDofsV with h0 | h0
      · rw [h0] at h; simp at h
      · exact h0
    have hk : t / e.nDofsV < p.dim := Nat.div_lt_of_lt_mul (by rwa [Nat.mul_comm] at h)
    have hi : t % e.nDofsV < e.nDofsV := Nat.mod_lt _ hn
    have ht' : t = t % e.nDofsV + t / e.nDofsV * e.nDofsV := by
      rw [Nat.mul_comm]; exact (Nat.mod_add_div t e.nDofsV).symm
    have := adElemLocal_Res_V p e st (t / e.nDofsV) (t % e.nDofsV) hk hi
    rw [← ht'] at this
    exact this
  · rw [if_neg h]
    have hi : t - p.dim * e.nDofsV < e.nDofsP := by omega
    have ht' : t = (t - p.dim * e.nDofsV) + p.dim * e.nDofsV := by omega
    have := adElemLocal_Res_P p e st (t - p.dim * e.nDofsV) hi
    rw [← ht'] at this
    exact this

end ADResidualEntries

section SumLemmas

variable {R : Type} [CommRing R]

theorem sum_map_eq_zero {α : Type} (l : List α) (f : α → R) (h : ∀ a, a ∈ l → f a = 0) :
    (l.map f).sum = 0 := by
  induction l with
  | nil => rfl
  | cons a l ih =>
    rw [List.map_cons, List.sum_cons, h a (List.mem_cons_self _ _),
      ih (fun b hb => h b (List.mem_cons_of_mem _ hb)), add_zero]

end SumLemmas

section ListBlocks

variable {α : Type}

theorem getD_map_range (n : Nat) (f : Nat → α) (i : Nat) (hi : i < n) (d : α) :
    ((List.range n).map f).getD i d = f i := by
  rw [List.getD_eq_getElem _ _ (by simpa using hi)]
  simp

/-- The list built by `for k < d: append f k 0, ..., f k (n-1)` has length
`d * n` and holds `f k i` at position `i + k * n`. -/
theorem appendBlocks (n : Nat) (f : Nat → Nat → α) (dflt : α) (d : Nat) :
    ((List.range d).foldl (fun l k => l ++ (List.range n).map (f k)) []).length = d * n
    ∧ ∀ k i, k < d → i < n →
      ((List.range d).foldl (fun l k => l ++ (List.range n).map (f k)) []).getD (i + k * n) dflt
        = f k i := by
  induction d with
  | zero => exact ⟨by simp, fun k i hk _ => absurd hk (Nat.not_lt_zero k)⟩
  | succ d ih =>
    obtain ⟨hlen, hget⟩ := ih
    rw [List.range_succ, List.foldl_append, List.foldl_cons, List.foldl_nil]
    refine ⟨?_, ?_⟩
    · rw [List.length_append, hlen, List.length_map, List.length_range, Nat.succ_mul]
    · intro k i hk hi
      by_cases hkd : k < d
      · have hlt : i + k * n < d * n := by
          have h1 : (k + 1) * n ≤ d * n := Nat.mul_le_mul_right _ hkd
          rw [Nat.add_mul, Nat.one_mul] at h1
          omega
        rw [List.getD_append _ _ _ _ (by rw [hlen]; exact hlt)]
        exact hget k i hkd hi
      · have hk' : k = d := by omega
        subst hk'
        rw [List.getD_append_right _ _ _ _ (by rw [hlen]; omega), hlen,
          Nat.add_sub_cancel, getD_map_range n (f k) i hi]

end ListBlocks

section ADIndependents

variable {R : Type}

theorem adIndependents_length (p : Problem R) (e : Element R) :
    (adIndependents p e).length = p.dim * e.nDofsV + e.nDofsP := by
  unfold adIndependents
  rw [List.length_append, (appendBlocks e.nDofsV (fun k => Var.V k) (Var.P 0) p.dim).1]
  simp

theorem adIndependents_getD_V (p : Problem R) (e : Element R) (l j : Nat)
    (hl : l < p.dim) (hj : j < e.nDofsV) :
    (adIndependents p e).getD (j + l * e.nDofsV) (Var.P 0) = Var.V l j := by
  have hb := appendBlocks e.nDofsV (fun k => Var.V k) (Var.P 0) p.dim
  have hlt : j + l * e.nDofsV < p.dim * e.nDofsV := by
    have h1 : (l + 1) * e.nDofsV ≤ p.dim * e.nDofsV := Nat.mul_le_mul_right _ hl
    rw [Nat.add_mul, Nat.one_mul] at h1
    omega
  unfold adIndependents
  rw [List.getD_append _ _ _ _ (by rw [hb.1]; exact hlt)]
  exact hb.2 l j hl hj

theorem adIndependents_getD_P (p : Problem R) (e : Element R) (j : Nat)
    (hj : j < e.nDofsP) :
    (adIndependents p e).getD (j + p.dim * e.nDofsV) (Var.P 0) = Var.P j := by
  have hb := appendBlocks e.nDofsV (fun k => Var.V k) (Var.P 0) p.dim
  unfold adIndependents
  rw [List.getD_append_right _ _ _ _ (by rw [hb.1]; omega), hb.1, Nat.add_sub_cancel,
    getD_map_range _ _ j hj]

end ADIndependents

section ADJacobian

variable {R : Type} [CommRing R]

theorem adDependents_length (p : Problem R) (e : Element R) (st : ADLocal R) :
    (adDependents p e st).length = p.dim * e.nDofsV + e.nDofsP := by
  unfold adDependents
  rw [List.length_append,
    (appendBlocks e.nDofsV (fun k => (st.aResV k).data) (adouble.ofDouble 0) p.dim).1]
  simp

theorem adDependents_getD_V (p : Problem R) (e : Element R) (st : ADLocal R) (k i : Nat)
    (hk : k < p.dim) (hi : i < e.nDofsV) :
    (adDependents p e st).getD (i + k * e.nDofsV) (adouble.ofDouble 0)
      = (st.aResV k).data i := by
  have hb := appendBlocks e.nDofsV (fun k => (st.aResV k).data) (adouble.ofDouble 0) p.dim
  have hlt : i + k * e.nDofsV < p.dim * e.nDofsV := by
    have h1 : (k + 1) * e.nDofsV ≤ p.dim * e.nDofsV := Nat.mul_le_mul_right _ hk
    rw [Nat.add_mul, Nat.one_mul] at h1
    omega
  unfold adDependents
  rw [List.getD_append _ _ _ _ (by rw [hb.1]; exact hlt)]
  exact hb.2 k i hk hi

theorem adDependents_getD_P (p : Problem R) (e : Element R) (st : ADLocal R) (i : Nat)
    (hi : i < e.nDofsP) :
    (adDependents p e st).getD (i + p.dim * e.nDofsV) (adouble.ofDouble 0)
      = st.aResP.data i := by
  have hb := appendBlocks e.nDofsV (fun k => (st.aResV k).data) (adouble.ofDouble 0) p.dim
  unfold adDependents
  rw [List.getD_append_right _ _ _ _ (by rw [hb.1]; omega), hb.1, Nat.add_sub_cancel,
    getD_map_range _ _ i hi]

/-- The entry in row `r`, column `c` of the row-major Jacobian extracted for an
element: the derivative of the `r`-th dependent variable with respect to the
`c`-th independent variable. -/
theorem adElemLocal_Jac_entry (p : Problem R) (e : Element R) (st : ADLocal R)
    (hM : p.assembleMatrix = true) (r c : Nat)
    (hr : r < p.dim * e.nDofsV + e.nDofsP) (hc : c < p.dim * e.nDofsV + e.nDofsP) :
    (adElemLocal p e st).Jac.data (r * (p.dim * e.nDofsV + e.nDofsP) + c)
      = ((adDependents p e (adLocal p e st)).getD r (adouble.ofDouble 0)).grad
          ((adIndependents p e).getD c (Var.P 0)) := by
  have hdep : adDependents p e (adCopyRes p e (adLocal p e st))
      = adDependents p e (adLocal p e st) := rfl
  have hlt : r * (p.dim * e.nDofsV + e.nDofsP) + c
      < (p.dim * e.nDofsV + e.nDofsP) * (p.dim * e.nDofsV + e.nDofsP) := by
    have h1 : (r + 1) * (p.dim * e.nDofsV + e.nDofsP)
        ≤ (p.dim * e.nDofsV + e.nDofsP) * (p.dim * e.nDofsV + e.nDofsP) :=
      Nat.mul_le_mul_right _ hr
    rw [Nat.add_mul, Nat.one_mul] at h1
    omega
  have hpos : 0 < p.dim * e.nDofsV + e.nDofsP := by omega
  unfold adElemLocal
  dsimp only
  rw [if_pos hM]
  simp only [jacobian, hdep, adDependents_length, adIndependents_length, if_pos hlt]
  rw [Nat.mul_comm r, Nat.mul_add_div hpos, Nat.div_eq_of_lt hc, Nat.add_zero,
    Nat.mul_add_mod, Nat.mod_eq_of_lt hc]

theorem adNSV_grad_V (p : Problem R) (e : Element R) (g : GaussPoint R) (k i l j : Nat)
    (hl : l < p.dim) (hj : j < e.nDofsV) :
    adNSV (some (Var.V l j)) p e g k i = adDiffusionTangent p g k i l j := by
  have hV : ∀ a m, adouble.ev (some (Var.V l j)) (solV e a m)
      = if l = a ∧ j = m then (1 : R) else 0 := by
    intro a m
    simp only [adouble.ev, solV, adouble.independent, Var.V.injEq]
  have hP : ∀ m, adouble.ev (some (Var.V l j)) (solP e m) = (0 : R) := by
    intro m
    simp [adouble.ev, solP, adouble.independent]
  have hsum : ∀ a d, (∑ m ∈ Finset.range e.nDofsV,
      g.phiV_x_gss (m * p.dim + d) * (if l = a ∧ j = m then (1 : R) else 0))
      = if l = a then g.phiV_x_gss (j * p.dim + d) else 0 := by
    intro a d
    by_cases h : l = a
    · rw [if_pos h, Finset.sum_eq_single_of_mem j (Finset.mem_range.2 hj)]
      · simp [h]
      · intro b _ hne
        have : ¬ j = b := fun h => hne h.symm
        simp [this]
    · rw [if_neg h]
      apply Finset.sum_eq_zero
      intro b _
      simp [h]
  unfold adNSV adDiffusionTangent
  simp only [hV, hP, hsum, adouble.evOne, mul_zero, add_zero, Finset.sum_const_zero, neg_zero,
    zero_mul]
  have h2 : (∑ x ∈ Finset.range p.dim, p.IRe * g.phiV_x_gss (i * p.dim + x)
      * (if l = x then g.phiV_x_gss (j * p.dim + k) else 0))
      = p.IRe * (g.phiV_x_gss (i * p.dim + l) * g.phiV_x_gss (j * p.dim + k)) := by
    rw [Finset.sum_eq_single_of_mem l (Finset.mem_range.2 hl)]
    · simp [mul_assoc]
    · intro b _ hne
      have : ¬ l = b := fun h => hne h.symm
      simp [this]
  simp only [mul_add, Finset.sum_add_distrib, h2]
  congr 1
  by_cases h : l = k
  · simp only [h, if_true, Finset.mul_sum, mul_assoc]
  · simp [h]

end ADJacobian

section TangentBlocks

variable {R : Type} [CommRing R]

theorem Lap_eq (p : Problem R) (g : GaussPoint R) (i j : Nat) :
    Lap p g i j = ∑ d ∈ Finset.range p.dim,
      g.phiV_x_gss (i * p.dim + d) * g.phiV_x_gss (j * p.dim + d) := by
  unfold Lap
  simp only [foldl_add_eq_sum, zero_add]

theorem Lap_symm (p : Problem R) (g : GaussPoint R) (i j : Nat) : Lap p g i j = Lap p g j i := by
  rw [Lap_eq, Lap_eq]
  exact Finset.sum_congr rfl (fun d _ => mul_comm _ _)

/-- The velocity-velocity block `Jac[k][k]` of `AssembleNavierStokes` after the
Gauss loop. -/
theorem picardLocal_Jac_VV (p : Problem R) (hS : p.distinctFields) (e : Element R)
    (st : PicardLocal R) (hM : p.assembleMatrix = true) (k i j : Nat) (hk : k < p.dim)
    (hi : i < e.nDofsV) (hj : j < e.nDofsV) :
    ((picardLocal p e st).Jac (p.SolPdeIndex k) (p.SolPdeIndex k)).data (i * e.nDofsV + j)
      = ((picardActiveGauss p e).map (fun g => p.IRe * Lap p g i j * g.weight)).sum := by
  have hlt : i * e.nDofsV + j < e.nDofsV * e.nDofsV := by
    have h1 : (i + 1) * e.nDofsV ≤ e.nDofsV * e.nDofsV := Nat.mul_le_mul_right _ hi
    rw [Nat.add_mul, Nat.one_mul] at h1
    omega
  rw [picardLocal_eq, picardGaussLoop_Jac_data, picardGather_Jac,
    picardResize_Jac_VV p hS e st k hk hM]
  simp only [Vec.memset_data, if_pos hlt, zero_add]
  congr 1
  refine List.map_congr_left (fun g _ => ?_)
  rw [picardGaussDelta_Jac_VV p hS e g k i j hk hi hj, if_pos hM]

theorem adDiffusionTangent_symm (p : Problem R) (g : GaussPoint R) (k i l j : Nat) :
    adDiffusionTangent p g k i l j = adDiffusionTangent p g l j k i := by
  unfold adDiffusionTangent
  by_cases h : l = k
  · subst h
    simp only [if_true]
    congr 2
    · exact Finset.sum_congr rfl (fun d _ => mul_comm _ _)
    · exact mul_comm _ _
  · have h' : ¬ k = l := fun hkl => h hkl.symm
    rw [if_neg h, if_neg h', mul_comm (g.phiV_x_gss (i * p.dim + l))]

/-- The velocity-velocity part of the Jacobian of `AssembleNavierStokes_AD`:
row `i + k*nDofsV`, column `j + l*nDofsV`. -/
theorem adElemLocal_Jac_VV (p : Problem R) (e : Element R) (st : ADLocal R)
    (hM : p.assembleMatrix = true) (k l i j : Nat) (hk : k < p.dim) (hl : l < p.dim)
    (hi : i < e.nDofsV) (hj : j < e.nDofsV) :
    (adElemLocal p e st).Jac.data
        ((i + k * e.nDofsV) * (p.dim * e.nDofsV + e.nDofsP) + (j + l * e.nDofsV))
      = ((adActiveGauss p e).map (fun g => -(adDiffusionTangent p g k i l j) * g.weight)).sum := by
  have hlt : ∀ a b, a < p.dim → b < e.nDofsV → b + a * e.nDofsV < p.dim * e.nDofsV + e.nDofsP := by
    intro a b ha hb
    have h1 : (a + 1) * e.nDofsV ≤ p.dim * e.nDofsV := Nat.mul_le_mul_right _ ha
    rw [Nat.add_mul, Nat.one_mul] at h1
    omega
  rw [adElemLocal_Jac_entry p e st hM _ _ (hlt k i hk hi) (hlt l j hl hj),
    adDependents_getD_V p e _ k i hk hi, adIndependents_getD_V p e l j hl hj]
  have h := adLocal_aResV_ev (some (Var.V l j)) p e st k i hk hi
  simp only [adouble.ev] at h
  rw [h]
  congr 1
  refine List.map_congr_left (fun g _ => ?_)
  rw [adNSV_grad_V p e g k i l j hl hj]

end TangentBlocks

section PicardLocalBlocks3

variable {R : Type} [CommRing R]

theorem flat_index_lt {n m i j : Nat} (hi : i < n) (hj : j < m) : i * m + j < n * m := by
  have h1 : (i + 1) * m ≤ n * m := Nat.mul_le_mul_right _ hi
  rw [Nat.add_mul, Nat.one_mul] at h1
  omega

/-- The velocity-pressure block `Jac[k][P]` of `AssembleNavierStokes` after the
Gauss loop. -/
theorem picardLocal_Jac_VP (p : Problem R) (hS : p.distinctFields) (e : Element R)
    (st : PicardLocal R) (hM : p.assembleMatrix = true) (k i j : Nat) (hk : k < p.dim)
    (hi : i < e.nDofsV) (hj : j < e.nDofsP) :
    ((picardLocal p e st).Jac (p.SolPdeIndex k) (p.SolPdeIndex p.dim)).data (i * e.nDofsP + j)
      = ((picardActiveGauss p e).map
          (fun g => -(g.phiV_x_gss (i * p.dim + k) * g.phiP_gss j * g.weight))).sum := by
  rw [picardLocal_eq, picardGaussLoop_Jac_data, picardGather_Jac,
    picardResize_Jac_VP p hS e st k hk hM]
  simp only [Vec.memset_data, if_pos (flat_index_lt hi hj), zero_add]
  congr 1
  refine List.map_congr_left (fun g _ => ?_)
  rw [picardGaussDelta_Jac_VP p hS e g k i j hk hi hj, if_pos hM]

/-- The pressure-velocity block `Jac[P][k]` of `AssembleNavierStokes` after the
Gauss loop. -/
theorem picardLocal_Jac_PV (p : Problem R) (hS : p.distinctFields) (e : Element R)
    (st : PicardLocal R) (hM : p.assembleMatrix = true) (k i j : Nat) (hk : k < p.dim)
    (hi : i < e.nDofsP) (hj : j < e.nDofsV) :
    ((picardLocal p e st).Jac (p.SolPdeIndex p.dim) (p.SolPdeIndex k)).data (i * e.nDofsV + j)
      = ((picardActiveGauss p e).map
          (fun g => -(g.phiP_gss i * g.phiV_x_gss (j * p.dim + k) * g.weight))).sum := by
  rw [picardLocal_eq, picardGaussLoop_Jac_data, picardGather_Jac,
    picardResize_Jac_PV p hS e st k hk hM]
  simp only [Vec.memset_data, if_pos (flat_index_lt hi hj), zero_add]
  congr 1
  refine List.map_congr_left (fun g _ => ?_)
  rw [picardGaussDelta_Jac_PV p hS e g k i j hk hi hj, if_pos hM]

/-- The pressure-pressure block `Jac[P][P]` of `AssembleNavierStokes` after the
Gauss loop. -/
theorem picardLocal_Jac_PP (p : Problem R) (hS : p.distinctFields) (e : Element R)
    (st : PicardLocal R) (hM : p.assembleMatrix = true) (n : Nat)
    (hn : n < e.nDofsP * e.nDofsP) :
    ((picardLocal p e st).Jac (p.SolPdeIndex p.dim) (p.SolPdeIndex p.dim)).data n = 0 := by
  rw [picardLocal_eq, picardGaussLoop_Jac_data, picardGather_Jac,
    picardResize_Jac_PP p hS e st hM]
  simp only [Vec.memset_data, if_pos hn, zero_add]
  exact sum_map_eq_zero _ _ (fun g _ => picardGaussDelta_Jac_PP p hS e g n)

theorem picardLocal_Jac_VV_size (p : Problem R) (hS : p.distinctFields) (e : Element R)
    (st : PicardLocal R) (hM : p.assembleMatrix = true) (k : Nat) (hk : k < p.dim) :
    ((picardLocal p e st).Jac (p.SolPdeIndex k) (p.SolPdeIndex k)).size
      = e.nDofsV * e.nDofsV := by
  rw [picardLocal_eq, picardGaussLoop_Jac_size, picardGather_Jac,
    picardResize_Jac_VV p hS e st k hk hM]
  rfl

theorem picardLocal_Jac_VP_size (p : Problem R) (hS : p.distinctFields) (e : Element R)
    (st : PicardLocal R) (hM : p.assembleMatrix = true) (k : Nat) (hk : k < p.dim) :
    ((picardLocal p e st).Jac (p.SolPdeIndex k) (p.SolPdeIndex p.dim)).size
      = e.nDofsV * e.nDofsP := by
  rw [picardLocal_eq, picardGaussLoop_Jac_size, picardGather_Jac,
    picardResize_Jac_VP p hS e st k hk hM]
  rfl

theorem picardLocal_Jac_PV_size (p : Problem R) (hS : p.distinctFields) (e : Element R)
    (st : PicardLocal R) (hM : p.assembleMatrix = true) (k : Nat) (hk : k < p.dim) :
    ((picardLocal p e st).Jac (p.SolPdeIndex p.dim) (p.SolPdeIndex k)).size
      = e.nDofsP * e.nDofsV := by
  rw [picardLocal_eq, picardGaussLoop_Jac_size, picardGather_Jac,
    picardResize_Jac_PV p hS e st k hk hM]
  rfl

theorem picardLocal_Jac_PP_size (p : Problem R) (hS : p.distinctFields) (e : Element R)
    (st : PicardLocal R) (hM : p.assembleMatrix = true) :
    ((picardLocal p e st).Jac (p.SolPdeIndex p.dim) (p.SolPdeIndex p.dim)).size
      = e.nDofsP * e.nDofsP := by
  rw [picardLocal_eq, picardGaussLoop_Jac_size, picardGather_Jac,
    picardResize_Jac_PP p hS e st hM]
  rfl

theorem picardLocal_KKDof_V_toList (p : Problem R) (e : Element R) (st : PicardLocal R)
    (k : Nat) (hk : k < p.dim) :
    ((picardLocal p e st).KKDof k).toList = (List.range e.nDofsV).map (e.dofV k) := by
  rw [picardLocal_eq, picardGaussLoop_KKDof]
  have hs : ((picardGather p e (picardResize p e st)).KKDof k).size = e.nDofsV := by
    rw [picardGather_KKDof_size, picardResize_KKDof_V p e st k hk]
    rfl
  unfold Vec.toList
  rw [hs]
  exact List.map_congr_left
    (fun i hi => picardGather_KKDof_V p e _ k i hk (List.mem_range.mp hi))

theorem picardLocal_KKDof_P_toList (p : Problem R) (e : Element R) (st : PicardLocal R) :
    ((picardLocal p e st).KKDof p.dim).toList = (List.range e.nDofsP).map e.dofP := by
  rw [picardLocal_eq, picardGaussLoop_KKDof]
  have hs : ((picardGather p e (picardResize p e st)).KKDof p.dim).size = e.nDofsP := by
    rw [picardGather_KKDof_size, picardResize_KKDof_P p e st]
    rfl
  unfold Vec.toList
  rw [hs]
  exact List.map_congr_left
    (fun i hi => picardGather_KKDof_P p e _ i (List.mem_range.mp hi))

end PicardLocalBlocks3

section FoldList

variable {σ α : Type}

theorem foldl_ext_mem (f g : σ → α → σ) (l : List α) (h : ∀ s a, a ∈ l → f s a = g s a)
    (s : σ) : l.foldl f s = l.foldl g s := by
  induction l generalizing s with
  | nil => rfl
  | cons a l ih =>
    simp only [List.foldl_cons]
    rw [h s a (List.mem_cons_self _ _), ih (fun s b hb => h s b (List.mem_cons_of_mem _ hb))]

theorem foldl_append_eq_flatMap {β : Type} (F : α → List β) (l : List α) (init : List β) :
    l.foldl (fun cs a => cs ++ F a) init = init ++ l.flatMap F := by
  induction l generalizing init with
  | nil => simp
  | cons a l ih => simp only [List.foldl_cons, List.flatMap_cons, ih, List.append_assoc]

end FoldList

section PicardCalls

variable {R : Type} [CommRing R]

theorem picardLocal_Res_V_toList (p : Problem R) (hS : p.distinctFields) (e : Element R)
    (st : PicardLocal R) (k : Nat) (hk : k < p.dim) :
    ((picardLocal p e st).Res (p.SolPdeIndex k)).toList = picardResV p e k := by
  unfold Vec.toList picardResV
  rw [picardLocal_Res_V_size p hS e st k hk]
  exact List.map_congr_left
    (fun i hi => picardLocal_Res_V p hS e st k i hk (List.mem_range.mp hi))

theorem picardLocal_Res_P_toList (p : Problem R) (hS : p.distinctFields) (e : Element R)
    (st : PicardLocal R) :
    ((picardLocal p e st).Res (p.SolPdeIndex p.dim)).toList = picardResP p e := by
  unfold Vec.toList picardResP
  rw [picardLocal_Res_P_size p hS e st]
  exact List.map_congr_left
    (fun i hi => picardLocal_Res_P p hS e st i (List.mem_range.mp hi))

theorem flat_index_split {a b n : Nat} (hn : n < a * b) :
    n / b < a ∧ n % b < b ∧ n / b * b + n % b = n := by
  have hb : 0 < b := by
    rcases Nat.eq_zero_or_pos b with h0 | h0
    · rw [h0] at hn; simp at hn
    · exact h0
  exact ⟨Nat.div_lt_of_lt_mul (by rwa [Nat.mul_comm] at hn), Nat.mod_lt _ hb,
    Nat.div_add_mod' n b⟩

theorem picardLocal_Jac_VV_toList (p : Problem R) (hS : p.distinctFields) (e : Element R)
    (st : PicardLocal R) (hM : p.assembleMatrix = true) (k : Nat) (hk : k < p.dim) :
    ((picardLocal p e st).Jac (p.SolPdeIndex k) (p.SolPdeIndex k)).toList = picardJacVV p e := by
  unfold Vec.toList picardJacVV
  rw [picardLocal_Jac_VV_size p hS e st hM k hk]
  refine List.map_congr_left (fun n hn => ?_)
  obtain ⟨h1, h2, h3⟩ := flat_index_split (List.mem_range.mp hn)
  have := picardLocal_Jac_VV p hS e st hM k _ _ hk h1 h2
  rw [h3] at this
  exact this

theorem picardLocal_Jac_VP_toList (p : Problem R) (hS : p.distinctFields) (e : Element R)
    (st : PicardLocal R) (hM : p.assembleMatrix = true) (k : Nat) (hk : k < p.dim) :
    ((picardLocal p e st).Jac (p.SolPdeIndex k) (p.SolPdeIndex p.dim)).toList
      = picardJacVP p e k := by
  unfold Vec.toList picardJacVP
  rw [picardLocal_Jac_VP_size p hS e st hM k hk]
  refine List.map_congr_left (fun n hn => ?_)
  obtain ⟨h1, h2, h3⟩ := flat_index_split (List.mem_range.mp hn)
  have := picardLocal_Jac_VP p hS e st hM k _ _ hk h1 h2
  rw [h3] at this
  exact this

theorem picardLocal_Jac_PV_toList (p : Problem R) (hS : p.distinctFields) (e : Element R)
    (st : PicardLocal R) (hM : p.assembleMatrix = true) (k : Nat) (hk : k < p.dim) :
    ((picardLocal p e st).Jac (p.SolPdeIndex p.dim) (p.SolPdeIndex k)).toList
      = picardJacPV p e k := by
  unfold Vec.toList picardJacPV
  rw [picardLocal_Jac_PV_size p hS e st hM k hk]
  refine List.map_congr_left (fun n hn => ?_)
  obtain ⟨h1, h2, h3⟩ := flat_index_split (List.mem_range.mp hn)
  have := picardLocal_Jac_PV p hS e st hM k _ _ hk h1 h2
  rw [h3] at this
  exact this

theorem picardLocal_Jac_PP_toList (p : Problem R) (hS : p.distinctFields) (e : Element R)
    (st : PicardLocal R) (hM : p.assembleMatrix = true) :
    ((picardLocal p e st).Jac (p.SolPdeIndex p.dim) (p.SolPdeIndex p.dim)).toList
      = List.replicate (e.nDofsP * e.nDofsP) 0 :=
  Vec.toList_replicate _ _ _ (picardLocal_Jac_PP_size p hS e st hM)
    (fun n hn => picardLocal_Jac_PP p hS e st hM n hn)

/-- The calls issued for an element depend on the gathered data of the element
only, not on the content of the local buffers left by earlier elements. -/
theorem picardScatter_eq (p : Problem R) (hS : p.distinctFields) (e : Element R)
    (st : PicardLocal R) : picardScatter p (picardLocal p e st) = picardCalls p e := by
  unfold picardScatter picardCalls
  dsimp only
  have hloop : (List.range p.dim).foldl (fun cs ivar =>
      let cs := cs ++ [Call.RES_add_vector_blocked
        ((picardLocal p e st).Res (p.SolPdeIndex ivar)).toList
        ((picardLocal p e st).KKDof ivar).toList]
      if p.assembleMatrix then
        cs ++ [Call.KK_add_matrix_blocked
                ((picardLocal p e st).Jac (p.SolPdeIndex ivar) (p.SolPdeIndex ivar)).toList
                ((picardLocal p e st).KKDof ivar).toList
                ((picardLocal p e st).KKDof ivar).toList,
               Call.KK_add_matrix_blocked
                ((picardLocal p e st).Jac (p.SolPdeIndex ivar) (p.SolPdeIndex p.dim)).toList
                ((picardLocal p e st).KKDof ivar).toList
                ((picardLocal p e st).KKDof p.dim).toList,
               Call.KK_add_matrix_blocked
                ((picardLocal p e st).Jac (p.SolPdeIndex p.dim) (p.SolPdeIndex ivar)).toList
                ((picardLocal p e st).KKDof p.dim).toList
                ((picardLocal p e st).KKDof ivar).toList]
      else cs) []
      = (List.range p.dim).flatMap (picardCallsV p e) := by
    rw [foldl_ext_mem _ (fun cs ivar => cs ++ picardCallsV p e ivar), foldl_append_eq_flatMap,
      List.nil_append]
    intro cs ivar hivar
    have hk := List.mem_range.mp hivar
    unfold picardCallsV
    dsimp only
    rw [picardLocal_Res_V_toList p hS e st ivar hk, picardLocal_KKDof_V_toList p e st ivar hk,
      picardLocal_KKDof_P_toList p e st]
    by_cases hM : p.assembleMatrix = true
    · rw [if_pos hM, if_pos hM, picardLocal_Jac_VV_toList p hS e st hM ivar hk,
        picardLocal_Jac_VP_toList p hS e st hM ivar hk,
        picardLocal_Jac_PV_toList p hS e st hM ivar hk, List.append_assoc]
      rfl
    · rw [if_neg hM, if_neg hM, List.append_nil]
      rfl
  rw [hloop, picardLocal_Res_P_toList p hS e st, picardLocal_KKDof_P_toList p e st]
  by_cases hM : p.assembleMatrix = true
  · simp only [hM, penalty, Bool.and_self, if_true, picardLocal_Jac_PP_toList p hS e st hM]
    rfl
  · simp only [hM, Bool.false_and, if_false]
    rfl

end PicardCalls

section ADCalls

variable {R : Type} [CommRing R]

theorem block_index_split {n d t : Nat} (ht : t < d * n) :
    t / n < d ∧ t % n < n ∧ t % n + t / n * n = t := by
  obtain ⟨h1, h2, h3⟩ := flat_index_split ht
  exact ⟨h1, h2, by omega⟩

/-- The dependent variables of an element, read through `adouble.ev o`. -/
theorem adDependents_ev (o : Option Var) (p : Problem R) (e : Element R) (st : ADLocal R)
    (r : Nat) (hr : r < p.dim * e.nDofsV + e.nDofsP) :
    adouble.ev o ((adDependents p e (adLocal p e st)).getD r (adouble.ofDouble 0))
      = adDependentEv o p e r := by
  unfold adDependentEv
  by_cases h : r < p.dim * e.nDofsV
  · rw [if_pos h]
    obtain ⟨h1, h2, h3⟩ := block_index_split h
    have hd := adDependents_getD_V p e (adLocal p e st) _ _ h1 h2
    rw [h3] at hd
    rw [hd, adLocal_aResV_ev o p e st _ _ h1 h2]
  · rw [if_neg h]
    have hi : r - p.dim * e.nDofsV < e.nDofsP := by omega
    have hd := adDependents_getD_P p e (adLocal p e st) _ hi
    have h3 : r - p.dim * e.nDofsV + p.dim * e.nDofsV = r := by omega
    rw [h3] at hd
    rw [hd, adLocal_aResP_ev o p e st _ hi]

theorem adElemLocal_Res_toList (p : Problem R) (e : Element R) (st : ADLocal R) :
    (adElemLocal p e st).Res.toList = adRes p e := by
  unfold Vec.toList adRes
  rw [adElemLocal_Res_size]
  refine List.map_congr_left (fun t ht => ?_)
  have ht := List.mem_range.mp ht
  rw [← adDependents_ev none p e st t ht, adElemLocal_Res]
  by_cases h : t < p.dim * e.nDofsV
  · obtain ⟨h1, h2, h3⟩ := block_index_split h
    have hd := adDependents_getD_V p e (adLocal p e st) _ _ h1 h2
    have hr := adCopyRes_Res_V p e (adLocal p e st) _ _ h1 h2
    rw [h3] at hd hr
    rw [hd, hr]
    rfl
  · have hi : t - p.dim * e.nDofsV < e.nDofsP := by omega
    have hd := adDependents_getD_P p e (adLocal p e st) _ hi
    have hr := adCopyRes_Res_P p e (adLocal p e st) _ hi
    have h3 : t - p.dim * e.nDofsV + p.dim * e.nDofsV = t := by omega
    rw [h3] at hd hr
    rw [hd, hr]
    rfl

theorem adElemLocal_KKDof_toList (p : Problem R) (e : Element R) (st : ADLocal R) :
    (adElemLocal p e st).KKDof.toList = adDofs p e := by
  have hs : (adElemLocal p e st).KKDof.size = p.dim * e.nDofsV + e.nDofsP := by
    rw [adElemLocal_KKDof]
    unfold adGatherKKDof
    dsimp only
    rw [setTail_size, setBlocks_size]
    rfl
  unfold Vec.toList adDofs
  rw [hs]
  refine List.map_congr_left (fun t ht => ?_)
  have ht := List.mem_range.mp ht
  rw [adElemLocal_KKDof]
  unfold adGatherKKDof
  dsimp only
  by_cases h : t < p.dim * e.nDofsV
  · rw [if_pos h, setTail_data_lt _ _ _ _ _ h]
    obtain ⟨h1, h2, h3⟩ := block_index_split h
    have := setBlocks_data e.nDofsV p.dim (fun k i => e.dofV k i)
      (st.KKDof.resize (p.dim * e.nDofsV + e.nDofsP) 0) _ _ h1 h2
    rw [h3] at this
    exact this
  · rw [if_neg h]
    have hi : t - p.dim * e.nDofsV < e.nDofsP := by omega
    have h3 : t - p.dim * e.nDofsV + p.dim * e.nDofsV = t := by omega
    have := setTail_data e.nDofsP (p.dim * e.nDofsV) (fun i => e.dofP i)
      ((List.range e.nDofsV).foldl (fun v i =>
        (List.range p.dim).foldl (fun v k => v.set (i + k * e.nDofsV) (e.dofV k i)) v)
        (st.KKDof.resize (p.dim * e.nDofsV + e.nDofsP) 0)) _ hi
    rw [h3] at this
    exact this

theorem adElemLocal_Jac_toList (p : Problem R) (e : Element R) (st : ADLocal R)
    (hM : p.assembleMatrix = true) : (adElemLocal p e st).Jac.toList = adJac p e := by
  have hs : (adElemLocal p e st).Jac.size
      = (p.dim * e.nDofsV + e.nDofsP) * (p.dim * e.nDofsV + e.nDofsP) := by
    unfold adElemLocal
    dsimp only
    rw [if_pos hM]
    show (adLocal p e st).Jac.size = _
    rw [adLocal_Jac]
    rfl
  unfold Vec.toList adJac
  rw [hs]
  refine List.map_congr_left (fun n hn => ?_)
  obtain ⟨h1, h2, h3⟩ := flat_index_split (List.mem_range.mp hn)
  have := adElemLocal_Jac_entry p e st hM _ _ h1 h2
  rw [h3] at this
  rw [this, ← adDependents_ev _ p e st _ h1]
  rfl

/-- The calls issued for an element depend on the gathered data of the element
only, not on the content of the local buffers left by earlier elements. -/
theorem adScatter_eq (p : Problem R) (e : Element R) (st : ADLocal R) :
    adScatter p (adElemLocal p e st) = adCalls p e := by
  unfold adScatter adCalls
  rw [adElemLocal_Res_toList, adElemLocal_KKDof_toList]
  by_cases hM : p.assembleMatrix = true
  · rw [if_pos hM, if_pos hM, adElemLocal_Jac_toList p e st hM]
  · rw [if_neg hM, if_neg hM]

end ADCalls

section FoldInvariant

variable {σ α : Type}

theorem foldl_invariant (P : σ → Prop) (f : σ → α → σ) (l : List α)
    (h : ∀ s a, a ∈ l → P s → P (f s a)) (s : σ) (hs : P s) : P (l.foldl f s) := by
  induction l generalizing s with
  | nil => exact hs
  | cons a l ih =>
    rw [List.foldl_cons]
    exact ih (fun s b hb => h s b (List.mem_cons_of_mem _ hb)) _
      (h s a (List.mem_cons_self _ _) hs)

end FoldInvariant

section Loops

variable {R : Type} [CommRing R]

theorem picardElems_calls (p : Problem R) (hS : p.distinctFields) (m : Mesh R) (l : List Nat)
    (acc : PicardLocal R × List (Call R)) :
    (l.foldl (picardElem p m) acc).2 = acc.2 ++ l.flatMap (fun iel => picardCalls p (m.elem iel)) := by
  induction l generalizing acc with
  | nil => simp
  | cons a l ih =>
    rw [List.foldl_cons, ih, List.flatMap_cons, ← List.append_assoc]
    congr 1
    unfold picardElem
    dsimp only
    rw [picardScatter_eq p hS]

theorem adElems_calls (p : Problem R) (m : Mesh R) (l : List Nat)
    (acc : ADLocal R × List (Call R)) :
    (l.foldl (adElem p m) acc).2 = acc.2 ++ l.flatMap (fun iel => adCalls p (m.elem iel)) := by
  induction l generalizing acc with
  | nil => simp
  | cons a l ih =>
    rw [List.foldl_cons, ih, List.flatMap_cons, ← List.append_assoc]
    congr 1
    rw [adElem_eq, adScatter_eq]

/-- The calls of `AssembleNavierStokes`: zero, the calls of the owned elements
in order, the two closes. -/
theorem AssembleNavierStokes_eq (p : Problem R) (hS : p.distinctFields) (m : Mesh R)
    (iproc : Nat) :
    AssembleNavierStokes p m iproc
      = (if p.assembleMatrix then [Call.KK_zero] else [])
        ++ (List.range' (m.IS_Mts2Gmt_elem_offset iproc)
              (m.IS_Mts2Gmt_elem_offset (iproc + 1) - m.IS_Mts2Gmt_elem_offset iproc)).flatMap
            (fun iel => picardCalls p (m.elem iel))
        ++ (if p.assembleMatrix then [Call.KK_close] else [])
        ++ [Call.RES_close] := by
  unfold AssembleNavierStokes picardLoop
  rw [picardElems_calls p hS, List.nil_append]

/-- The calls of `AssembleNavierStokes_AD`: zero, the calls of the owned
elements in order, the two closes. -/
theorem AssembleNavierStokes_AD_eq (p : Problem R) (m : Mesh R) (iproc : Nat) :
    AssembleNavierStokes_AD p m iproc
      = (if p.assembleMatrix then [Call.KK_zero] else [])
        ++ (List.range' (m.IS_Mts2Gmt_elem_offset iproc)
              (m.IS_Mts2Gmt_elem_offset (iproc + 1) - m.IS_Mts2Gmt_elem_offset iproc)).flatMap
            (fun iel => adCalls p (m.elem iel))
        ++ [Call.RES_close]
        ++ (if p.assembleMatrix then [Call.KK_close] else []) := by
  unfold AssembleNavierStokes_AD adLoop
  rw [adElems_calls p, List.nil_append]

end Loops

section ScatterAdds

variable {R : Type}

/-- Every call of `picardScatter` is an additive call, a matrix call only when
the matrix is assembled. -/
theorem picardScatter_adds (p : Problem R) (st : PicardLocal R) (c : Call R)
    (hc : c ∈ picardScatter p st) :
    c.isAdd = true ∧ (c.isMatrixAdd = true → p.assembleMatrix = true) := by
  unfold picardScatter at hc
  dsimp only at hc
  rw [List.mem_append, List.mem_append] at hc
  rcases hc with (hc | hc) | hc
  · revert c hc
    refine foldl_invariant
      (fun cs : List (Call R) => ∀ c, c ∈ cs →
        c.isAdd = true ∧ (c.isMatrixAdd = true → p.assembleMatrix = true)) _ _ ?_ []
      (fun c hc => absurd hc (List.not_mem_nil c))
    intro cs ivar _ h c hc
    by_cases hM : p.assembleMatrix = true
    · simp only [hM, if_true, List.mem_append, List.mem_cons, List.mem_singleton,
        List.not_mem_nil, or_false] at hc
      rcases hc with (hc | hc) | hc | hc | hc
      · exact h c hc
      · subst hc; exact ⟨rfl, fun h => nomatch h⟩
      · subst hc; exact ⟨rfl, fun _ => hM⟩
      · subst hc; exact ⟨rfl, fun _ => hM⟩
      · subst hc; exact ⟨rfl, fun _ => hM⟩
    · simp only [hM, Bool.false_eq_true, if_false, List.mem_append, List.mem_singleton] at hc
      rcases hc with hc | hc
      · exact h c hc
      · subst hc; exact ⟨rfl, fun h => nomatch h⟩
  · by_cases hM : p.assembleMatrix = true
    · simp only [hM, penalty, Bool.and_self, if_true, List.mem_singleton] at hc
      subst hc; exact ⟨rfl, fun _ => hM⟩
    · simp only [hM, Bool.false_and, Bool.false_eq_true, if_false, List.not_mem_nil] at hc
  · rw [List.mem_singleton] at hc
    subst hc; exact ⟨rfl, fun h => nomatch h⟩

end ScatterAdds

section LoopAdds

variable {R : Type} [CommRing R]

/-- Every call of the element loop of `AssembleNavierStokes` is an additive
call, a matrix call only when the matrix is assembled. -/
theorem picardElems_adds (p : Problem R) (m : Mesh R) (l : List Nat)
    (acc : PicardLocal R × List (Call R))
    (hacc : ∀ c, c ∈ acc.2 →
      c.isAdd = true ∧ (c.isMatrixAdd = true → p.assembleMatrix = true)) :
    ∀ c, c ∈ (l.foldl (picardElem p m) acc).2 →
      c.isAdd = true ∧ (c.isMatrixAdd = true → p.assembleMatrix = true) := by
  refine foldl_invariant
    (fun acc : PicardLocal R × List (Call R) => ∀ c, c ∈ acc.2 →
      c.isAdd = true ∧ (c.isMatrixAdd = true → p.assembleMatrix = true)) _ _ ?_ acc hacc
  intro s iel _ hs c hc
  unfold picardElem at hc
  rcases List.mem_append.mp hc with hc | hc
  · exact hs c hc
  · exact picardScatter_adds p _ c hc

/-- Every call of the element loop of `AssembleNavierStokes_AD` is an additive
call, a matrix call only when the matrix is assembled. -/
theorem adElems_adds (p : Problem R) (m : Mesh R) (l : List Nat)
    (acc : ADLocal R × List (Call R))
    (hacc : ∀ c, c ∈ acc.2 →
      c.isAdd = true ∧ (c.isMatrixAdd = true → p.assembleMatrix = true)) :
    ∀ c, c ∈ (l.foldl (adElem p m) acc).2 →
      c.isAdd = true ∧ (c.isMatrixAdd = true → p.assembleMatrix = true) := by
  refine foldl_invariant
    (fun acc : ADLocal R × List (Call R) => ∀ c, c ∈ acc.2 →
      c.isAdd = true ∧ (c.isMatrixAdd = true → p.assembleMatrix = true)) _ _ ?_ acc hacc
  intro s iel _ hs c hc
  unfold adElem at hc
  by_cases hM : p.assembleMatrix = true
  · simp only [hM, if_true, List.mem_append, List.mem_singleton] at hc
    rcases hc with (hc | hc) | hc
    · exact hs c hc
    · subst hc; exact ⟨rfl, fun h => nomatch h⟩
    · subst hc; exact ⟨rfl, fun _ => hM⟩
  · simp only [hM, Bool.false_eq_true, if_false, List.mem_append, List.mem_singleton] at hc
    rcases hc with hc | hc
    · exact hs c hc
    · subst hc; exact ⟨rfl, fun h => nomatch h⟩

end LoopAdds

section RangeLemmas

variable {R : Type} [CommRing R]

theorem map_range_zero (n : Nat) : (List.range n).map (fun _ => (0 : R)) = List.replicate n 0 := by
  rw [List.map_const', List.length_range]

end RangeLemmas

section GlobalLemmas

variable {R : Type} [CommRing R]

/-- The entry `r` of the global vector after `add_vector_blocked`: the old
entry plus the local values whose global index is `r`. -/
theorem add_vector_blocked_apply (RES : Nat → R) (vals : List R) (dofs : List Nat) (r : Nat) :
    add_vector_blocked RES vals dofs r
      = RES r + ∑ i ∈ Finset.range dofs.length,
          if r = dofs.getD i 0 then vals.getD i 0 else 0 := by
  unfold add_vector_blocked
  refine foldl_range_obs_add (fun v : Nat → R => v r) _
    (fun i => if r = dofs.getD i 0 then vals.getD i 0 else 0) _ ?_ RES
  intro s a _
  show (if r = dofs.getD a 0 then s r + vals.getD a 0 else s r)
    = s r + if r = dofs.getD a 0 then vals.getD a 0 else 0
  by_cases h : r = dofs.getD a 0
  · rw [if_pos h, if_pos h]
  · rw [if_neg h, if_neg h, add_zero]

/-- The entry `(r, c)` of the global matrix after `add_matrix_blocked`: the old
entry plus the entries of the local block whose global position is `(r, c)`. -/
theorem add_matrix_blocked_apply (KK : Nat → Nat → R) (vals : List R) (rows cols : List Nat)
    (r c : Nat) :
    add_matrix_blocked KK vals rows cols r c
      = KK r c + ∑ i ∈ Finset.range rows.length, ∑ j ∈ Finset.range cols.length,
          if r = rows.getD i 0 ∧ c = cols.getD j 0
            then vals.getD (i * cols.length + j) 0 else 0 := by
  unfold add_matrix_blocked
  refine foldl_range_obs_add (fun M : Nat → Nat → R => M r c) _
    (fun i => ∑ j ∈ Finset.range cols.length,
      if r = rows.getD i 0 ∧ c = cols.getD j 0
        then vals.getD (i * cols.length + j) 0 else 0) _ ?_ KK
  intro s a _
  refine foldl_range_obs_add (fun M : Nat → Nat → R => M r c) _
    (fun j => if r = rows.getD a 0 ∧ c = cols.getD j 0
        then vals.getD (a * cols.length + j) 0 else 0) _ ?_ s
  intro s b _
  show (if r = rows.getD a 0 ∧ c = cols.getD b 0
      then s r c + vals.getD (a * cols.length + b) 0 else s r c)
    = s r c + if r = rows.getD a 0 ∧ c = cols.getD b 0
      then vals.getD (a * cols.length + b) 0 else 0
  by_cases h : r = rows.getD a 0 ∧ c = cols.getD b 0
  · rw [if_pos h, if_pos h]
  · rw [if_neg h, if_neg h, add_zero]

theorem exec_RES (G : GlobalSystem R) (c : Call R) (r : Nat) :
    (Call.exec G c).RES r = G.RES r + (Call.exec (GlobalSystem.zero R) c).RES r := by
  cases c with
  | KK_zero => simp [Call.exec, GlobalSystem.zero]
  | RES_add_vector_blocked vals dofs =>
    simp only [Call.exec, GlobalSystem.zero, add_vector_blocked_apply, zero_add]
  | KK_add_matrix_blocked vals rows cols => simp [Call.exec, GlobalSystem.zero]
  | RES_close => simp [Call.exec, GlobalSystem.zero]
  | KK_close => simp [Call.exec, GlobalSystem.zero]

/-- The calls act additively on the global vector. -/
theorem run_RES (cs : List (Call R)) (G : GlobalSystem R) (r : Nat) :
    (run cs G).RES r = G.RES r + (run cs (GlobalSystem.zero R)).RES r := by
  induction cs generalizing G with
  | nil => simp [run, GlobalSystem.zero]
  | cons c cs ih =>
    have h1 := ih (Call.exec G c)
    have h2 := ih (Call.exec (GlobalSystem.zero R) c)
    simp only [run, List.foldl_cons] at h1 h2 ⊢
    rw [h1, h2, exec_RES G c r, add_assoc]

theorem exec_KK (G : GlobalSystem R) (c : Call R) (hc : c.isAdd = true) (r k : Nat) :
    (Call.exec G c).KK r k = G.KK r k + (Call.exec (GlobalSystem.zero R) c).KK r k := by
  cases c with
  | KK_zero => exact absurd hc (by simp [Call.isAdd])
  | RES_add_vector_blocked vals dofs => simp [Call.exec, GlobalSystem.zero]
  | KK_add_matrix_blocked vals rows cols =>
    simp only [Call.exec, GlobalSystem.zero, add_matrix_blocked_apply, zero_add]
  | RES_close => exact absurd hc (by simp [Call.isAdd])
  | KK_close => exact absurd hc (by simp [Call.isAdd])

/-- Additive calls act additively on the global matrix. -/
theorem run_KK (cs : List (Call R)) (hcs : ∀ c, c ∈ cs → c.isAdd = true)
    (G : GlobalSystem R) (r k : Nat) :
    (run cs G).KK r k = G.KK r k + (run cs (GlobalSystem.zero R)).KK r k := by
  induction cs generalizing G with
  | nil => simp [run, GlobalSystem.zero]
  | cons c cs ih =>
    have hc := hcs c (List.mem_cons_self _ _)
    have hcs' : ∀ d, d ∈ cs → d.isAdd = true := fun d hd => hcs d (List.mem_cons_of_mem _ hd)
    have h1 := ih hcs' (Call.exec G c)
    have h2 := ih hcs' (Call.exec (GlobalSystem.zero R) c)
    simp only [run, List.foldl_cons] at h1 h2 ⊢
    rw [h1, h2, exec_KK G c hc r k, add_assoc]

theorem run_append (a b : List (Call R)) (G : GlobalSystem R) :
    run (a ++ b) G = run b (run a G) := by
  simp only [run, List.foldl_append]

end GlobalLemmas

section Partition

variable {R : Type} [CommRing R]

/-- Contiguous ranges with non-decreasing offsets, taken in order, make up the
range from the first to the last offset. -/
theorem range'_offsets (off : Nat → Nat) (N : Nat) (hmono : ∀ q, q < N → off q ≤ off (q + 1)) :
    off 0 ≤ off N
    ∧ List.range' (off 0) (off N - off 0)
      = (List.range N).flatMap (fun q => List.range' (off q) (off (q + 1) - off q)) := by
  induction N with
  | zero => simp
  | succ N ih =>
    obtain ⟨hle, heq⟩ := ih (fun q hq => hmono q (Nat.lt_succ_of_lt hq))
    have hN := hmono N (Nat.lt_succ_self N)
    refine ⟨le_trans hle hN, ?_⟩
    rw [List.range_succ, List.flatMap_append, List.flatMap_singleton, ← heq]
    have h1 : off N = off 0 + (off N - off 0) := by omega
    have h2 : off (N + 1) - off 0 = (off (N + 1) - off N) + (off N - off 0) := by omega
    rw [h2, ← List.range'_append_1]
    congr 2
    exact h1.symm

theorem exec_zero_KK_zero : Call.exec (GlobalSystem.zero R) Call.KK_zero = GlobalSystem.zero R :=
  rfl

/-- Started on the zero system, a routine leaves what its additive calls leave:
the initial `zero` and the final `close` calls change no entry. -/
theorem run_wrapped (pre post adds : List (Call R))
    (hpre : pre = [] ∨ pre = [Call.KK_zero])
    (hpost : ∀ c, c ∈ post → c = Call.RES_close ∨ c = Call.KK_close) :
    run (pre ++ adds ++ post) (GlobalSystem.zero R) = run adds (GlobalSystem.zero R) := by
  have hclose : ∀ (post : List (Call R)) (G : GlobalSystem R),
      (∀ c, c ∈ post → c = Call.RES_close ∨ c = Call.KK_close) → run post G = G := by
    intro post
    induction post with
    | nil => intro G _; rfl
    | cons c cs ih =>
      intro G h
      have hc := h c (List.mem_cons_self _ _)
      have hcs := ih (Call.exec G c) (fun d hd => h d (List.mem_cons_of_mem _ hd))
      simp only [run, List.foldl_cons] at hcs ⊢
      rw [hcs]
      rcases hc with hc | hc <;> subst hc <;> rfl
  rw [run_append, run_append, hclose post _ hpost]
  rcases hpre with h | h
  · subst h; rfl
  · subst h; rfl

/-- The global vector left by a concatenation of per-partition call lists is
the sum of the vectors left by the partitions. -/
theorem run_flatMap_RES (F : Nat → List (Call R)) (N : Nat) (r : Nat) :
    (run ((List.range N).flatMap F) (GlobalSystem.zero R)).RES r
      = ∑ q ∈ Finset.range N, (run (F q) (GlobalSystem.zero R)).RES r := by
  induction N with
  | zero => simp [run, GlobalSystem.zero]
  | succ N ih =>
    rw [List.range_succ, List.flatMap_append, List.flatMap_singleton, run_append, run_RES, ih,
      Finset.sum_range_succ]

/-- The global matrix left by a concatenation of per-partition lists of
additive calls is the sum of the matrices left by the partitions. -/
theorem run_flatMap_KK (F : Nat → List (Call R)) (N : Nat)
    (hF : ∀ q c, c ∈ F q → c.isAdd = true) (r k : Nat) :
    (run ((List.range N).flatMap F) (GlobalSystem.zero R)).KK r k
      = ∑ q ∈ Finset.range N, (run (F q) (GlobalSystem.zero R)).KK r k := by
  induction N with
  | zero => simp [run, GlobalSystem.zero]
  | succ N ih =>
    rw [List.range_succ, List.flatMap_append, List.flatMap_singleton, run_append,
      run_KK _ (hF N), ih, Finset.sum_range_succ]

theorem picardCalls_adds (p : Problem R) (hS : p.distinctFields) (e : Element R) (c : Call R)
    (hc : c ∈ picardCalls p e) : c.isAdd = true := by
  rw [← picardScatter_eq p hS e (PicardLocal.init R)] at hc
  exact (picardScatter_adds p _ c hc).1

theorem adCalls_adds (p : Problem R) (e : Element R) (c : Call R)
    (hc : c ∈ adCalls p e) : c.isAdd = true := by
  unfold adCalls at hc
  by_cases hM : p.assembleMatrix = true
  · simp only [hM, if_true, List.mem_append, List.mem_singleton] at hc
    rcases hc with hc | hc <;> subst hc <;> rfl
  · simp only [hM, Bool.false_eq_true, if_false, List.append_nil, List.mem_singleton] at hc
    subst hc; rfl

/-- What `AssembleNavierStokes` leaves on the zero system: the effect of the
calls of the owned elements. -/
theorem run_AssembleNavierStokes (p : Problem R) (hS : p.distinctFields) (m : Mesh R)
    (iproc : Nat) :
    run (AssembleNavierStokes p m iproc) (GlobalSystem.zero R)
      = run ((List.range' (m.IS_Mts2Gmt_elem_offset iproc)
              (m.IS_Mts2Gmt_elem_offset (iproc + 1) - m.IS_Mts2Gmt_elem_offset iproc)).flatMap
            (fun iel => picardCalls p (m.elem iel))) (GlobalSystem.zero R) := by
  rw [AssembleNavierStokes_eq p hS, List.append_assoc _ _ [Call.RES_close]]
  refine run_wrapped _ _ _ ?_ ?_
  · by_cases hM : p.assembleMatrix = true
    · exact Or.inr (by rw [if_pos hM])
    · exact Or.inl (by rw [if_neg hM])
  · intro c hc
    by_cases hM : p.assembleMatrix = true
    · simp only [hM, if_true, List.mem_append, List.mem_singleton] at hc
      rcases hc with hc | hc
      · exact Or.inr hc
      · exact Or.inl hc
    · simp only [hM, Bool.false_eq_true, if_false, List.nil_append, List.mem_singleton] at hc
      exact Or.inl hc

/-- What `AssembleNavierStokes_AD` leaves on the zero system: the effect of the
calls of the owned elements. -/
theorem run_AssembleNavierStokes_AD (p : Problem R) (m : Mesh R) (iproc : Nat) :
    run (AssembleNavierStokes_AD p m iproc) (GlobalSystem.zero R)
      = run ((List.range' (m.IS_Mts2Gmt_elem_offset iproc)
              (m.IS_Mts2Gmt_elem_offset (iproc + 1) - m.IS_Mts2Gmt_elem_offset iproc)).flatMap
            (fun iel => adCalls p (m.elem iel))) (GlobalSystem.zero R) := by
  rw [AssembleNavierStokes_AD_eq p, List.append_assoc _ [Call.RES_close]]
  refine run_wrapped _ _ _ ?_ ?_
  · by_cases hM : p.assembleMatrix = true
    · exact Or.inr (by rw [if_pos hM])
    · exact Or.inl (by rw [if_neg hM])
  · intro c hc
    by_cases hM : p.assembleMatrix = true
    · simp only [hM, if_true, List.mem_append, List.mem_singleton] at hc
      rcases hc with hc | hc
      · exact Or.inl hc
      · exact Or.inr hc
    · simp only [hM, Bool.false_eq_true, if_false, List.append_nil, List.mem_singleton] at hc
      exact Or.inl hc

end Partition

section MergedMesh

variable {R : Type}

theorem merge_calls (m : Mesh R) (N : Nat)
    (hmono : ∀ q, q < N → m.IS_Mts2Gmt_elem_offset q ≤ m.IS_Mts2Gmt_elem_offset (q + 1))
    (F : Nat → List (Call R)) :
    (List.range' ((m.merge N).IS_Mts2Gmt_elem_offset 0)
        ((m.merge N).IS_Mts2Gmt_elem_offset (0 + 1)
          - (m.merge N).IS_Mts2Gmt_elem_offset 0)).flatMap F
      = (List.range N).flatMap (fun q =>
          (List.range' (m.IS_Mts2Gmt_elem_offset q)
            (m.IS_Mts2Gmt_elem_offset (q + 1) - m.IS_Mts2Gmt_elem_offset q)).flatMap F) := by
  have h := (range'_offsets m.IS_Mts2Gmt_elem_offset N hmono).2
  simp only [Mesh.merge, if_true, Nat.zero_add, Nat.one_ne_zero, if_false]
  rw [h, List.flatMap_assoc]

end MergedMesh

/-! ## The tape of the automatic-differentiation kernel -/

section TapeLemmas

variable {R : Type}

theorem Tape.run_calls_append (t : Tape) (a b : List (Nat × StackCall)) :
    Tape.run t (a ++ b) = Tape.run (Tape.run t a) b := by
  unfold Tape.run
  rw [List.foldl_append]

theorem Tape.extractions_append (t : Tape) (a b : List (Nat × StackCall)) :
    Tape.extractions t (a ++ b) = Tape.extractions t a ++ Tape.extractions (Tape.run t a) b := by
  induction a generalizing t with
  | nil => rfl
  | cons c cs ih =>
    show (if c.2 = StackCall.jacobian then [(c.1, t.recording)] else [])
        ++ Tape.extractions (t.step c) (cs ++ b)
      = ((if c.2 = StackCall.jacobian then [(c.1, t.recording)] else [])
        ++ Tape.extractions (t.step c) cs) ++ Tape.extractions (Tape.run (t.step c) cs) b
    rw [ih, List.append_assoc]

/-- The calls that register variables extract nothing and leave the recording
as it is. -/
theorem Tape.registrations (t : Tape) (iel : Nat) (f : Nat → StackCall)
    (hf : ∀ n, (∃ k, f n = StackCall.dependent k) ∨ (∃ k, f n = StackCall.independent k))
    (l : List Nat) :
    Tape.extractions t (l.map (fun n => (iel, f n))) = []
    ∧ (Tape.run t (l.map (fun n => (iel, f n)))).recording = t.recording := by
  induction l generalizing t with
  | nil => exact ⟨rfl, rfl⟩
  | cons n l ih =>
    have hstep : (t.step (iel, f n)).recording = t.recording := by
      rcases hf n with ⟨k, hk⟩ | ⟨k, hk⟩ <;> simp [Tape.step, hk]
    have hj : ¬ f n = StackCall.jacobian := by
      rcases hf n with ⟨k, hk⟩ | ⟨k, hk⟩ <;> simp [hk]
    refine ⟨?_, ?_⟩
    · show (if f n = StackCall.jacobian then [(iel, t.recording)] else [])
          ++ Tape.extractions (t.step (iel, f n)) (l.map (fun n => (iel, f n))) = []
      rw [if_neg hj, (ih (t.step (iel, f n))).1]
      rfl
    · show (Tape.run (t.step (iel, f n)) (l.map (fun n => (iel, f n)))).recording = t.recording
      rw [(ih (t.step (iel, f n))).2, hstep]

/-- The registrations, the extraction and the clears of lines 427-449, as the
calls made during the element `iel`. -/
theorem adStackElem_map (p : Problem R) (e : Element R) (iel : Nat) :
    (adStackElem p e).map (fun c => (iel, c))
      = (if p.level = p.levelMax || !e.refined then [(iel, StackCall.new_recording)] else [])
        ++ (if p.assembleMatrix then
              ((List.range p.dim).map (fun _ => (iel, StackCall.dependent e.nDofsV))
                ++ [(iel, StackCall.dependent e.nDofsP)]
                ++ (List.range p.dim).map (fun _ => (iel, StackCall.independent e.nDofsV))
                ++ [(iel, StackCall.independent e.nDofsP)])
              ++ [(iel, StackCall.jacobian), (iel, StackCall.clear_independents),
                  (iel, StackCall.clear_dependents)]
            else []) := by
  unfold adStackElem
  by_cases hG : (p.level = p.levelMax || !e.refined) = true <;>
    by_cases hM : p.assembleMatrix = true <;>
    simp [hG, hM, Function.comp_def]

/-- The registration calls of one element extract nothing and leave the
recording as it is. -/
theorem adStackElem_registrations (p : Problem R) (e : Element R) (iel : Nat) (t : Tape) :
    Tape.extractions t
        ((List.range p.dim).map (fun _ => (iel, StackCall.dependent e.nDofsV))
          ++ [(iel, StackCall.dependent e.nDofsP)]
          ++ (List.range p.dim).map (fun _ => (iel, StackCall.independent e.nDofsV))
          ++ [(iel, StackCall.independent e.nDofsP)]) = []
    ∧ (Tape.run t
        ((List.range p.dim).map (fun _ => (iel, StackCall.dependent e.nDofsV))
          ++ [(iel, StackCall.dependent e.nDofsP)]
          ++ (List.range p.dim).map (fun _ => (iel, StackCall.independent e.nDofsV))
          ++ [(iel, StackCall.independent e.nDofsP)])).recording = t.recording := by
  have hD := fun t => Tape.registrations t iel (fun _ => StackCall.dependent e.nDofsV)
    (fun _ => Or.inl ⟨_, rfl⟩) (List.range p.dim)
  have hI := fun t => Tape.registrations t iel (fun _ => StackCall.independent e.nDofsV)
    (fun _ => Or.inr ⟨_, rfl⟩) (List.range p.dim)
  have hd := fun t => Tape.registrations t iel (fun _ => StackCall.dependent e.nDofsP)
    (fun _ => Or.inl ⟨_, rfl⟩) [0]
  have hi := fun t => Tape.registrations t iel (fun _ => StackCall.independent e.nDofsP)
    (fun _ => Or.inr ⟨_, rfl⟩) [0]
  simp only [List.map_cons, List.map_nil] at hd hi
  refine ⟨?_, ?_⟩
  · rw [Tape.extractions_append, Tape.extractions_append, Tape.extractions_append,
      (hD _).1, (hd _).1, (hI _).1, (hi _).1]
    rfl
  · rw [Tape.run_calls_append, Tape.run_calls_append, Tape.run_calls_append, (hi _).2, (hI _).2, (hd _).2,
      (hD _).2]

/-- The Jacobian extractions of one element: none without `assembleMatrix`,
otherwise one, made under the recording of this element when it passes the
test of line 326 and under the recording found at the start otherwise. -/
theorem adStackElem_extractions (p : Problem R) (e : Element R) (iel : Nat) (t : Tape) :
    Tape.extractions t ((adStackElem p e).map (fun c => (iel, c)))
      = if p.assembleMatrix then
          [(iel, if p.level = p.levelMax || !e.refined then some iel else t.recording)]
        else [] := by
  rw [adStackElem_map, Tape.extractions_append]
  by_cases hM : p.assembleMatrix = true
  · rw [if_pos hM, if_pos hM, Tape.extractions_append, (adStackElem_registrations p e iel _).1]
    by_cases hG : (p.level = p.levelMax || !e.refined) = true
    · rw [if_pos hG, if_pos hG]
      show [] ++ ([] ++ ([(iel, (Tape.run _ _).recording)] ++ _)) = _
      rw [(adStackElem_registrations p e iel _).2]
      rfl
    · rw [if_neg hG, if_neg hG]
      show [] ++ ([] ++ ([(iel, (Tape.run _ _).recording)] ++ _)) = _
      rw [(adStackElem_registrations p e iel _).2]
      rfl
  · rw [if_neg hM, if_neg hM]
    by_cases hG : (p.level = p.levelMax || !e.refined) = true
    · rw [if_pos hG]
      rfl
    · rw [if_neg hG]
      rfl

/-- After the calls of one element nothing is registered on the tape, provided
nothing was registered before. -/
theorem adStackElem_run (p : Problem R) (e : Element R) (iel : Nat) (t : Tape)
    (hi : t.independents = 0) (hd : t.dependents = 0) :
    (Tape.run t ((adStackElem p e).map (fun c => (iel, c)))).independents = 0
    ∧ (Tape.run t ((adStackElem p e).map (fun c => (iel, c)))).dependents = 0 := by
  rw [adStackElem_map, Tape.run_calls_append]
  have hG : (Tape.run t
      (if p.level = p.levelMax || !e.refined then [(iel, StackCall.new_recording)] else [])).independents
        = 0
      ∧ (Tape.run t
      (if p.level = p.levelMax || !e.refined then [(iel, StackCall.new_recording)] else [])).dependents
        = 0 := by
    by_cases hG : (p.level = p.levelMax || !e.refined) = true
    · rw [if_pos hG]
      exact ⟨hi, hd⟩
    · rw [if_neg hG]
      exact ⟨hi, hd⟩
  by_cases hM : p.assembleMatrix = true
  · rw [if_pos hM, Tape.run_calls_append]
    exact ⟨rfl, rfl⟩
  · rw [if_neg hM]
    exact hG

/-- The calls of the element loop over the elements `els`. -/
theorem adStackLoop_eq (p : Problem R) (m : Mesh R) (lo hi : Nat) :
    adStackLoop p m lo hi
      = (List.range' lo (hi - lo)).flatMap
          (fun iel => (adStackElem p (m.elem iel)).map (fun c => (iel, c))) := rfl

theorem adStackElems_run (p : Problem R) (m : Mesh R) (els : List Nat) (t : Tape)
    (hi : t.independents = 0) (hd : t.dependents = 0) :
    (Tape.run t (els.flatMap
        (fun iel => (adStackElem p (m.elem iel)).map (fun c => (iel, c))))).independents = 0
    ∧ (Tape.run t (els.flatMap
        (fun iel => (adStackElem p (m.elem iel)).map (fun c => (iel, c))))).dependents = 0 := by
  induction els generalizing t with
  | nil => exact ⟨hi, hd⟩
  | cons iel els ih =>
    rw [List.flatMap_cons, Tape.run_calls_append]
    exact ih _ (adStackElem_run p (m.elem iel) iel t hi hd).1
      (adStackElem_run p (m.elem iel) iel t hi hd).2

theorem adStackElems_extractions (p : Problem R) (m : Mesh R) (els : List Nat) (t : Tape) :
    (∀ x ∈ Tape.extractions t (els.flatMap
        (fun iel => (adStackElem p (m.elem iel)).map (fun c => (iel, c)))),
      (p.level = p.levelMax ∨ (m.elem x.1).refined = false) → x.2 = some x.1)
    ∧ (p.assembleMatrix = true →
        (Tape.extractions t (els.flatMap
          (fun iel => (adStackElem p (m.elem iel)).map (fun c => (iel, c))))).map Prod.fst
          = els) := by
  induction els generalizing t with
  | nil =>
    refine ⟨?_, fun _ => rfl⟩
    intro x hx
    simp [Tape.extractions] at hx
  | cons iel els ih =>
    rw [List.flatMap_cons, Tape.extractions_append, adStackElem_extractions]
    refine ⟨?_, ?_⟩
    · intro x hx hG
      rcases List.mem_append.mp hx with h | h
      · by_cases hM : p.assembleMatrix = true
        · rw [if_pos hM, List.mem_singleton] at h
          subst h
          have hG2 : (p.level = p.levelMax || !(m.elem iel).refined) = true := by
            rcases hG with h1 | h1
            · simp [h1]
            · have h2 : (m.elem iel).refined = false := h1
              simp [h2]
          show (if (p.level = p.levelMax || !(m.elem iel).refined) = true then some iel
            else t.recording) = some iel
          rw [if_pos hG2]
        · rw [if_neg hM] at h
          simp at h
      · exact (ih _).1 x h hG
    · intro hM
      rw [List.map_append, (ih _).2 hM, if_pos hM]
      rfl

end TapeLemmas

/-! ## The order of the local dofs in the automatic-differentiation kernel -/

section ADWrites

variable {R α : Type}

theorem foldl_flatMap_eq {β γ : Type} (f : β → List γ) (g : α → γ → α) (l : List β) (a : α) :
    (l.flatMap f).foldl g a = l.foldl (fun a x => (f x).foldl g a) a := by
  induction l generalizing a with
  | nil => rfl
  | cons x l ih => rw [List.flatMap_cons, List.foldl_append, ih, List.foldl_cons]

/-- The two loop nests that fill a local vector perform the writes `adWrites`. -/
theorem adWrites_foldl (p : Problem R) (e : Element R) (fV : Nat → Nat → α) (fP : Nat → α)
    (v : Vec α) :
    (adWrites p e fV fP).foldl (fun v w => v.set w.1 w.2) v
      = (List.range e.nDofsP).foldl (fun v i => v.set (i + p.dim * e.nDofsV) (fP i))
          ((List.range e.nDofsV).foldl (fun v i =>
            (List.range p.dim).foldl (fun v k => v.set (i + k * e.nDofsV) (fV k i)) v) v) := by
  unfold adWrites
  rw [List.foldl_append, foldl_flatMap_eq, List.foldl_map]
  simp only [List.foldl_map]

/-- The positions written by `adWrites` are the positions below
`dim*nDofsV + nDofsP`, each of them once. -/
theorem adWrites_positions (p : Problem R) (e : Element R) (fV : Nat → Nat → α)
    (fP : Nat → α) :
    ((adWrites p e fV fP).map Prod.fst).Perm (List.range (p.dim * e.nDofsV + e.nDofsP)) := by
  have hpos : (adWrites p e fV fP).map Prod.fst
      = (List.range e.nDofsV).flatMap
            (fun i => (List.range p.dim).map (fun k => i + k * e.nDofsV))
        ++ (List.range e.nDofsP).map (fun i => i + p.dim * e.nDofsV) := by
    unfold adWrites
    simp [List.map_flatMap, Function.comp_def]
  rw [hpos]
  have hlt : ∀ k i, k < p.dim → i < e.nDofsV → i + k * e.nDofsV < p.dim * e.nDofsV := by
    intro k i hk hi
    have h1 : (k + 1) * e.nDofsV ≤ p.dim * e.nDofsV := Nat.mul_le_mul_right _ hk
    rw [Nat.add_mul, Nat.one_mul] at h1
    omega
  have hinj : ∀ k i k' i', i < e.nDofsV → i' < e.nDofsV →
      i + k * e.nDofsV = i' + k' * e.nDofsV → k = k' ∧ i = i' := by
    intro k i k' i' hi hi' h
    exact flat_index_inj hi' hi (by omega)
  refine (List.perm_ext_iff_of_nodup ?_ (List.nodup_range _)).2 ?_
  · refine List.Nodup.append ?_ ?_ ?_
    · refine List.nodup_flatMap.2 ⟨?_, ?_⟩
      · intro i hi
        have hi := List.mem_range.mp hi
        refine List.Nodup.map_on ?_ (List.nodup_range _)
        intro k _ k' _ h
        exact (hinj k i k' i hi hi h).1
      · refine List.Pairwise.imp_of_mem ?_ (List.pairwise_lt_range e.nDofsV)
        intro a b ha hb hab
        have ha := List.mem_range.mp ha
        have hb := List.mem_range.mp hb
        show List.Disjoint _ _
        intro t h1 h2
        obtain ⟨k, _, hk⟩ := List.mem_map.mp h1
        obtain ⟨k', _, hk'⟩ := List.mem_map.mp h2
        have := (hinj k a k' b ha hb (hk.trans hk'.symm)).2
        omega
    · refine List.Nodup.map_on ?_ (List.nodup_range _)
      intro i _ i' _ h
      omega
    · intro t h1 h2
      obtain ⟨i, hi, hf⟩ := List.mem_flatMap.mp h1
      obtain ⟨k, hk, hk2⟩ := List.mem_map.mp hf
      obtain ⟨j, _, hj⟩ := List.mem_map.mp h2
      have := hlt k i (List.mem_range.mp hk) (List.mem_range.mp hi)
      omega
  · intro t
    rw [List.mem_append, List.mem_range]
    constructor
    · rintro (h | h)
      · obtain ⟨i, hi, hf⟩ := List.mem_flatMap.mp h
        obtain ⟨k, hk, hk2⟩ := List.mem_map.mp hf
        have := hlt k i (List.mem_range.mp hk) (List.mem_range.mp hi)
        omega
      · obtain ⟨j, hj, hj2⟩ := List.mem_map.mp h
        have := List.mem_range.mp hj
        omega
    · intro ht
      by_cases h : t < p.dim * e.nDofsV
      · obtain ⟨h1, h2, h3⟩ := block_index_split h
        exact Or.inl (List.mem_flatMap.mpr ⟨t % e.nDofsV, List.mem_range.mpr h2,
          List.mem_map.mpr ⟨t / e.nDofsV, List.mem_range.mpr h1, h3⟩⟩)
      · exact Or.inr (List.mem_map.mpr ⟨t - p.dim * e.nDofsV, List.mem_range.mpr (by omega),
          by omega⟩)

end ADWrites

/-! ## The tangent of `AssembleNavierStokes` against the derivative of its residual -/

section PicardTangent

variable {R : Type} [CommRing R]

theorem sum_map_sub_eq {α : Type} (l : List α) (f g d : α → R) (c : R)
    (h : ∀ a, a ∈ l → f a - g a = c * d a) :
    (l.map f).sum - (l.map g).sum = c * (l.map d).sum := by
  induction l with
  | nil => simp
  | cons a l ih =>
    have h1 := h a (List.mem_cons_self _ _)
    have h2 := ih (fun b hb => h b (List.mem_cons_of_mem _ hb))
    simp only [List.map_cons, List.sum_cons]
    linear_combination h1 + h2

theorem sum_bump (f s : Nat → R) (n j : Nat) (h : R) (hj : j < n) :
    ∑ m ∈ Finset.range n, f m * (s m + if m = j then h else 0)
      = (∑ m ∈ Finset.range n, f m * s m) + f j * h := by
  simp only [mul_add, Finset.sum_add_distrib, mul_ite, mul_zero]
  rw [Finset.sum_ite_eq' (Finset.range n) j (fun m => f m * h), if_pos (Finset.mem_range.mpr hj)]

theorem sum_bump_other (f s : Nat → R) (n j : Nat) (h : R) (c : Prop) [Decidable c]
    (hc : ¬ c) :
    ∑ m ∈ Finset.range n, f m * (s m + if c ∧ m = j then h else 0)
      = ∑ m ∈ Finset.range n, f m * s m := by
  refine Finset.sum_congr rfl (fun m _ => ?_)
  rw [if_neg (fun hh => hc hh.1), add_zero]

/-- The momentum integrand of line 679 after raising the velocity dof
`u_k[j]` by `h`. -/
theorem picardMomentum_bumpV (p : Problem R) (e : Element R) (g : GaussPoint R) (k i j : Nat)
    (h : R) (hj : j < e.nDofsV) :
    picardMomentum p (e.bumpV k j h) g k i - picardMomentum p e g k i
      = -h * (p.IRe * Lap p g i j * g.weight) := by
  rw [picardMomentum_eq, picardMomentum_eq, Lap_eq]
  have hV : ∀ d, ∑ m ∈ Finset.range (e.bumpV k j h).nDofsV,
        g.phiV_x_gss (m * p.dim + d) * (e.bumpV k j h).solV k m
      = (∑ m ∈ Finset.range e.nDofsV, g.phiV_x_gss (m * p.dim + d) * e.solV k m)
        + g.phiV_x_gss (j * p.dim + d) * h := by
    intro d
    have hb := sum_bump (fun m => g.phiV_x_gss (m * p.dim + d)) (e.solV k) e.nDofsV j h hj
    rw [← hb]
    refine Finset.sum_congr rfl (fun m _ => ?_)
    show _ * (e.solV k m + if k = k ∧ m = j then h else 0) = _
    simp
  have hP : ∑ m ∈ Finset.range (e.bumpV k j h).nDofsP, g.phiP_gss m * (e.bumpV k j h).solP m
      = ∑ m ∈ Finset.range e.nDofsP, g.phiP_gss m * e.solP m := rfl
  simp only [hV, hP, mul_add, Finset.sum_add_distrib]
  have hS : ∑ d ∈ Finset.range p.dim,
        g.phiV_x_gss (i * p.dim + d) * (g.phiV_x_gss (j * p.dim + d) * h)
      = h * ∑ d ∈ Finset.range p.dim,
        g.phiV_x_gss (i * p.dim + d) * g.phiV_x_gss (j * p.dim + d) := by
    rw [Finset.mul_sum]
    exact Finset.sum_congr rfl (fun d _ => by ring)
  rw [hS]
  ring

/-- The momentum integrand of line 679 after raising the pressure dof `p[j]`
by `h`. -/
theorem picardMomentum_bumpP (p : Problem R) (e : Element R) (g : GaussPoint R) (k i j : Nat)
    (h : R) (hj : j < e.nDofsP) :
    picardMomentum p (e.bumpP j h) g k i - picardMomentum p e g k i
      = h * -(g.phiV_x_gss (i * p.dim + k) * g.phiP_gss j * g.weight) := by
  rw [picardMomentum_eq, picardMomentum_eq]
  have hP : ∑ m ∈ Finset.range (e.bumpP j h).nDofsP, g.phiP_gss m * (e.bumpP j h).solP m
      = (∑ m ∈ Finset.range e.nDofsP, g.phiP_gss m * e.solP m) + g.phiP_gss j * h :=
    sum_bump g.phiP_gss e.solP e.nDofsP j h hj
  have hV : ∀ d, ∑ m ∈ Finset.range (e.bumpP j h).nDofsV,
        g.phiV_x_gss (m * p.dim + d) * (e.bumpP j h).solV k m
      = ∑ m ∈ Finset.range e.nDofsV, g.phiV_x_gss (m * p.dim + d) * e.solV k m :=
    fun _ => rfl
  simp only [hV, hP]
  ring

/-- The continuity integrand of line 716 after raising the velocity dof
`u_k[j]` by `h`. -/
theorem continuityIntegrand_bumpV (p : Problem R) (e : Element R) (g : GaussPoint R)
    (k i j : Nat) (h : R) (hk : k < p.dim) (hj : j < e.nDofsV) :
    continuityIntegrand p (e.bumpV k j h) g i - continuityIntegrand p e g i
      = -h * -(g.phiP_gss i * g.phiV_x_gss (j * p.dim + k) * g.weight) := by
  unfold continuityIntegrand
  have hD : ∑ k' ∈ Finset.range p.dim, ∑ m ∈ Finset.range (e.bumpV k j h).nDofsV,
        g.phiV_x_gss (m * p.dim + k') * (e.bumpV k j h).solV k' m
      = (∑ k' ∈ Finset.range p.dim, ∑ m ∈ Finset.range e.nDofsV,
          g.phiV_x_gss (m * p.dim + k') * e.solV k' m)
        + g.phiV_x_gss (j * p.dim + k) * h := by
    have h1 : ∀ k', ∑ m ∈ Finset.range (e.bumpV k j h).nDofsV,
          g.phiV_x_gss (m * p.dim + k') * (e.bumpV k j h).solV k' m
        = (∑ m ∈ Finset.range e.nDofsV, g.phiV_x_gss (m * p.dim + k') * e.solV k' m)
          + if k' = k then g.phiV_x_gss (j * p.dim + k) * h else 0 := by
      intro k'
      by_cases hkk : k' = k
      · subst hkk
        rw [if_pos rfl]
        have hb := sum_bump (fun m => g.phiV_x_gss (m * p.dim + k')) (e.solV k') e.nDofsV j h hj
        rw [← hb]
        refine Finset.sum_congr rfl (fun m _ => ?_)
        show _ * (e.solV k' m + if k' = k' ∧ m = j then h else 0) = _
        simp
      · rw [if_neg hkk, add_zero]
        exact sum_bump_other (fun m => g.phiV_x_gss (m * p.dim + k')) (e.solV k') e.nDofsV j h
          (k' = k) hkk
    simp only [h1, Finset.sum_add_distrib]
    rw [Finset.sum_ite_eq' (Finset.range p.dim) k (fun _ => g.phiV_x_gss (j * p.dim + k) * h),
      if_pos (Finset.mem_range.mpr hk)]
  rw [hD]
  ring

/-- The tangent blocks of `AssembleNavierStokes` against the derivatives of its
local residual with respect to the local dof values: raising `u_k[j]` by `h`
changes `Res_k[i]` by `-h * Jac[k][k][i*nDofsV+j]` and `Res_P[i]` by
`-h * Jac[P][k][i*nDofsV+j]`, whereas raising `p[j]` by `h` changes `Res_k[i]`
by `+h * Jac[k][P][i*nDofsP+j]`: the velocity-velocity and pressure-velocity
blocks are minus the derivative of the residual, the velocity-pressure block
is plus the derivative. -/
theorem picardLocal_tangent_residual (p : Problem R) (hS : p.distinctFields) (e : Element R)
    (st : PicardLocal R) (hM : p.assembleMatrix = true) (k : Nat) (hk : k < p.dim) (h : R) :
    (∀ i j, i < e.nDofsV → j < e.nDofsV →
      ((picardLocal p (e.bumpV k j h) st).Res (p.SolPdeIndex k)).data i
          - ((picardLocal p e st).Res (p.SolPdeIndex k)).data i
        = -h * ((picardLocal p e st).Jac (p.SolPdeIndex k) (p.SolPdeIndex k)).data
            (i * e.nDofsV + j))
    ∧ (∀ i j, i < e.nDofsV → j < e.nDofsP →
      ((picardLocal p (e.bumpP j h) st).Res (p.SolPdeIndex k)).data i
          - ((picardLocal p e st).Res (p.SolPdeIndex k)).data i
        = h * ((picardLocal p e st).Jac (p.SolPdeIndex k) (p.SolPdeIndex p.dim)).data
            (i * e.nDofsP + j))
    ∧ (∀ i j, i < e.nDofsP → j < e.nDofsV →
      ((picardLocal p (e.bumpV k j h) st).Res (p.SolPdeIndex p.dim)).data i
          - ((picardLocal p e st).Res (p.SolPdeIndex p.dim)).data i
        = -h * ((picardLocal p e st).Jac (p.SolPdeIndex p.dim) (p.SolPdeIndex k)).data
            (i * e.nDofsV + j)) := by
  have hAV : ∀ j, picardActiveGauss p (e.bumpV k j h) = picardActiveGauss p e := fun _ => rfl
  have hAP : ∀ j, picardActiveGauss p (e.bumpP j h) = picardActiveGauss p e := fun _ => rfl
  refine ⟨?_, ?_, ?_⟩
  · intro i j hi hj
    rw [picardLocal_Res_V p hS (e.bumpV k j h) st k i hk hi, picardLocal_Res_V p hS e st k i hk hi,
      picardLocal_Jac_VV p hS e st hM k i j hk hi hj, hAV]
    exact sum_map_sub_eq _ _ _ _ _ (fun g _ => picardMomentum_bumpV p e g k i j h hj)
  · intro i j hi hj
    rw [picardLocal_Res_V p hS (e.bumpP j h) st k i hk hi, picardLocal_Res_V p hS e st k i hk hi,
      picardLocal_Jac_VP p hS e st hM k i j hk hi hj, hAP]
    exact sum_map_sub_eq _ _ _ _ _ (fun g _ => picardMomentum_bumpP p e g k i j h hj)
  · intro i j hi hj
    rw [picardLocal_Res_P p hS (e.bumpV k j h) st i hi, picardLocal_Res_P p hS e st i hi,
      picardLocal_Jac_PV p hS e st hM k i j hk hi hj, hAV]
    exact sum_map_sub_eq _ _ _ _ _ (fun g _ => continuityIntegrand_bumpV p e g k i j h hk hj)

end PicardTangent

/-! # The claims -/

section Claims

variable {R : Type} [CommRing R]

/-- C1: in `AssembleNavierStokes`, for an element that passes the AMR gate, every velocity
component `k < dim` and test function `i < nDofsV`, the local residual entry
`Res[SolPdeIndex[k]][i]` after the Gauss loop is the sum over the Gauss points of
`(-IRe * Σ_j ∂φ_i/∂x_j * ∂u_k/∂x_j - P * ∂φ_i/∂x_k + force_k * φ_i) * weight`, with
`∂u_k/∂x_j = Σ_m ∂φ_m/∂x_j * u_k[m]` and `P = Σ_m φP_m * p[m]`: the diffusion term is the
non-symmetrized gradient form and there is no convective term. -/
theorem C1_picard_momentum_residual (p : Problem R) (hS : p.distinctFields) (e : Element R)
    (st : PicardLocal R) (hgate : p.igrid = p.levelMax ∨ e.refined = false)
    (k i : Nat) (hk : k < p.dim) (hi : i < e.nDofsV) :
    ((picardLocal p e st).Res (p.SolPdeIndex k)).data i
      = (e.gauss.map (fun g =>
          (-p.IRe * (∑ j ∈ Finset.range p.dim, g.phiV_x_gss (i * p.dim + j)
              * ∑ m ∈ Finset.range e.nDofsV, g.phiV_x_gss (m * p.dim + j) * e.solV k m)
            - (∑ m ∈ Finset.range e.nDofsP, g.phiP_gss m * e.solP m)
              * g.phiV_x_gss (i * p.dim + k)
            + p.force k * g.phiV_gss i) * g.weight)).sum := by
  rw [picardLocal_Res_V p hS e st k i hk hi, picardActiveGauss_pos p e hgate]
  congr 1
  exact List.map_congr_left (fun g _ => picardMomentum_eq p e g k i)

/-- Instance of C1 for the data `pEx`, `eEx`: the entry `Res[0][0]` is `-721`. -/
theorem C1_picard_momentum_residual_witness :
    pEx.distinctFields ∧ (pEx.igrid = pEx.levelMax ∨ eEx.refined = false)
      ∧ 0 < pEx.dim ∧ 0 < eEx.nDofsV
      ∧ ((picardLocal pEx eEx (PicardLocal.init ℤ)).Res (pEx.SolPdeIndex 0)).data 0 = -721 :=
  ⟨fun _ _ _ _ h => h, Or.inl rfl, by decide, by decide,
    (C1_picard_momentum_residual pEx (fun _ _ _ _ h => h) eEx (PicardLocal.init ℤ) (Or.inl rfl)
      0 0 (by decide) (by decide)).trans (by decide)⟩

/-- C2, counterexample: for the data `pEx`, `eEx` (where `force[0] = 0`) the entry `Res[0]` of
`AssembleNavierStokes_AD` (component 0, test function 0) is `497`, while the formula of the claim,
`Σ_g (-IRe * Σ_j ∂φ_i/∂x_j * (∂u_k/∂x_j + ∂u_j/∂x_k) - P * ∂φ_i/∂x_k + force_k * φ_i) * weight`,
gives `-1267`. -/
theorem C2_ad_momentum_residual_counterexample :
    (adElemLocal pEx eEx (ADLocal.init ℤ)).Res.data (0 + 0 * eEx.nDofsV) = 497
    ∧ (eEx.gauss.map (fun g =>
        (-pEx.IRe * (∑ j ∈ Finset.range pEx.dim, g.phiV_x_gss (0 * pEx.dim + j)
            * ((∑ m ∈ Finset.range eEx.nDofsV, g.phiV_x_gss (m * pEx.dim + j) * eEx.solV 0 m)
              + ∑ m ∈ Finset.range eEx.nDofsV, g.phiV_x_gss (m * pEx.dim + 0) * eEx.solV j m))
          - (∑ m ∈ Finset.range eEx.nDofsP, g.phiP_gss m * eEx.solP m)
            * g.phiV_x_gss (0 * pEx.dim + 0)
          + pEx.force 0 * g.phiV_gss 0) * g.weight)).sum = -1267 := by
  decide

/-- C2, amended: in `AssembleNavierStokes_AD`, for an element that passes the AMR gate, a
component `k < dim` whose body force `force[k]` is zero and a test function `i < nDofsV`, the
stored residual `Res[i + k*nDofsV]` is the sum over the Gauss points of
`(IRe * Σ_j ∂φ_i/∂x_j * (∂u_k/∂x_j + ∂u_j/∂x_k) - P * ∂φ_i/∂x_k) * weight`: the symmetrized
diffusion term enters with the sign opposite to the one of the Picard kernel, the pressure term
with the same sign. -/
theorem C2_ad_momentum_residual (p : Problem R) (e : Element R) (st : ADLocal R)
    (hgate : p.level = p.levelMax ∨ e.refined = false)
    (k i : Nat) (hk : k < p.dim) (hi : i < e.nDofsV) (hf : p.force k = 0) :
    (adElemLocal p e st).Res.data (i + k * e.nDofsV)
      = (e.gauss.map (fun g =>
          (p.IRe * (∑ j ∈ Finset.range p.dim, g.phiV_x_gss (i * p.dim + j)
              * ((∑ m ∈ Finset.range e.nDofsV, g.phiV_x_gss (m * p.dim + j) * e.solV k m)
                + ∑ m ∈ Finset.range e.nDofsV, g.phiV_x_gss (m * p.dim + k) * e.solV j m))
            - (∑ m ∈ Finset.range e.nDofsP, g.phiP_gss m * e.solP m)
              * g.phiV_x_gss (i * p.dim + k)) * g.weight)).sum := by
  rw [adElemLocal_Res_V p e st k i hk hi, adActiveGauss_pos p e hgate]
  congr 1
  refine List.map_congr_left (fun g _ => ?_)
  unfold adNSV
  simp only [hf, neg_zero, zero_mul, add_zero, adouble.ev, solV, solP, adouble.independent,
    Finset.mul_sum]
  congr 1
  rw [sub_eq_add_neg, neg_mul]
  congr 1
  refine Finset.sum_congr rfl (fun j _ => ?_)
  rw [mul_assoc]

/-- Instance of the amended C2 for the data `pEx`, `eEx`: `force[0] = 0` and `Res[0] = 497`. -/
theorem C2_ad_momentum_residual_witness :
    (pEx.level = pEx.levelMax ∨ eEx.refined = false) ∧ 0 < pEx.dim ∧ 0 < eEx.nDofsV
      ∧ pEx.force 0 = 0
      ∧ (adElemLocal pEx eEx (ADLocal.init ℤ)).Res.data (0 + 0 * eEx.nDofsV) = 497 :=
  ⟨Or.inl rfl, by decide, by decide, rfl,
    (C2_ad_momentum_residual pEx eEx (ADLocal.init ℤ) (Or.inl rfl) 0 0 (by decide) (by decide)
      rfl).trans (by decide)⟩

/-- C3, counterexample: on the coarse level of `pExCoarse` (`igrid = level = 0`, `levelMax = 1`)
the refined element `eExRefined` is skipped by the test of line 629 and by the test of line 326:
the pressure residual `Res[SolPdeIndex[dim]][0]` of `AssembleNavierStokes` and the entry
`Res[dim*nDofsV + 0]` of `AssembleNavierStokes_AD` are both `0`, while the sum over the Gauss
points of `φP_0 * div(u) * weight` is `700`. -/
theorem C3_continuity_cross_kernel_counterexample :
    ((picardLocal pExCoarse eExRefined (PicardLocal.init ℤ)).Res
        (pExCoarse.SolPdeIndex pExCoarse.dim)).data 0 = 0
    ∧ (adElemLocal pExCoarse eExRefined (ADLocal.init ℤ)).Res.data
        (pExCoarse.dim * eExRefined.nDofsV + 0) = 0
    ∧ (eExRefined.gauss.map (fun g =>
        g.phiP_gss 0
          * (∑ k ∈ Finset.range pExCoarse.dim, ∑ m ∈ Finset.range eExRefined.nDofsV,
              g.phiV_x_gss (m * pExCoarse.dim + k) * eExRefined.solV k m)
          * g.weight)).sum = 700 := by
  decide

/-- C3, amended: for every pressure test function `i < nDofsP`: for an element that passes the
AMR gate of both routines (lines 629 and 326), the pressure residual `Res[SolPdeIndex[dim]][i]`
of `AssembleNavierStokes` and the entry `Res[dim*nDofsV + i]` of `AssembleNavierStokes_AD` are
equal, and both are the sum over the Gauss points of `φP_i * div(u) * weight` with
`div(u) = Σ_k ∂u_k/∂x_k`; for an element skipped by the gate of both routines both entries are
zero. -/
theorem C3_continuity_cross_kernel (p : Problem R) (hS : p.distinctFields) (e : Element R)
    (st : PicardLocal R) (st' : ADLocal R) (i : Nat) (hi : i < e.nDofsP) :
    ((p.igrid = p.levelMax ∨ e.refined = false) → (p.level = p.levelMax ∨ e.refined = false) →
      ((picardLocal p e st).Res (p.SolPdeIndex p.dim)).data i
          = (adElemLocal p e st').Res.data (p.dim * e.nDofsV + i)
        ∧ (adElemLocal p e st').Res.data (p.dim * e.nDofsV + i)
          = (e.gauss.map (fun g =>
              g.phiP_gss i
                * (∑ k ∈ Finset.range p.dim, ∑ m ∈ Finset.range e.nDofsV,
                    g.phiV_x_gss (m * p.dim + k) * e.solV k m)
                * g.weight)).sum)
    ∧ (p.igrid ≠ p.levelMax → p.level ≠ p.levelMax → e.refined = true →
      ((picardLocal p e st).Res (p.SolPdeIndex p.dim)).data i = 0
        ∧ (adElemLocal p e st').Res.data (p.dim * e.nDofsV + i) = 0) := by
  have h1 := picardLocal_Res_P p hS e st i hi
  have h2 := adElemLocal_Res_P p e st' i hi
  rw [Nat.add_comm] at h2
  refine ⟨?_, ?_⟩
  · intro hgate hgate'
    rw [picardActiveGauss_pos p e hgate] at h1
    rw [adActiveGauss_pos p e hgate'] at h2
    exact ⟨h1.trans h2.symm, h2⟩
  · intro hg hg' hr
    rw [picardActiveGauss_neg p e hg hr] at h1
    rw [adActiveGauss_neg p e hg' hr] at h2
    exact ⟨h1, h2⟩

/-- Instance of (the amended) C3 for the data `pEx`, `eEx`, which pass the gate: both pressure
residual entries are `700`. -/
theorem C3_continuity_cross_kernel_witness :
    pEx.distinctFields ∧ 0 < eEx.nDofsP
      ∧ (pEx.igrid = pEx.levelMax ∨ eEx.refined = false)
      ∧ (pEx.level = pEx.levelMax ∨ eEx.refined = false)
      ∧ ((picardLocal pEx eEx (PicardLocal.init ℤ)).Res (pEx.SolPdeIndex pEx.dim)).data 0 = 700
      ∧ (adElemLocal pEx eEx (ADLocal.init ℤ)).Res.data (pEx.dim * eEx.nDofsV + 0) = 700 :=
  ⟨fun _ _ _ _ h => h, by decide, Or.inl rfl, Or.inl rfl,
    (((C3_continuity_cross_kernel pEx (fun _ _ _ _ h => h) eEx (PicardLocal.init ℤ)
      (ADLocal.init ℤ) 0 (by decide)).1 (Or.inl rfl) (Or.inl rfl)).1.trans (by decide)),
    (((C3_continuity_cross_kernel pEx (fun _ _ _ _ h => h) eEx (PicardLocal.init ℤ)
      (ADLocal.init ℤ) 0 (by decide)).1 (Or.inl rfl) (Or.inl rfl)).2.trans (by decide))⟩

/-- C4: for an element whose local velocity and pressure dof values are all zero, with zero body
force, every entry of every local residual vector of `AssembleNavierStokes` (the velocity
components and the pressure) is zero and every entry of the vector `Res` of
`AssembleNavierStokes_AD` is zero, for any Gauss weights and shape data. -/
theorem C4_zero_state_zero_residual (p : Problem R) (hS : p.distinctFields) (e : Element R)
    (st : PicardLocal R) (st' : ADLocal R)
    (hV : ∀ k i, e.solV k i = 0) (hP : ∀ i, e.solP i = 0) (hF : ∀ k, p.force k = 0) :
    (∀ k, k < p.dim →
        ((picardLocal p e st).Res (p.SolPdeIndex k)).toList = List.replicate e.nDofsV 0)
      ∧ ((picardLocal p e st).Res (p.SolPdeIndex p.dim)).toList = List.replicate e.nDofsP 0
      ∧ (adElemLocal p e st').Res.toList = List.replicate (p.dim * e.nDofsV + e.nDofsP) 0 := by
  refine ⟨fun k hk => ?_, ?_, ?_⟩
  · refine Vec.toList_replicate _ _ _ (picardLocal_Res_V_size p hS e st k hk) (fun i hi => ?_)
    rw [picardLocal_Res_V p hS e st k i hk hi]
    refine sum_map_eq_zero _ _ (fun g _ => ?_)
    rw [picardMomentum_eq]
    simp [hV, hP, hF]
  · refine Vec.toList_replicate _ _ _ (picardLocal_Res_P_size p hS e st) (fun i hi => ?_)
    rw [picardLocal_Res_P p hS e st i hi]
    refine sum_map_eq_zero _ _ (fun g _ => ?_)
    unfold continuityIntegrand
    simp [hV]
  · refine Vec.toList_replicate _ _ _ (adElemLocal_Res_size p e st') (fun t ht => ?_)
    rw [adElemLocal_Res_data p e st' t ht]
    split
    · refine sum_map_eq_zero _ _ (fun g _ => ?_)
      unfold adNSV
      simp [adouble.ev, solV, solP, adouble.independent, hV, hP, hF]
    · refine sum_map_eq_zero _ _ (fun g _ => ?_)
      unfold continuityIntegrand
      simp [hV]

/-- Instance of C4 for the data `pExNoForce`, `eExZero`. -/
theorem C4_zero_state_zero_residual_witness :
    pExNoForce.distinctFields ∧ (∀ k i, eExZero.solV k i = 0) ∧ (∀ i, eExZero.solP i = 0)
      ∧ (∀ k, pExNoForce.force k = 0)
      ∧ (∀ k, k < pExNoForce.dim →
        ((picardLocal pExNoForce eExZero (PicardLocal.init ℤ)).Res
          (pExNoForce.SolPdeIndex k)).toList = List.replicate eExZero.nDofsV 0)
      ∧ ((picardLocal pExNoForce eExZero (PicardLocal.init ℤ)).Res
          (pExNoForce.SolPdeIndex pExNoForce.dim)).toList = List.replicate eExZero.nDofsP 0
      ∧ (adElemLocal pExNoForce eExZero (ADLocal.init ℤ)).Res.toList
          = List.replicate (pExNoForce.dim * eExZero.nDofsV + eExZero.nDofsP) 0 :=
  ⟨fun _ _ _ _ h => h, fun _ _ => rfl, fun _ => rfl, fun _ => rfl,
    C4_zero_state_zero_residual pExNoForce (fun _ _ _ _ h => h) eExZero (PicardLocal.init ℤ)
      (ADLocal.init ℤ) (fun _ _ => rfl) (fun _ => rfl) (fun _ => rfl)⟩

/-- C5, counterexample: with `assembleMatrix = false`, for process `0` of the mesh `mEx` (which
owns the element `eEx`) and the zero global vector, the entry `0` of the global vector is `-721` after one run of
`AssembleNavierStokes` and `-1442` after a second run; for `AssembleNavierStokes_AD` it is `497`
after one run and `994` after the second. -/
theorem C5_residual_idempotence_counterexample :
    (run (AssembleNavierStokes pExRes mEx 0) (GlobalSystem.zero ℤ)).RES 0 = -721
    ∧ (run (AssembleNavierStokes pExRes mEx 0)
        (run (AssembleNavierStokes pExRes mEx 0) (GlobalSystem.zero ℤ))).RES 0 = -1442
    ∧ (run (AssembleNavierStokes_AD pExRes mEx 0) (GlobalSystem.zero ℤ)).RES 0 = 497
    ∧ (run (AssembleNavierStokes_AD pExRes mEx 0)
        (run (AssembleNavierStokes_AD pExRes mEx 0) (GlobalSystem.zero ℤ))).RES 0 = 994 := by
  decide

/-- C5, amended: with an unchanged solution, mesh and partition (and with `assembleMatrix = false`,
as for any value of the flag), every run of the assembly adds the same increment to each entry of
the global residual vector: the change made by the second run equals the change made by the
first, for each of the two kernels. (The vector after the second run equals the one after the
first only where that increment is zero.) -/
theorem C5_residual_second_run (p : Problem R) (m : Mesh R) (iproc : Nat)
    (G : GlobalSystem R) (r : Nat) :
    (run (AssembleNavierStokes p m iproc) (run (AssembleNavierStokes p m iproc) G)).RES r
        = (run (AssembleNavierStokes p m iproc) G).RES r
          + ((run (AssembleNavierStokes p m iproc) G).RES r - G.RES r)
    ∧ (run (AssembleNavierStokes_AD p m iproc) (run (AssembleNavierStokes_AD p m iproc) G)).RES r
        = (run (AssembleNavierStokes_AD p m iproc) G).RES r
          + ((run (AssembleNavierStokes_AD p m iproc) G).RES r - G.RES r) := by
  refine ⟨?_, ?_⟩
  · rw [run_RES _ (run _ G), run_RES _ G]
    ring
  · rw [run_RES _ (run _ G), run_RES _ G]
    ring

/-- C6: for every split of the element list into `N` contiguous per-process ranges
`IS_Mts2Gmt_elem_offset[q] .. IS_Mts2Gmt_elem_offset[q+1]` (non-decreasing offsets), entry by entry
the global residual vector and the global matrix left by one loop over the whole list are the sums
of what the `N` per-process loops leave, for both routines; and the calls issued for an element
depend only on the gathered data of that element, not on the local buffers left by the elements
processed before it. -/
theorem C6_partition_invariance (p : Problem R) (hS : p.distinctFields) (m : Mesh R) (N : Nat)
    (hmono : ∀ q, q < N → m.IS_Mts2Gmt_elem_offset q ≤ m.IS_Mts2Gmt_elem_offset (q + 1))
    (r k : Nat) (e : Element R) (st1 st2 : PicardLocal R) (st1' st2' : ADLocal R) :
    (run (AssembleNavierStokes p (m.merge N) 0) (GlobalSystem.zero R)).RES r
        = ∑ q ∈ Finset.range N, (run (AssembleNavierStokes p m q) (GlobalSystem.zero R)).RES r
    ∧ (run (AssembleNavierStokes p (m.merge N) 0) (GlobalSystem.zero R)).KK r k
        = ∑ q ∈ Finset.range N, (run (AssembleNavierStokes p m q) (GlobalSystem.zero R)).KK r k
    ∧ (run (AssembleNavierStokes_AD p (m.merge N) 0) (GlobalSystem.zero R)).RES r
        = ∑ q ∈ Finset.range N, (run (AssembleNavierStokes_AD p m q) (GlobalSystem.zero R)).RES r
    ∧ (run (AssembleNavierStokes_AD p (m.merge N) 0) (GlobalSystem.zero R)).KK r k
        = ∑ q ∈ Finset.range N,
            (run (AssembleNavierStokes_AD p m q) (GlobalSystem.zero R)).KK r k
    ∧ picardScatter p (picardLocal p e st1) = picardScatter p (picardLocal p e st2)
    ∧ adScatter p (adElemLocal p e st1') = adScatter p (adElemLocal p e st2') := by
  have hP : ∀ q c, c ∈ (List.range' (m.IS_Mts2Gmt_elem_offset q)
      (m.IS_Mts2Gmt_elem_offset (q + 1) - m.IS_Mts2Gmt_elem_offset q)).flatMap
        (fun iel => picardCalls p (m.elem iel)) → c.isAdd = true := by
    intro q c hc
    obtain ⟨iel, _, hc⟩ := List.mem_flatMap.mp hc
    exact picardCalls_adds p hS _ c hc
  have hA : ∀ q c, c ∈ (List.range' (m.IS_Mts2Gmt_elem_offset q)
      (m.IS_Mts2Gmt_elem_offset (q + 1) - m.IS_Mts2Gmt_elem_offset q)).flatMap
        (fun iel => adCalls p (m.elem iel)) → c.isAdd = true := by
    intro q c hc
    obtain ⟨iel, _, hc⟩ := List.mem_flatMap.mp hc
    exact adCalls_adds p _ c hc
  have hmerge : (m.merge N).elem = m.elem := rfl
  refine ⟨?_, ?_, ?_, ?_, ?_, ?_⟩
  · rw [run_AssembleNavierStokes p hS, hmerge, merge_calls m N hmono, run_flatMap_RES]
    exact Finset.sum_congr rfl (fun q _ => by rw [run_AssembleNavierStokes p hS])
  · rw [run_AssembleNavierStokes p hS, hmerge, merge_calls m N hmono, run_flatMap_KK _ _ hP]
    exact Finset.sum_congr rfl (fun q _ => by rw [run_AssembleNavierStokes p hS])
  · rw [run_AssembleNavierStokes_AD p, hmerge, merge_calls m N hmono, run_flatMap_RES]
    exact Finset.sum_congr rfl (fun q _ => by rw [run_AssembleNavierStokes_AD p])
  · rw [run_AssembleNavierStokes_AD p, hmerge, merge_calls m N hmono, run_flatMap_KK _ _ hA]
    exact Finset.sum_congr rfl (fun q _ => by rw [run_AssembleNavierStokes_AD p])
  · rw [picardScatter_eq p hS, picardScatter_eq p hS]
  · rw [adScatter_eq, adScatter_eq]

/-- Instance of C6 for the data `pEx` and the mesh `mEx` split between two processes, at the
global dof `1` shared by the two elements: entry `1` of the global vector and entry `(1, 1)` of
the global matrix left by one loop over both elements are the sums of the two per-process
contributions. -/
theorem C6_partition_invariance_witness :
    pEx.distinctFields
    ∧ (∀ q, q < 2 → mEx.IS_Mts2Gmt_elem_offset q ≤ mEx.IS_Mts2Gmt_elem_offset (q + 1))
    ∧ (run (AssembleNavierStokes pEx (mEx.merge 2) 0) (GlobalSystem.zero ℤ)).RES 1
        = -1911 + -721
    ∧ (run (AssembleNavierStokes pEx (mEx.merge 2) 0) (GlobalSystem.zero ℤ)).KK 1 1
        = 525 + 105
    ∧ (run (AssembleNavierStokes_AD pEx (mEx.merge 2) 0) (GlobalSystem.zero ℤ)).RES 1
        = 777 + 497
    ∧ (run (AssembleNavierStokes_AD pEx (mEx.merge 2) 0) (GlobalSystem.zero ℤ)).KK 1 1
        = -714 + -126 :=
  ⟨fun _ _ _ _ h => h, fun q _ => Nat.le_succ q,
    (C6_partition_invariance pEx (fun _ _ _ _ h => h) mEx 2 (fun q _ => Nat.le_succ q) 1 1 eEx
      (PicardLocal.init ℤ) (PicardLocal.init ℤ) (ADLocal.init ℤ) (ADLocal.init ℤ)).1.trans
      (by decide),
    (C6_partition_invariance pEx (fun _ _ _ _ h => h) mEx 2 (fun q _ => Nat.le_succ q) 1 1 eEx
      (PicardLocal.init ℤ) (PicardLocal.init ℤ) (ADLocal.init ℤ) (ADLocal.init ℤ)).2.1.trans
      (by decide),
    (C6_partition_invariance pEx (fun _ _ _ _ h => h) mEx 2 (fun q _ => Nat.le_succ q) 1 1 eEx
      (PicardLocal.init ℤ) (PicardLocal.init ℤ) (ADLocal.init ℤ) (ADLocal.init ℤ)).2.2.1.trans
      (by decide),
    (C6_partition_invariance pEx (fun _ _ _ _ h => h) mEx 2 (fun q _ => Nat.le_succ q) 1 1 eEx
      (PicardLocal.init ℤ) (PicardLocal.init ℤ) (ADLocal.init ℤ) (ADLocal.init ℤ)).2.2.2.1.trans
      (by decide)⟩

/-- C7, counterexample: `SetBoundaryCondition` marks the field `U` on face `1` as Dirichlet, and
for the element `eExNoP` (all pressure values zero) of the problem `pExNoForce` (no body force),
where the residual consists of its diffusion part only, the residual entry and the diagonal
tangent entry of the dof `U`, local node `0`, are not zero: `-336` and `105` in
`AssembleNavierStokes`, `882` and `-126` in `AssembleNavierStokes_AD`. -/
theorem C7_boundary_dof_exclusion_counterexample :
    (SetBoundaryCondition ([] : List ℤ) (Solname 0) 1 0).1 = true
    ∧ ((picardLocal pExNoForce eExNoP (PicardLocal.init ℤ)).Res
        (pExNoForce.SolPdeIndex 0)).data 0 = -336
    ∧ ((picardLocal pExNoForce eExNoP (PicardLocal.init ℤ)).Jac (pExNoForce.SolPdeIndex 0)
        (pExNoForce.SolPdeIndex 0)).data (0 * eExNoP.nDofsV + 0) = 105
    ∧ (adElemLocal pExNoForce eExNoP (ADLocal.init ℤ)).Res.data (0 + 0 * eExNoP.nDofsV) = 882
    ∧ (adElemLocal pExNoForce eExNoP (ADLocal.init ℤ)).Jac.data
        ((0 + 0 * eExNoP.nDofsV) * (pExNoForce.dim * eExNoP.nDofsV + eExNoP.nDofsP)
          + (0 + 0 * eExNoP.nDofsV)) = -126 := by
  decide

/-- C7, amended: the kernels do not consult the boundary predicate. For every local velocity dof
(component `k`, node `i`) of an element that passes the AMR gates, also when
`SetBoundaryCondition` marks it Dirichlet, the residual row and the velocity-velocity tangent row
carry the full diffusion contribution: with zero pressure values and `force[k] = 0` (so that the
residual consists of its diffusion part) the residual entry is
`Σ_g -IRe * Σ_j ∂φ_i/∂x_j * ∂u_k/∂x_j * weight` in `AssembleNavierStokes` and
`Σ_g IRe * Σ_j ∂φ_i/∂x_j * (∂u_k/∂x_j + ∂u_j/∂x_k) * weight` in `AssembleNavierStokes_AD`, and when
the matrix is assembled the tangent entries are `Σ_g IRe * Σ_d ∂φ_i/∂x_d * ∂φ_j/∂x_d * weight` and
`Σ_g -IRe * (δ_kl * Σ_d ∂φ_i/∂x_d * ∂φ_j/∂x_d + ∂φ_i/∂x_l * ∂φ_j/∂x_k) * weight`. -/
theorem C7_dirichlet_rows_assembled (p : Problem R) (hS : p.distinctFields) (e : Element R)
    (st : PicardLocal R) (st' : ADLocal R)
    (hgate : p.igrid = p.levelMax ∨ e.refined = false)
    (hgate' : p.level = p.levelMax ∨ e.refined = false)
    (k i : Nat) (hk : k < p.dim) (hi : i < e.nDofsV)
    (x : List R) (facename : Int) (time : R)
    (_hD : (SetBoundaryCondition x (Solname k) facename time).1 = true)
    (hP : ∀ m, e.solP m = 0) (hF : p.force k = 0) :
    ((picardLocal p e st).Res (p.SolPdeIndex k)).data i
        = (e.gauss.map (fun g =>
            (-p.IRe * (∑ j ∈ Finset.range p.dim, g.phiV_x_gss (i * p.dim + j)
              * ∑ m ∈ Finset.range e.nDofsV, g.phiV_x_gss (m * p.dim + j) * e.solV k m))
            * g.weight)).sum
    ∧ (p.assembleMatrix = true → ∀ j, j < e.nDofsV →
        ((picardLocal p e st).Jac (p.SolPdeIndex k) (p.SolPdeIndex k)).data (i * e.nDofsV + j)
          = (e.gauss.map (fun g =>
              p.IRe * (∑ d ∈ Finset.range p.dim,
                g.phiV_x_gss (i * p.dim + d) * g.phiV_x_gss (j * p.dim + d)) * g.weight)).sum)
    ∧ (adElemLocal p e st').Res.data (i + k * e.nDofsV)
        = (e.gauss.map (fun g =>
            (p.IRe * (∑ j ∈ Finset.range p.dim, g.phiV_x_gss (i * p.dim + j)
              * ((∑ m ∈ Finset.range e.nDofsV, g.phiV_x_gss (m * p.dim + j) * e.solV k m)
                + ∑ m ∈ Finset.range e.nDofsV, g.phiV_x_gss (m * p.dim + k) * e.solV j m)))
            * g.weight)).sum
    ∧ (p.assembleMatrix = true → ∀ l j, l < p.dim → j < e.nDofsV →
        (adElemLocal p e st').Jac.data
            ((i + k * e.nDofsV) * (p.dim * e.nDofsV + e.nDofsP) + (j + l * e.nDofsV))
          = (e.gauss.map (fun g =>
              -(p.IRe * ((if l = k then ∑ d ∈ Finset.range p.dim,
                    g.phiV_x_gss (i * p.dim + d) * g.phiV_x_gss (j * p.dim + d) else 0)
                  + g.phiV_x_gss (i * p.dim + l) * g.phiV_x_gss (j * p.dim + k)))
                * g.weight)).sum) := by
  refine ⟨?_, ?_, ?_, ?_⟩
  · rw [picardLocal_Res_V p hS e st k i hk hi, picardActiveGauss_pos p e hgate]
    congr 1
    refine List.map_congr_left (fun g _ => ?_)
    rw [picardMomentum_eq]
    simp [hP, hF]
  · intro hM j hj
    rw [picardLocal_Jac_VV p hS e st hM k i j hk hi hj, picardActiveGauss_pos p e hgate]
    congr 1
    refine List.map_congr_left (fun g _ => ?_)
    rw [Lap_eq]
  · rw [adElemLocal_Res_V p e st' k i hk hi, adActiveGauss_pos p e hgate']
    congr 1
    refine List.map_congr_left (fun g _ => ?_)
    unfold adNSV
    simp only [hF, hP, neg_zero, zero_mul, mul_zero, add_zero, adouble.ev, solV, solP,
      adouble.independent, Finset.mul_sum, Finset.sum_const_zero]
    congr 1
    refine Finset.sum_congr rfl (fun j _ => ?_)
    rw [mul_assoc]
  · intro hM l j hl hj
    rw [adElemLocal_Jac_VV p e st' hM k l i j hk hl hi hj, adActiveGauss_pos p e hgate']
    rfl

/-- Instance of the amended C7 for the field `U` on face `1` (Dirichlet), local node `0` of the
element `eExNoP` and the problem `pExNoForce`: the residual entries are `-336` and `882`. -/
theorem C7_dirichlet_rows_assembled_witness :
    pExNoForce.distinctFields
    ∧ (pExNoForce.igrid = pExNoForce.levelMax ∨ eExNoP.refined = false)
    ∧ (pExNoForce.level = pExNoForce.levelMax ∨ eExNoP.refined = false)
    ∧ 0 < pExNoForce.dim ∧ 0 < eExNoP.nDofsV
    ∧ (SetBoundaryCondition ([] : List ℤ) (Solname 0) 1 0).1 = true
    ∧ (∀ m, eExNoP.solP m = 0) ∧ pExNoForce.force 0 = 0
    ∧ ((picardLocal pExNoForce eExNoP (PicardLocal.init ℤ)).Res
        (pExNoForce.SolPdeIndex 0)).data 0 = -336
    ∧ (adElemLocal pExNoForce eExNoP (ADLocal.init ℤ)).Res.data (0 + 0 * eExNoP.nDofsV) = 882 :=
  ⟨fun _ _ _ _ h => h, Or.inl rfl, Or.inl rfl, by decide, by decide, by decide,
    fun _ => rfl, rfl,
    (C7_dirichlet_rows_assembled pExNoForce (fun _ _ _ _ h => h) eExNoP (PicardLocal.init ℤ)
      (ADLocal.init ℤ) (Or.inl rfl) (Or.inl rfl) 0 0 (by decide) (by decide) [] 1 0 (by decide)
      (fun _ => rfl) rfl).1.trans (by decide),
    (C7_dirichlet_rows_assembled pExNoForce (fun _ _ _ _ h => h) eExNoP (PicardLocal.init ℤ)
      (ADLocal.init ℤ) (Or.inl rfl) (Or.inl rfl) 0 0 (by decide) (by decide) [] 1 0 (by decide)
      (fun _ => rfl) rfl).2.2.1.trans (by decide)⟩

/-- C8: when the matrix is assembled, the diffusion sub-block is symmetric in each kernel. In
`AssembleNavierStokes`, `Jac[k][k][i*nDofsV + j] = Jac[k][k][j*nDofsV + i]` for every component
`k` and all `i, j < nDofsV`; in `AssembleNavierStokes_AD`, with the Jacobian the row-major
`nDofsVP x nDofsVP` matrix of exact derivatives of the accumulated residual, the entry at row
`i + k*nDofsV`, column `j + l*nDofsV` equals the entry at row `j + l*nDofsV`, column
`i + k*nDofsV` for all components `k, l` and all `i, j < nDofsV`. -/
theorem C8_diffusion_block_symmetry (p : Problem R) (hS : p.distinctFields) (e : Element R)
    (st : PicardLocal R) (st' : ADLocal R) (hM : p.assembleMatrix = true) :
    (∀ k i j, k < p.dim → i < e.nDofsV → j < e.nDofsV →
        ((picardLocal p e st).Jac (p.SolPdeIndex k) (p.SolPdeIndex k)).data (i * e.nDofsV + j)
          = ((picardLocal p e st).Jac (p.SolPdeIndex k) (p.SolPdeIndex k)).data
              (j * e.nDofsV + i))
      ∧ (∀ k l i j, k < p.dim → l < p.dim → i < e.nDofsV → j < e.nDofsV →
        (adElemLocal p e st').Jac.data
            ((i + k * e.nDofsV) * (p.dim * e.nDofsV + e.nDofsP) + (j + l * e.nDofsV))
          = (adElemLocal p e st').Jac.data
            ((j + l * e.nDofsV) * (p.dim * e.nDofsV + e.nDofsP) + (i + k * e.nDofsV))) := by
  refine ⟨fun k i j hk hi hj => ?_, fun k l i j hk hl hi hj => ?_⟩
  · rw [picardLocal_Jac_VV p hS e st hM k i j hk hi hj,
      picardLocal_Jac_VV p hS e st hM k j i hk hj hi]
    congr 1
    exact List.map_congr_left (fun g _ => by rw [Lap_symm])
  · rw [adElemLocal_Jac_VV p e st' hM k l i j hk hl hi hj,
      adElemLocal_Jac_VV p e st' hM l k j i hl hk hj hi]
    congr 1
    exact List.map_congr_left (fun g _ => by rw [adDiffusionTangent_symm])

/-- Instance of C8 for the data `pEx`, `eEx`: in the Picard kernel the entries `(0,1)` and `(1,0)`
of `Jac[0][0]` are both `231`; in the AD kernel the entry at row `0 + 0*2`, column `1 + 1*2` and
its transpose are both `-126`. -/
theorem C8_diffusion_block_symmetry_witness :
    pEx.distinctFields ∧ pEx.assembleMatrix = true
      ∧ ((picardLocal pEx eEx (PicardLocal.init ℤ)).Jac (pEx.SolPdeIndex 0)
          (pEx.SolPdeIndex 0)).data (0 * eEx.nDofsV + 1) = 231
      ∧ ((picardLocal pEx eEx (PicardLocal.init ℤ)).Jac (pEx.SolPdeIndex 0)
          (pEx.SolPdeIndex 0)).data (1 * eEx.nDofsV + 0) = 231
      ∧ (adElemLocal pEx eEx (ADLocal.init ℤ)).Jac.data
          ((0 + 0 * eEx.nDofsV) * (pEx.dim * eEx.nDofsV + eEx.nDofsP) + (1 + 1 * eEx.nDofsV))
        = -126
      ∧ (adElemLocal pEx eEx (ADLocal.init ℤ)).Jac.data
          ((1 + 1 * eEx.nDofsV) * (pEx.dim * eEx.nDofsV + eEx.nDofsP) + (0 + 0 * eEx.nDofsV))
        = -126 :=
  ⟨fun _ _ _ _ h => h, rfl, by decide,
    ((C8_diffusion_block_symmetry pEx (fun _ _ _ _ h => h) eEx (PicardLocal.init ℤ)
      (ADLocal.init ℤ) rfl).1 0 0 1 (by decide) (by decide) (by decide)).symm.trans (by decide),
    by decide,
    ((C8_diffusion_block_symmetry pEx (fun _ _ _ _ h => h) eEx (PicardLocal.init ℤ)
      (ADLocal.init ℤ) rfl).2 0 1 0 1 (by decide) (by decide) (by decide)
        (by decide)).symm.trans (by decide)⟩

/-- C9: in `AssembleNavierStokes`, for an element below the finest level (`igrid != levelMax`)
that has been refined, the Gauss loop is not entered (the local buffers are the ones left by the
resize/zero and gather steps), every local residual vector and every local tangent block that is
scattered is zero, and the scatter calls are still issued with the gathered global dof indices:
for each velocity component one `add_vector_blocked` and, when `assembleMatrix`, the
velocity-velocity, velocity-pressure and pressure-velocity `add_matrix_blocked`; then, when
`assembleMatrix`, the pressure-pressure `add_matrix_blocked`; then the pressure
`add_vector_blocked`. -/
theorem C9_picard_amr_skip (p : Problem R) (hS : p.distinctFields) (e : Element R)
    (st : PicardLocal R) (h1 : p.igrid ≠ p.levelMax) (h2 : e.refined = true) :
    picardLocal p e st = picardGather p e (picardResize p e st)
    ∧ picardScatter p (picardLocal p e st)
      = (List.range p.dim).flatMap (fun ivar =>
          [Call.RES_add_vector_blocked (List.replicate e.nDofsV 0)
            ((List.range e.nDofsV).map (e.dofV ivar))]
          ++ (if p.assembleMatrix then
                [Call.KK_add_matrix_blocked (List.replicate (e.nDofsV * e.nDofsV) 0)
                  ((List.range e.nDofsV).map (e.dofV ivar))
                  ((List.range e.nDofsV).map (e.dofV ivar)),
                 Call.KK_add_matrix_blocked (List.replicate (e.nDofsV * e.nDofsP) 0)
                  ((List.range e.nDofsV).map (e.dofV ivar))
                  ((List.range e.nDofsP).map e.dofP),
                 Call.KK_add_matrix_blocked (List.replicate (e.nDofsP * e.nDofsV) 0)
                  ((List.range e.nDofsP).map e.dofP)
                  ((List.range e.nDofsV).map (e.dofV ivar))]
              else []))
        ++ (if p.assembleMatrix then
              [Call.KK_add_matrix_blocked (List.replicate (e.nDofsP * e.nDofsP) 0)
                ((List.range e.nDofsP).map e.dofP) ((List.range e.nDofsP).map e.dofP)]
            else [])
        ++ [Call.RES_add_vector_blocked (List.replicate e.nDofsP 0)
              ((List.range e.nDofsP).map e.dofP)] := by
  refine ⟨?_, ?_⟩
  · rw [picardLocal_eq, picardActiveGauss_neg p e h1 h2]
    rfl
  · rw [picardScatter_eq p hS e st]
    unfold picardCalls picardCallsV picardResV picardResP picardJacVV picardJacVP picardJacPV
      picardDofsV picardDofsP
    simp only [picardActiveGauss_neg p e h1 h2, List.map_nil, List.sum_nil, map_range_zero]

/-- Instance of C9 for the refined element `eExRefined` on the coarse level of `pExCoarse`. -/
theorem C9_picard_amr_skip_witness :
    pExCoarse.distinctFields ∧ pExCoarse.igrid ≠ pExCoarse.levelMax ∧ eExRefined.refined = true
    ∧ picardScatter pExCoarse (picardLocal pExCoarse eExRefined (PicardLocal.init ℤ))
      = [Call.RES_add_vector_blocked [0, 0] [0, 1],
         Call.KK_add_matrix_blocked [0, 0, 0, 0] [0, 1] [0, 1],
         Call.KK_add_matrix_blocked [0, 0] [0, 1] [100],
         Call.KK_add_matrix_blocked [0, 0] [100] [0, 1],
         Call.RES_add_vector_blocked [0, 0] [10, 11],
         Call.KK_add_matrix_blocked [0, 0, 0, 0] [10, 11] [10, 11],
         Call.KK_add_matrix_blocked [0, 0] [10, 11] [100],
         Call.KK_add_matrix_blocked [0, 0] [100] [10, 11],
         Call.KK_add_matrix_blocked [0] [100] [100],
         Call.RES_add_vector_blocked [0] [100]] :=
  ⟨fun _ _ _ _ h => h, by decide, rfl,
    (C9_picard_amr_skip pExCoarse (fun _ _ _ _ h => h) eExRefined (PicardLocal.init ℤ)
      (by decide) rfl).2.trans (by decide)⟩

/-- C10: for every mesh and process, the calls of each routine on the global matrix and vector
are, in order: `KK.zero` once, first, if and only if `assembleMatrix`; then only additive calls
`add_vector_blocked` / `add_matrix_blocked`, the latter only when `assembleMatrix`; then
`RES.close` once and `KK.close` once if and only if `assembleMatrix` (`KK.close` before
`RES.close` in `AssembleNavierStokes`, after it in `AssembleNavierStokes_AD`). No add follows a
close and nothing follows the closes. -/
theorem C10_zero_add_close_protocol (p : Problem R) (m : Mesh R) (iproc : Nat) :
    (∃ adds : List (Call R),
        (∀ c, c ∈ adds → c.isAdd = true ∧ (c.isMatrixAdd = true → p.assembleMatrix = true))
        ∧ AssembleNavierStokes p m iproc
          = (if p.assembleMatrix then [Call.KK_zero] else []) ++ adds
            ++ ((if p.assembleMatrix then [Call.KK_close] else []) ++ [Call.RES_close]))
    ∧ (∃ adds : List (Call R),
        (∀ c, c ∈ adds → c.isAdd = true ∧ (c.isMatrixAdd = true → p.assembleMatrix = true))
        ∧ AssembleNavierStokes_AD p m iproc
          = (if p.assembleMatrix then [Call.KK_zero] else []) ++ adds
            ++ ([Call.RES_close] ++ (if p.assembleMatrix then [Call.KK_close] else []))) := by
  refine ⟨⟨(picardLoop p m (m.IS_Mts2Gmt_elem_offset iproc)
        (m.IS_Mts2Gmt_elem_offset (iproc + 1)) (PicardLocal.init R, [])).2,
      picardElems_adds p m _ (PicardLocal.init R, [])
        (fun c hc => absurd hc (List.not_mem_nil c)), ?_⟩,
    ⟨(adLoop p m (m.IS_Mts2Gmt_elem_offset iproc)
        (m.IS_Mts2Gmt_elem_offset (iproc + 1)) (ADLocal.init R, [])).2,
      adElems_adds p m _ (ADLocal.init R, [])
        (fun c hc => absurd hc (List.not_mem_nil c)), ?_⟩⟩
  · unfold AssembleNavierStokes
    simp only [List.append_assoc]
  · unfold AssembleNavierStokes_AD
    simp only [List.append_assoc]

/-- C11: `SetBoundaryCondition`, for every coordinate vector, field name, face id and time: the
number written to `value` is `0`; the returned flag is `false` (not Dirichlet) exactly when the
field name is `"V"` and the face id is `1` or `3`, and `true` in every other case, so `U` is
Dirichlet zero on every face, `V` is free on the faces `1` and `3` and Dirichlet zero on every
other face; the result does not depend on the coordinates or on the time. -/
theorem C11_SetBoundaryCondition (x : List R) (SolName : String) (facename : Int) (time : R) :
    (SetBoundaryCondition x SolName facename time).2 = 0
    ∧ ((SetBoundaryCondition x SolName facename time).1 = false
        ↔ SolName = "V" ∧ (facename = 1 ∨ facename = 3))
    ∧ ((SetBoundaryCondition x SolName facename time).1 = true
        ↔ ¬ (SolName = "V" ∧ (facename = 1 ∨ facename = 3)))
    ∧ (SetBoundaryCondition x "U" facename time = (true, 0))
    ∧ (SetBoundaryCondition x "V" 1 time = (false, 0))
    ∧ (SetBoundaryCondition x "V" 3 time = (false, 0))
    ∧ (facename ≠ 1 → facename ≠ 3 → SetBoundaryCondition x "V" facename time = (true, 0))
    ∧ (∀ (x' : List R) (time' : R),
        SetBoundaryCondition x' SolName facename time'
          = SetBoundaryCondition x SolName facename time) := by
  have hUV : ¬ ("U" : String) = "V" := by decide
  have h13 : ¬ ((3 : Int) = 1) := by decide
  have h31 : ¬ ((1 : Int) = 3) := by decide
  refine ⟨?_, ?_, ?_, ?_, ?_, ?_, ?_, ?_⟩
  · unfold SetBoundaryCondition
    by_cases h1 : facename = 1 <;> by_cases h3 : facename = 3 <;>
      by_cases hU : SolName = "U" <;> by_cases hV : SolName = "V" <;> simp [h1, h3, hU, hV]
  · unfold SetBoundaryCondition
    by_cases h1 : facename = 1 <;> by_cases h3 : facename = 3 <;>
      by_cases hU : SolName = "U" <;> by_cases hV : SolName = "V" <;>
      simp_all
  · unfold SetBoundaryCondition
    by_cases h1 : facename = 1 <;> by_cases h3 : facename = 3 <;>
      by_cases hU : SolName = "U" <;> by_cases hV : SolName = "V" <;>
      simp_all
  · unfold SetBoundaryCondition
    by_cases h1 : facename = 1 <;> by_cases h3 : facename = 3 <;> simp [h1, h3]
  · unfold SetBoundaryCondition
    simp [hUV, h31]
  · unfold SetBoundaryCondition
    simp [hUV, h13]
  · intro h1 h3
    unfold SetBoundaryCondition
    simp [h1, h3]
  · intro x' time'
    rfl

/-- C12: in `AssembleNavierStokes` with `assembleMatrix`, for every element that passes the test
of line 629, after the Gauss loop
`Jac[k][k][i*nDofsV+j]` is the sum over the Gauss points of
`IRe * (Σ_d dphi_i/dx_d * dphi_j/dx_d) * weight`, the same for every velocity component `k` and
whatever the solution values of the element are;
`Jac[k][P][i*nDofsP+j]` is the sum of `-dphi_i/dx_k * phiP_j * weight`;
`Jac[P][k][i*nDofsV+j]` is the sum of `-phiP_i * dphi_j/dx_k * weight`, which is the transpose
of `Jac[k][P]`; and every entry of `Jac[P][P]` is zero, whatever `IRe` is (`alpha` and `hk` of
lines 509-513 and 619 are read by no statement of the routine). -/
theorem C12_picard_tangent_blocks (p : Problem R) (hS : p.distinctFields) (e : Element R)
    (st : PicardLocal R) (hG : p.igrid = p.levelMax ∨ e.refined = false)
    (hM : p.assembleMatrix = true) :
    (∀ k i j, k < p.dim → i < e.nDofsV → j < e.nDofsV →
      ((picardLocal p e st).Jac (p.SolPdeIndex k) (p.SolPdeIndex k)).data (i * e.nDofsV + j)
        = (e.gauss.map (fun g => p.IRe
            * (∑ d ∈ Finset.range p.dim,
                g.phiV_x_gss (i * p.dim + d) * g.phiV_x_gss (j * p.dim + d))
            * g.weight)).sum)
    ∧ (∀ k k' i j, k < p.dim → k' < p.dim → i < e.nDofsV → j < e.nDofsV →
      ((picardLocal p e st).Jac (p.SolPdeIndex k) (p.SolPdeIndex k)).data (i * e.nDofsV + j)
        = ((picardLocal p e st).Jac (p.SolPdeIndex k') (p.SolPdeIndex k')).data
            (i * e.nDofsV + j))
    ∧ (∀ (u : Nat → Nat → R) (q : Nat → R) k i j, k < p.dim → i < e.nDofsV → j < e.nDofsV →
      ((picardLocal p { e with solV := u, solP := q } st).Jac (p.SolPdeIndex k)
          (p.SolPdeIndex k)).data (i * e.nDofsV + j)
        = ((picardLocal p e st).Jac (p.SolPdeIndex k) (p.SolPdeIndex k)).data
            (i * e.nDofsV + j))
    ∧ (∀ k i j, k < p.dim → i < e.nDofsV → j < e.nDofsP →
      ((picardLocal p e st).Jac (p.SolPdeIndex k) (p.SolPdeIndex p.dim)).data (i * e.nDofsP + j)
        = (e.gauss.map
            (fun g => -(g.phiV_x_gss (i * p.dim + k) * g.phiP_gss j * g.weight))).sum)
    ∧ (∀ k i j, k < p.dim → i < e.nDofsP → j < e.nDofsV →
      ((picardLocal p e st).Jac (p.SolPdeIndex p.dim) (p.SolPdeIndex k)).data (i * e.nDofsV + j)
        = (e.gauss.map
            (fun g => -(g.phiP_gss i * g.phiV_x_gss (j * p.dim + k) * g.weight))).sum)
    ∧ (∀ k i j, k < p.dim → i < e.nDofsV → j < e.nDofsP →
      ((picardLocal p e st).Jac (p.SolPdeIndex p.dim) (p.SolPdeIndex k)).data (j * e.nDofsV + i)
        = ((picardLocal p e st).Jac (p.SolPdeIndex k) (p.SolPdeIndex p.dim)).data
            (i * e.nDofsP + j))
    ∧ (∀ n, n < e.nDofsP * e.nDofsP →
      ((picardLocal p e st).Jac (p.SolPdeIndex p.dim) (p.SolPdeIndex p.dim)).data n = 0) := by
  have hA : picardActiveGauss p e = e.gauss := picardActiveGauss_pos p e hG
  have hVV : ∀ (e' : Element R), picardActiveGauss p e' = e'.gauss →
      ∀ k i j, k < p.dim → i < e'.nDofsV → j < e'.nDofsV →
      ((picardLocal p e' st).Jac (p.SolPdeIndex k) (p.SolPdeIndex k)).data (i * e'.nDofsV + j)
        = (e'.gauss.map (fun g => p.IRe
            * (∑ d ∈ Finset.range p.dim,
                g.phiV_x_gss (i * p.dim + d) * g.phiV_x_gss (j * p.dim + d))
            * g.weight)).sum := by
    intro e' hA' k i j hk hi hj
    rw [picardLocal_Jac_VV p hS e' st hM k i j hk hi hj, hA']
    congr 1
    exact List.map_congr_left (fun g _ => by rw [Lap_eq])
  refine ⟨hVV e hA, ?_, ?_, ?_, ?_, ?_, ?_⟩
  · intro k k' i j hk hk' hi hj
    rw [hVV e hA k i j hk hi hj, hVV e hA k' i j hk' hi hj]
  · intro u q k i j hk hi hj
    have hA' : picardActiveGauss p { e with solV := u, solP := q }
        = ({ e with solV := u, solP := q } : Element R).gauss := picardActiveGauss_pos p _ hG
    rw [hVV e hA k i j hk hi hj]
    exact hVV { e with solV := u, solP := q } hA' k i j hk hi hj
  · intro k i j hk hi hj
    rw [picardLocal_Jac_VP p hS e st hM k i j hk hi hj, hA]
  · intro k i j hk hi hj
    rw [picardLocal_Jac_PV p hS e st hM k i j hk hi hj, hA]
  · intro k i j hk hi hj
    rw [picardLocal_Jac_PV p hS e st hM k j i hk hj hi,
      picardLocal_Jac_VP p hS e st hM k i j hk hi hj]
    congr 1
    exact List.map_congr_left (fun g _ => by ring)
  · intro n hn
    exact picardLocal_Jac_PP p hS e st hM n hn

/-- Instance of C12 for the data `pEx`, `eEx`: the entry `i = 1`, `j = 0` of the velocity-pressure
block of the first velocity component is `-105`. -/
theorem C12_picard_tangent_blocks_witness :
    pEx.distinctFields ∧ (pEx.igrid = pEx.levelMax ∨ eEx.refined = false)
      ∧ pEx.assembleMatrix = true
      ∧ ((picardLocal pEx eEx (PicardLocal.init ℤ)).Jac (pEx.SolPdeIndex 0)
          (pEx.SolPdeIndex pEx.dim)).data (1 * eEx.nDofsP + 0) = -105 :=
  ⟨fun _ _ _ _ h => h, Or.inl rfl, rfl,
    ((C12_picard_tangent_blocks pEx (fun _ _ _ _ h => h) eEx (PicardLocal.init ℤ) (Or.inl rfl)
      rfl).2.2.2.1 0 1 0 (by decide) (by decide) (by decide)).trans (by decide)⟩

/-- C13: in `AssembleNavierStokes_AD`, for every element, the stored residual is the negation of
the value of the active residual: `Res[i + k*nDofsV] = -value(aResV[k][i])` and
`Res[i + dim*nDofsV] = -value(aResP[i])`; one pass of the Gauss loop adds
`-NSV_gss[k] * weight` to `aResV[k][i]`, where `NSV_gss[k]` is the integrand that lines 380-390
build for the test function `i`; hence the stored momentum residual is the sum over the visited
Gauss points of `value(NSV_gss[k]) * weight`. -/
theorem C13_ad_two_negations (p : Problem R) (e : Element R) (st : ADLocal R) (k i : Nat)
    (hk : k < p.dim) (hi : i < e.nDofsV) :
    (adElemLocal p e st).Res.data (i + k * e.nDofsV)
        = -(((adLocal p e st).aResV k).data i).value
    ∧ (∀ j, j < e.nDofsP →
        (adElemLocal p e st).Res.data (j + p.dim * e.nDofsV)
          = -((adLocal p e st).aResP.data j).value)
    ∧ (∀ (s : ADLocal R) (g : GaussPoint R),
        (((adGauss p e s g).aResV k).data i).value
          = ((s.aResV k).data i).value + -((NSV_gss p e g i).data k).value * g.weight)
    ∧ (adElemLocal p e st).Res.data (i + k * e.nDofsV)
        = ((adActiveGauss p e).map
            (fun g => ((NSV_gss p e g i).data k).value * g.weight)).sum := by
  have hN : ∀ g : GaussPoint R, adNSV none p e g k i = ((NSV_gss p e g i).data k).value :=
    fun g => (NSV_gss_ev none p e g k i hk).symm
  refine ⟨?_, ?_, ?_, ?_⟩
  · rw [adElemLocal_Res, adCopyRes_Res_V p e _ k i hk hi]
  · intro j hj
    rw [adElemLocal_Res, adCopyRes_Res_P p e _ j hj]
  · intro s g
    have h := adGaussLoop_aResV_ev none p e k i hk hi s [g]
    simp only [adouble.ev, List.foldl_cons, List.foldl_nil, List.map_cons, List.map_nil,
      List.sum_cons, List.sum_nil, add_zero] at h
    rw [h, hN]
  · rw [adElemLocal_Res_V p e st k i hk hi]
    congr 1
    exact List.map_congr_left (fun g _ => by rw [hN])

/-- Instance of C13 for the data `pEx`, `eEx`: the stored residual at position `0 + 0*nDofsV` is
`497`, the value of `aResV[0][0]` is `-497`. -/
theorem C13_ad_two_negations_witness :
    0 < pEx.dim ∧ 0 < eEx.nDofsV
      ∧ (adElemLocal pEx eEx (ADLocal.init ℤ)).Res.data (0 + 0 * eEx.nDofsV) = 497
      ∧ (((adLocal pEx eEx (ADLocal.init ℤ)).aResV 0).data 0).value = -497 :=
  ⟨by decide, by decide,
    (C13_ad_two_negations pEx eEx (ADLocal.init ℤ) 0 0 (by decide) (by decide)).2.2.2.trans
      (by decide),
    by decide⟩

/-- C14, counterexample: on the coarse level of `pExCoarse` (`level = 0`, `levelMax = 1`,
`assembleMatrix`) the refined element `eExRefined` fails the test of line 326, so its calls on the
stack contain the extraction `jacobian()` but no `new_recording()`; in the element loop over the
mesh `mExRefined` (element `0` unrefined, element `1` refined) the Jacobian of element `1` is
extracted while the recording started for element `0` is the live one. -/
theorem C14_ad_tape_lifecycle_counterexample :
    pExCoarse.assembleMatrix = true
    ∧ adStackElem pExCoarse eExRefined
        = [StackCall.dependent 2, StackCall.dependent 2, StackCall.dependent 1,
           StackCall.independent 2, StackCall.independent 2, StackCall.independent 1,
           StackCall.jacobian, StackCall.clear_independents, StackCall.clear_dependents]
    ∧ Tape.extractions Tape.init (adStackLoop pExCoarse mExRefined 0 2)
        = [(0, some 0), (1, some 0)] := by
  decide

/-- C14, amended: in the element loop of `AssembleNavierStokes_AD`, every Jacobian extraction
made for an element that passes the test of line 326 (`level == levelMax` or not refined) is made
under a recording started during the processing of that same element; with `assembleMatrix`
there is one extraction per owned element, in element order; an element that passes the test
and extracts starts with `new_recording()` and ends with `jacobian()`, `clear_independents()`,
`clear_dependents()`, with only registrations in between; an element that fails the test makes
no `new_recording()`; and after the loop over any range of elements (so at the end of the
processing of every element) no independent and no dependent variable is registered. -/
theorem C14_ad_tape_lifecycle {S : Type} (p : Problem S) (m : Mesh S) (lo hi : Nat) :
    (∀ x ∈ Tape.extractions Tape.init (adStackLoop p m lo hi),
      (p.level = p.levelMax ∨ (m.elem x.1).refined = false) → x.2 = some x.1)
    ∧ (p.assembleMatrix = true →
        (Tape.extractions Tape.init (adStackLoop p m lo hi)).map Prod.fst
          = List.range' lo (hi - lo))
    ∧ (∀ e : Element S, p.assembleMatrix = true →
        (p.level = p.levelMax ∨ e.refined = false) →
        ∃ reg : List StackCall,
          adStackElem p e
            = StackCall.new_recording
                :: (reg ++ [StackCall.jacobian, StackCall.clear_independents,
                      StackCall.clear_dependents])
          ∧ ∀ c ∈ reg, (∃ n, c = StackCall.dependent n) ∨ (∃ n, c = StackCall.independent n))
    ∧ (∀ e : Element S, p.level ≠ p.levelMax → e.refined = true →
        StackCall.new_recording ∉ adStackElem p e)
    ∧ (Tape.run Tape.init (adStackLoop p m lo hi)).independents = 0
    ∧ (Tape.run Tape.init (adStackLoop p m lo hi)).dependents = 0 := by
  refine ⟨(adStackElems_extractions p m _ Tape.init).1,
    (adStackElems_extractions p m _ Tape.init).2, ?_, ?_,
    (adStackElems_run p m _ Tape.init rfl rfl).1, (adStackElems_run p m _ Tape.init rfl rfl).2⟩
  · intro e hM hG
    have hG2 : (p.level = p.levelMax || !e.refined) = true := by
      rcases hG with h1 | h1
      · simp [h1]
      · simp [h1]
    refine ⟨(List.range p.dim).map (fun _ => StackCall.dependent e.nDofsV)
        ++ [StackCall.dependent e.nDofsP]
        ++ (List.range p.dim).map (fun _ => StackCall.independent e.nDofsV)
        ++ [StackCall.independent e.nDofsP], ?_, ?_⟩
    · unfold adStackElem
      rw [if_pos hG2, if_pos hM]
      simp
    · intro c hc
      simp only [List.mem_append, List.mem_map, List.mem_range, List.mem_singleton] at hc
      rcases hc with ((⟨_, _, h⟩ | h) | ⟨_, _, h⟩) | h
      · exact Or.inl ⟨_, h.symm⟩
      · exact Or.inl ⟨_, h⟩
      · exact Or.inr ⟨_, h.symm⟩
      · exact Or.inr ⟨_, h⟩
  · intro e h1 h2
    unfold adStackElem
    simp [h1, h2]

/-- C15: in `AssembleNavierStokes_AD`, for every element, `KKDof` and `Res` both have length
`dim*nDofsV + nDofsP`; position `i + k*nDofsV` holds the global index, resp. the residual, of the
`i`-th local dof of velocity component `k`, position `i + dim*nDofsV` that of the `i`-th pressure
dof; both vectors are filled by the writes `adWrites`, whose positions are the positions below
the length, each written once; the dependent variables `aResV[k][i]`, `aResP[i]` and the
independent variables `solV[k][i]`, `solP[i]` are registered in this same order; so, with
`assembleMatrix`, the entry of the row-major Jacobian in row `r` and column `c` is the derivative
of the dependent variable at position `r` with respect to the independent variable at position
`c`, the positions of `KKDof[r]` and `KKDof[c]`. -/
theorem C15_ad_local_dof_ordering (p : Problem R) (e : Element R) (st : ADLocal R) :
    (adElemLocal p e st).KKDof.size = p.dim * e.nDofsV + e.nDofsP
    ∧ (adElemLocal p e st).Res.size = p.dim * e.nDofsV + e.nDofsP
    ∧ (∀ k i, k < p.dim → i < e.nDofsV →
        (adElemLocal p e st).KKDof.data (i + k * e.nDofsV) = e.dofV k i
        ∧ (adElemLocal p e st).Res.data (i + k * e.nDofsV)
            = -(((adLocal p e st).aResV k).data i).value
        ∧ (adDependents p e (adLocal p e st)).getD (i + k * e.nDofsV) (adouble.ofDouble 0)
            = ((adLocal p e st).aResV k).data i
        ∧ (adIndependents p e).getD (i + k * e.nDofsV) (Var.P 0) = Var.V k i)
    ∧ (∀ i, i < e.nDofsP →
        (adElemLocal p e st).KKDof.data (i + p.dim * e.nDofsV) = e.dofP i
        ∧ (adElemLocal p e st).Res.data (i + p.dim * e.nDofsV)
            = -((adLocal p e st).aResP.data i).value
        ∧ (adDependents p e (adLocal p e st)).getD (i + p.dim * e.nDofsV) (adouble.ofDouble 0)
            = (adLocal p e st).aResP.data i
        ∧ (adIndependents p e).getD (i + p.dim * e.nDofsV) (Var.P 0) = Var.P i)
    ∧ (adElemLocal p e st).KKDof
        = (adWrites p e e.dofV e.dofP).foldl (fun v w => v.set w.1 w.2)
            (st.KKDof.resize (p.dim * e.nDofsV + e.nDofsP) 0)
    ∧ (adElemLocal p e st).Res
        = (adWrites p e (fun k i => -(((adLocal p e st).aResV k).data i).value)
              (fun i => -((adLocal p e st).aResP.data i).value)).foldl
            (fun v w => v.set w.1 w.2)
            ((adLocal p e st).Res.resize (p.dim * e.nDofsV + e.nDofsP) 0)
    ∧ ((adWrites p e e.dofV e.dofP).map Prod.fst).Perm
        (List.range (p.dim * e.nDofsV + e.nDofsP))
    ∧ ((adWrites p e (fun k i => -(((adLocal p e st).aResV k).data i).value)
          (fun i => -((adLocal p e st).aResP.data i).value)).map Prod.fst).Perm
        (List.range (p.dim * e.nDofsV + e.nDofsP))
    ∧ (adDependents p e (adLocal p e st)).length = p.dim * e.nDofsV + e.nDofsP
    ∧ (adIndependents p e).length = p.dim * e.nDofsV + e.nDofsP
    ∧ (p.assembleMatrix = true → ∀ r c, r < p.dim * e.nDofsV + e.nDofsP →
        c < p.dim * e.nDofsV + e.nDofsP →
        (adElemLocal p e st).Jac.data (r * (p.dim * e.nDofsV + e.nDofsP) + c)
          = ((adDependents p e (adLocal p e st)).getD r (adouble.ofDouble 0)).grad
              ((adIndependents p e).getD c (Var.P 0))) := by
  have hK : (adElemLocal p e st).KKDof
      = (adWrites p e e.dofV e.dofP).foldl (fun v w => v.set w.1 w.2)
          (st.KKDof.resize (p.dim * e.nDofsV + e.nDofsP) 0) := by
    rw [adElemLocal_KKDof, adWrites_foldl]
    rfl
  have hR : (adElemLocal p e st).Res
      = (adWrites p e (fun k i => -(((adLocal p e st).aResV k).data i).value)
            (fun i => -((adLocal p e st).aResP.data i).value)).foldl
          (fun v w => v.set w.1 w.2)
          ((adLocal p e st).Res.resize (p.dim * e.nDofsV + e.nDofsP) 0) := by
    rw [adElemLocal_Res, adWrites_foldl]
    rfl
  have hlt : ∀ k i, k < p.dim → i < e.nDofsV → i + k * e.nDofsV < p.dim * e.nDofsV := by
    intro k i hk hi
    have h1 : (k + 1) * e.nDofsV ≤ p.dim * e.nDofsV := Nat.mul_le_mul_right _ hk
    rw [Nat.add_mul, Nat.one_mul] at h1
    omega
  refine ⟨?_, adElemLocal_Res_size p e st, ?_, ?_, hK, hR, adWrites_positions p e _ _,
    adWrites_positions p e _ _, adDependents_length p e _, adIndependents_length p e, ?_⟩
  · rw [adElemLocal_KKDof]
    unfold adGatherKKDof
    dsimp only
    rw [setTail_size, setBlocks_size]
    rfl
  · intro k i hk hi
    refine ⟨?_, ?_, adDependents_getD_V p e _ k i hk hi, adIndependents_getD_V p e k i hk hi⟩
    · rw [adElemLocal_KKDof]
      unfold adGatherKKDof
      dsimp only
      rw [setTail_data_lt _ _ _ _ _ (hlt k i hk hi),
        setBlocks_data e.nDofsV p.dim e.dofV _ k i hk hi]
    · rw [adElemLocal_Res, adCopyRes_Res_V p e _ k i hk hi]
  · intro i hi
    refine ⟨?_, ?_, adDependents_getD_P p e _ i hi, adIndependents_getD_P p e i hi⟩
    · rw [adElemLocal_KKDof]
      unfold adGatherKKDof
      dsimp only
      rw [setTail_data e.nDofsP (p.dim * e.nDofsV) e.dofP _ i hi]
    · rw [adElemLocal_Res, adCopyRes_Res_P p e _ i hi]
  · intro hM r c hr hc
    exact adElemLocal_Jac_entry p e st hM r c hr hc

/-- C16, evaluation at the data `pEx`, `eEx`: raising the pressure dof `p[0]` by one changes the
momentum residual `Res_0[0]` by `-35`, so minus its partial derivative is `35`, while the
assembled entry `Jac[0][P][0]` is `-35`; raising the velocity dof `u_0[0]` by one changes
`Res_0[0]` by `-105` and `Res_P[0]` by `35`, and the assembled entries `Jac[0][0][0] = 105` and
`Jac[P][0][0] = -35` are minus these derivatives. -/
theorem C16_picard_tangent_vs_residual_at_pEx :
    ((picardLocal pEx eEx (PicardLocal.init ℤ)).Jac (pEx.SolPdeIndex 0)
        (pEx.SolPdeIndex pEx.dim)).data (0 * eEx.nDofsP + 0) = -35
    ∧ ((picardLocal pEx (eEx.bumpP 0 1) (PicardLocal.init ℤ)).Res (pEx.SolPdeIndex 0)).data 0
        - ((picardLocal pEx eEx (PicardLocal.init ℤ)).Res (pEx.SolPdeIndex 0)).data 0 = -35
    ∧ ((picardLocal pEx eEx (PicardLocal.init ℤ)).Jac (pEx.SolPdeIndex 0)
        (pEx.SolPdeIndex 0)).data (0 * eEx.nDofsV + 0) = 105
    ∧ ((picardLocal pEx (eEx.bumpV 0 0 1) (PicardLocal.init ℤ)).Res (pEx.SolPdeIndex 0)).data 0
        - ((picardLocal pEx eEx (PicardLocal.init ℤ)).Res (pEx.SolPdeIndex 0)).data 0 = -105
    ∧ ((picardLocal pEx eEx (PicardLocal.init ℤ)).Jac (pEx.SolPdeIndex pEx.dim)
        (pEx.SolPdeIndex 0)).data (0 * eEx.nDofsV + 0) = -35
    ∧ ((picardLocal pEx (eEx.bumpV 0 0 1) (PicardLocal.init ℤ)).Res
          (pEx.SolPdeIndex pEx.dim)).data 0
        - ((picardLocal pEx eEx (PicardLocal.init ℤ)).Res (pEx.SolPdeIndex pEx.dim)).data 0
        = 35 := by
  decide

end Claims

end Femus
